import Mathlib

/-!
Shallow embedding of the `twisted` cube-solver library (Rust) and proofs about
its coordinate encodings, move tables, pruning tables, IDA* solver, 2x2x2
symmetry fixing and notation parsing.

Conventions:
* Machine integers are modelled as `Nat` (overflow is noted where relevant).
* Code that can panic (asserts, unwraps) is modelled with `Option`.
* Rust slices are modelled as `List`; in-place prefix rotation becomes a pure
  function on lists.
-/

namespace Twisted

/-! ## util.rs: rotate_left / rotate_right on a slice -/

/-- Rust `util::rotate_left`: `[a0, a1, ..., ak] -> [a1, ..., ak, a0]`. -/
def rotl {α : Type} : List α → List α
  | [] => []
  | a :: rest => rest ++ [a]

/-- Rust `util::rotate_right`: `[a0, ..., ak] -> [ak, a0, ..., a(k-1)]`. -/
def rotr {α : Type} (l : List α) : List α :=
  (rotl l.reverse).reverse

/-- Rotating only the length-`m` prefix of a list, as Rust does on
`&mut slice[..=index]` with `m = index + 1`. -/
def rotlPre {α : Type} (m : Nat) (l : List α) : List α :=
  rotl (l.take m) ++ l.drop m

/-- Rotate-right of the length-`m` prefix. -/
def rotrPre {α : Type} (m : Nat) (l : List α) : List α :=
  rotr (l.take m) ++ l.drop m

theorem rotl_length {α : Type} (l : List α) : (rotl l).length = l.length := by
  cases l <;> simp [rotl]

theorem rotr_length {α : Type} (l : List α) : (rotr l).length = l.length := by
  simp [rotr, rotl_length]

theorem rotl_perm {α : Type} (l : List α) : (rotl l).Perm l := by
  cases l with
  | nil => simp [rotl]
  | cons a rest => simp [rotl]

theorem rotr_perm {α : Type} (l : List α) : (rotr l).Perm l := by
  have h1 : (rotr l).Perm (rotl l.reverse) := by
    rw [rotr]; exact List.reverse_perm _
  exact h1.trans ((rotl_perm _).trans (List.reverse_perm _))

theorem rotlPre_length {α : Type} (m : Nat) (l : List α) :
    (rotlPre m l).length = l.length := by
  simp [rotlPre, rotl_length]
  omega

theorem rotrPre_length {α : Type} (m : Nat) (l : List α) :
    (rotrPre m l).length = l.length := by
  simp [rotrPre, rotr_length]
  omega

theorem rotlPre_perm {α : Type} (m : Nat) (l : List α) : (rotlPre m l).Perm l := by
  calc (rotlPre m l).Perm (l.take m ++ l.drop m) :=
        (rotl_perm _).append_right _
    _ = l := List.take_append_drop m l

theorem rotrPre_perm {α : Type} (m : Nat) (l : List α) : (rotrPre m l).Perm l := by
  calc (rotrPre m l).Perm (l.take m ++ l.drop m) :=
        (rotr_perm _).append_right _
    _ = l := List.take_append_drop m l

theorem rotl_rotr {α : Type} (l : List α) : rotl (rotr l) = l := by
  cases h : l.reverse with
  | nil => simp at h; simp [h, rotr, rotl]
  | cons a rest =>
    have : l = (a :: rest).reverse := by rw [← h, List.reverse_reverse]
    subst this
    simp [rotr, rotl]

theorem rotr_rotl {α : Type} (l : List α) : rotr (rotl l) = l := by
  cases l with
  | nil => simp [rotl, rotr]
  | cons a rest =>
    simp [rotl, rotr, List.reverse_append]

theorem take_append_exact {α : Type} {A : List α} (B : List α) {m : Nat}
    (h : A.length = m) : (A ++ B).take m = A := by
  subst h; exact List.take_left A B

theorem drop_append_exact {α : Type} {A : List α} (B : List α) {m : Nat}
    (h : A.length = m) : (A ++ B).drop m = B := by
  subst h; exact List.drop_left A B

theorem rotrPre_take {α : Type} (m : Nat) (l : List α) (hm : m ≤ l.length) :
    (rotrPre m l).take m = rotr (l.take m) := by
  apply take_append_exact
  rw [rotr_length, List.length_take]
  omega

theorem rotrPre_drop {α : Type} (m : Nat) (l : List α) (hm : m ≤ l.length) :
    (rotrPre m l).drop m = l.drop m := by
  apply drop_append_exact
  rw [rotr_length, List.length_take]
  omega

theorem rotlPre_take {α : Type} (m : Nat) (l : List α) (hm : m ≤ l.length) :
    (rotlPre m l).take m = rotl (l.take m) := by
  apply take_append_exact
  rw [rotl_length, List.length_take]
  omega

theorem rotlPre_drop {α : Type} (m : Nat) (l : List α) (hm : m ≤ l.length) :
    (rotlPre m l).drop m = l.drop m := by
  apply drop_append_exact
  rw [rotl_length, List.length_take]
  omega

theorem rotlPre_rotrPre {α : Type} (m : Nat) (l : List α) :
    rotlPre m (rotrPre m l) = l := by
  by_cases hm : m ≤ l.length
  · rw [rotlPre, rotrPre_take m l hm, rotrPre_drop m l hm, rotl_rotr,
      List.take_append_drop]
  · push_neg at hm
    have h1 : l.take m = l := List.take_of_length_le (le_of_lt hm)
    have h2 : l.drop m = [] := List.drop_of_length_le (le_of_lt hm)
    have h3 : (rotrPre m l) = rotr l := by rw [rotrPre, h1, h2, List.append_nil]
    have h4 : (rotr l).take m = rotr l :=
      List.take_of_length_le (by rw [rotr_length]; omega)
    have h5 : (rotr l).drop m = [] :=
      List.drop_of_length_le (by rw [rotr_length]; omega)
    rw [rotlPre, h3, h4, h5, List.append_nil, rotl_rotr]

theorem rotl_iterate_length {α : Type} (k : Nat) (l : List α) :
    (rotl^[k] l).length = l.length := by
  induction k generalizing l with
  | zero => rfl
  | succ k ih => rw [Function.iterate_succ_apply, ih, rotl_length]

theorem rotl_iterate_eq {α : Type} (k : Nat) (l : List α) (hk : k ≤ l.length) :
    rotl^[k] l = l.drop k ++ l.take k := by
  induction k with
  | zero => simp
  | succ k ih =>
    have hk' : k ≤ l.length := by omega
    rw [Function.iterate_succ_apply', ih hk']
    have hlt : k < l.length := by omega
    rw [List.drop_eq_getElem_cons hlt]
    show rotl (l[k] :: (l.drop (k + 1) ++ l.take k)) = _
    rw [rotl, List.take_succ, List.getElem?_eq_getElem hlt]
    simp

theorem rotr_iterate_eq {α : Type} (k : Nat) (l : List α) (hk : k ≤ l.length) :
    rotr^[k] l = l.drop (l.length - k) ++ l.take (l.length - k) := by
  have hrev : ∀ j (x : List α), rotr^[j] x = (rotl^[j] x.reverse).reverse := by
    intro j
    induction j with
    | zero => intro x; simp
    | succ j ih =>
      intro x
      rw [Function.iterate_succ_apply, Function.iterate_succ_apply, ih (rotr x)]
      congr 2
      rw [rotr, List.reverse_reverse]
  rw [hrev, rotl_iterate_eq k l.reverse (by simpa using hk), List.reverse_append,
    List.take_reverse, List.drop_reverse]
  simp

theorem rotlPre_iterate {α : Type} (m k : Nat) (l : List α) (hm : m ≤ l.length) :
    (rotlPre m)^[k] l = rotl^[k] (l.take m) ++ l.drop m := by
  induction k with
  | zero => simp [rotlPre]
  | succ k ih =>
    rw [Function.iterate_succ_apply', ih, rotlPre]
    have hlen : (rotl^[k] (l.take m)).length = m := by
      rw [rotl_iterate_length, List.length_take]; omega
    rw [take_append_exact _ hlen, drop_append_exact _ hlen,
      ← Function.iterate_succ_apply' rotl k]

theorem rotrPre_iterate {α : Type} (m k : Nat) (l : List α) (hm : m ≤ l.length) :
    (rotrPre m)^[k] l = rotr^[k] (l.take m) ++ l.drop m := by
  induction k with
  | zero => simp [rotrPre]
  | succ k ih =>
    rw [Function.iterate_succ_apply', ih, rotrPre]
    have hlen : (rotr^[k] (l.take m)).length = m := by
      have : ∀ j (x : List α), (rotr^[j] x).length = x.length := by
        intro j
        induction j with
        | zero => intro x; rfl
        | succ j ihj => intro x; rw [Function.iterate_succ_apply, ihj, rotr_length]
      rw [this, List.length_take]; omega
    rw [take_append_exact _ hlen, drop_append_exact _ hlen,
      ← Function.iterate_succ_apply' rotr k]

theorem rotr_iterate_length {α : Type} (k : Nat) (l : List α) :
    (rotr^[k] l).length = l.length := by
  induction k generalizing l with
  | zero => rfl
  | succ k ih => rw [Function.iterate_succ_apply, ih, rotr_length]

theorem rotrPre_iterate_length {α : Type} (m k : Nat) (l : List α) :
    ((rotrPre m)^[k] l).length = l.length := by
  induction k generalizing l with
  | zero => rfl
  | succ k ih => rw [Function.iterate_succ_apply, ih, rotrPre_length]

theorem rotlPre_iterate_rotrPre_iterate {α : Type} (m k : Nat) (l : List α) :
    (rotlPre m)^[k] ((rotrPre m)^[k] l) = l := by
  induction k generalizing l with
  | zero => rfl
  | succ k ih =>
    rw [Function.iterate_succ_apply' (rotrPre m), Function.iterate_succ_apply (rotlPre m),
      rotlPre_rotrPre, ih]

/-- Entry at index `m-1` after rotating the length-`m` prefix left `k` times,
for `1 ≤ k ≤ m ≤ l.length`: it is the original entry at `k-1`. -/
theorem rotlPre_iterate_getElem_top {α : Type} (m k : Nat) (l : List α)
    (hm : m ≤ l.length) (hk1 : 1 ≤ k) (hkm : k ≤ m) :
    ((rotlPre m)^[k] l)[m-1]? = l[k-1]? := by
  have hm1 : 1 ≤ m := le_trans hk1 hkm
  rw [rotlPre_iterate m k l hm]
  have hlen1 : (rotl^[k] (l.take m)).length = m := by
    rw [rotl_iterate_length, List.length_take]; omega
  rw [List.getElem?_append_left (by omega : m - 1 < (rotl^[k] (l.take m)).length)]
  rw [rotl_iterate_eq k (l.take m) (by rw [List.length_take]; omega)]
  have hdlen : ((l.take m).drop k).length = m - k := by
    rw [List.length_drop, List.length_take]; omega
  rw [List.getElem?_append_right (by omega : ((l.take m).drop k).length ≤ m - 1), hdlen]
  have h1 : m - 1 - (m - k) = k - 1 := by omega
  rw [h1, List.getElem?_take_of_lt (by omega : k - 1 < k),
    List.getElem?_take_of_lt (by omega : k - 1 < m)]

/-- Entry at index `m-1` after rotating the length-`m` prefix right `k` times,
for `k ≤ m - 1`: it is the original entry at `m-1-k`. -/
theorem rotrPre_iterate_getElem_top {α : Type} (m k : Nat) (l : List α)
    (hm : m ≤ l.length) (hm1 : 1 ≤ m) (hkm : k ≤ m - 1) :
    ((rotrPre m)^[k] l)[m-1]? = l[m-1-k]? := by
  rw [rotrPre_iterate m k l hm]
  have hlen1 : (rotr^[k] (l.take m)).length = m := by
    rw [rotr_iterate_length, List.length_take]; omega
  rw [List.getElem?_append_left (by omega : m - 1 < (rotr^[k] (l.take m)).length)]
  have htl : (l.take m).length = m := by rw [List.length_take]; omega
  rw [rotr_iterate_eq k (l.take m) (by omega), htl]
  have hdlen : ((l.take m).drop (m - k)).length = k := by
    rw [List.length_drop, List.length_take]; omega
  rw [List.getElem?_append_right (by omega : ((l.take m).drop (m-k)).length ≤ m - 1), hdlen]
  have h1 : m - 1 - k < m - k := by omega
  rw [List.getElem?_take_of_lt h1, List.getElem?_take_of_lt (by omega : m - 1 - k < m)]

/-! ## coord/permutation.rs: Lehmer-style permutation coordinate -/

/-- The rotate-and-search loop inside `permutation::calculate_coord`: rotate the
length-`m` prefix left until the entry at index `m-1` equals `target`,
returning the rotation count and the rotated list.  `fuel` bounds the number of
rotations; `none` models the `assert!(rot_count < items.len())` panic. -/
def findRot {α : Type} [DecidableEq α] (target : α) (m : Nat) :
    Nat → List α → Option (Nat × List α)
  | 0, l => if l[m-1]? = some target then some (0, l) else none
  | fuel' + 1, l =>
    if l[m-1]? = some target then some (0, l)
    else (findRot target m fuel' (rotlPre m l)).map (fun p => (p.1 + 1, p.2))

/-- The loop of `permutation::calculate_coord`, iterating the index downward
from `ident.length - 1` to `1`: at index `i` search for `ident[i]` in the
length-`(i+1)` prefix by left rotations, then accumulate `c = (c + rot) * i`. -/
def calcCoordAux {α : Type} [DecidableEq α] (ident : List α) (fuel : Nat) :
    Nat → Nat → List α → Option Nat
  | 0, c, _ => some c
  | i + 1, c, l =>
    (ident[i+1]?).bind (fun target =>
      (findRot target (i + 2) fuel l).bind (fun rl =>
        calcCoordAux ident fuel i ((c + rl.1) * (i + 1)) rl.2))

/-- Rust `permutation::calculate_coord` with `items_in_order = ident` and
`items = l`; `none` models the panic inside the rotation search. -/
def calcCoord {α : Type} [DecidableEq α] (ident l : List α) : Option Nat :=
  calcCoordAux ident (l.length - 1) (ident.length - 1) 0 l

/-- Rust `permutation::apply_coord`: for index `i` in `[1, n)`, take
`rot = c % (i+1)`, divide `c` by `i+1`, and rotate the length-`(i+1)` prefix
right `rot` times. -/
def applyCoordAux {α : Type} (n : Nat) (i c : Nat) (l : List α) : List α :=
  if _h : i < n then
    applyCoordAux n (i + 1) (c / (i + 1)) ((rotrPre (i + 1))^[c % (i + 1)] l)
  else l
termination_by n - i

def applyCoord {α : Type} (n c : Nat) (l : List α) : List α :=
  applyCoordAux n 1 c l

/-! ## coord/parity.rs: orientation-parity coordinate -/

/-- Rust `parity::calculate_coord`: digits of all but the last item, base `k`,
little-endian in list order (the Rust fold runs over the reversed list with its
first element skipped). -/
def parityCalc (k : Nat) (items : List Nat) : Nat :=
  (items.reverse.drop 1).foldl (fun c v => c * k + v) 0

/-- Rust `parity::extract_from_coord` collected into a list: emits `n` values;
all but the last are successive base-`k` digits of `coord`, and the last is
`(par + k - sum) % k` where `sum` is the running digit sum modulo `k`. -/
def parityExtAux (k par : Nat) : Nat → Nat → Nat → List Nat
  | 0, _, _ => []
  | 1, _, sum => [(par + k - sum) % k]
  | n + 2, c, sum => (c % k) :: parityExtAux k par (n + 1) (c / k) ((sum + c % k) % k)

def parityExt (k par n c : Nat) : List Nat :=
  parityExtAux k par n c 0

/-! ## Generic facts about the Lehmer encode/decode pair -/

/-- Product `(i+1) * (i+2) * ... * n`: the number of values representable by
the factorial-base digits consumed from index `i` upward. -/
def partialFac (i n : Nat) : Nat :=
  if _h : i < n then (i + 1) * partialFac (i + 1) n else 1
termination_by n - i

theorem partialFac_of_lt {i n : Nat} (h : i < n) :
    partialFac i n = (i + 1) * partialFac (i + 1) n := by
  rw [partialFac, dif_pos h]

theorem partialFac_of_ge {i n : Nat} (h : n ≤ i) : partialFac i n = 1 := by
  rw [partialFac, dif_neg (by omega)]

theorem partialFac_succ_right {i n : Nat} (h : i ≤ n) :
    partialFac i (n + 1) = partialFac i n * (n + 1) := by
  obtain ⟨k, hk⟩ : ∃ k, n - i = k := ⟨n - i, rfl⟩
  induction k generalizing i with
  | zero =>
    have : i = n := by omega
    subst this
    rw [partialFac_of_lt (by omega), partialFac_of_ge (by omega),
      partialFac_of_ge (by omega)]
    ring
  | succ k ih =>
    have hlt : i < n := by omega
    rw [partialFac_of_lt (by omega : i < n + 1), partialFac_of_lt hlt,
      ih (by omega) (by omega)]
    ring

theorem partialFac_one (n : Nat) : partialFac 1 n = n.factorial := by
  induction n with
  | zero => rw [partialFac_of_ge (by omega)]; rfl
  | succ n ih =>
    cases Nat.eq_zero_or_pos n with
    | inl h0 => subst h0; rw [partialFac_of_ge (by omega)]; rfl
    | inr hpos =>
      rw [partialFac_succ_right (by omega), ih, Nat.factorial_succ]
      ring

theorem rotrPre_iterate_perm {α : Type} (m k : Nat) (l : List α) :
    ((rotrPre m)^[k] l).Perm l := by
  induction k with
  | zero => exact List.Perm.refl l
  | succ k ih =>
    rw [Function.iterate_succ_apply' (rotrPre m)]
    exact (rotrPre_perm _ _).trans ih

theorem rotrPre_iterate_getElem_high {α : Type} (m k j : Nat) (l : List α)
    (hj : m ≤ j) : ((rotrPre m)^[k] l)[j]? = l[j]? := by
  induction k with
  | zero => rfl
  | succ k ih =>
    rw [Function.iterate_succ_apply' (rotrPre m)]
    have hone : ∀ x : List α, (rotrPre m x)[j]? = x[j]? := by
      intro x
      by_cases hm : m ≤ x.length
      · have hlen : (rotr (x.take m)).length = m := by
          rw [rotr_length, List.length_take]; omega
        rw [rotrPre, List.getElem?_append_right (by omega), hlen, List.getElem?_drop]
        congr 1
        omega
      · push_neg at hm
        rw [rotrPre, List.take_of_length_le (by omega), List.drop_of_length_le (by omega),
          List.append_nil]
        rw [List.getElem?_eq_none (by rw [rotr_length]; omega),
          List.getElem?_eq_none (by omega)]
    rw [hone, ih]

/-- Undoing right-rotations: the search loop of `calculate_coord` applied to a
right-rotated list finds exactly the rotation count and restores the list,
provided the sought entry sits at the top of the unrotated prefix and the
prefix has no duplicates. -/
theorem findRot_rotrPre_iterate {α : Type} [DecidableEq α] (target : α) (m : Nat)
    (l : List α) (hm1 : 1 ≤ m) (hm : m ≤ l.length)
    (htop : l[m-1]? = some target) (hnd : (l.take m).Nodup) :
    ∀ (r fuel : Nat), r < m → r ≤ fuel →
      findRot target m fuel ((rotrPre m)^[r] l) = some (r, l) := by
  intro r
  induction r with
  | zero =>
    intro fuel _ _
    rw [Function.iterate_zero_apply]
    cases fuel with
    | zero => rw [findRot, if_pos htop]
    | succ fuel' => rw [findRot, if_pos htop]
  | succ r ih =>
    intro fuel hrm hfuel
    have hcheck : ((rotrPre m)^[r+1] l)[m-1]? ≠ some target := by
      rw [rotrPre_iterate_getElem_top m (r+1) l hm hm1 (by omega)]
      intro hcon
      have hc1 : (l.take m)[m-1-(r+1)]? = some target := by
        rw [List.getElem?_take_of_lt (by omega : m-1-(r+1) < m)]; exact hcon
      have hc2 : (l.take m)[m-1]? = some target := by
        rw [List.getElem?_take_of_lt (by omega : m-1 < m)]; exact htop
      have hlt : (l.take m).length = m := by rw [List.length_take]; omega
      have h1 : m - 1 - (r + 1) < (l.take m).length := by omega
      have h2 : m - 1 < (l.take m).length := by omega
      rw [List.getElem?_eq_getElem h1] at hc1
      rw [List.getElem?_eq_getElem h2] at hc2
      have heq : (l.take m)[m-1-(r+1)] = (l.take m)[m-1] := by
        rw [Option.some_inj] at hc1 hc2
        rw [hc1, hc2]
      exact absurd (hnd.getElem_inj_iff.mp heq) (by omega)
    obtain ⟨fuel', rfl⟩ : ∃ f, fuel = f + 1 := ⟨fuel - 1, by omega⟩
    rw [findRot, if_neg hcheck]
    have hroll : rotlPre m ((rotrPre m)^[r+1] l) = (rotrPre m)^[r] l := by
      rw [Function.iterate_succ_apply' (rotrPre m), rotlPre_rotrPre]
    rw [hroll, ih fuel' (by omega) (by omega)]
    rfl

/-- The accumulator of `calculate_coord` only contributes `acc * i!` to the
final value: each remaining step multiplies it by the running index. -/
theorem calcCoordAux_acc {α : Type} [DecidableEq α] (ident : List α) (fuel : Nat) :
    ∀ (i acc : Nat) (l : List α),
      calcCoordAux ident fuel i acc l =
        (calcCoordAux ident fuel i 0 l).map (fun low => acc * i.factorial + low) := by
  intro i
  induction i with
  | zero =>
    intro acc l
    simp [calcCoordAux, Nat.factorial]
  | succ i ih =>
    intro acc l
    rw [calcCoordAux, calcCoordAux]
    cases htarget : ident[i+1]? with
    | none => simp
    | some target =>
      simp only [Option.some_bind]
      cases hfind : findRot target (i+2) fuel l with
      | none => simp
      | some rl =>
        obtain ⟨r, l2⟩ := rl
        simp only [Option.some_bind]
        rw [ih ((acc + r) * (i+1)) l2, ih ((0 + r) * (i+1)) l2, Option.map_map]
        congr 1
        funext low
        simp only [Function.comp_apply, Nat.factorial_succ]
        ring

theorem applyCoordAux_length {α : Type} (n i c : Nat) (l : List α) :
    (applyCoordAux n i c l).length = l.length := by
  obtain ⟨k, hk⟩ : ∃ k, n - i = k := ⟨_, rfl⟩
  induction k generalizing i c l with
  | zero =>
    rw [applyCoordAux, dif_neg (by omega)]
  | succ k ih =>
    rw [applyCoordAux, dif_pos (by omega : i < n), ih _ _ _ (by omega),
      rotrPre_iterate_length]

theorem applyCoordAux_perm {α : Type} (n i c : Nat) (l : List α) :
    (applyCoordAux n i c l).Perm l := by
  obtain ⟨k, hk⟩ : ∃ k, n - i = k := ⟨_, rfl⟩
  induction k generalizing i c l with
  | zero =>
    rw [applyCoordAux, dif_neg (by omega)]
  | succ k ih =>
    rw [applyCoordAux, dif_pos (by omega : i < n)]
    exact (ih _ _ _ (by omega)).trans (rotrPre_iterate_perm _ _ _)

theorem applyCoord_perm {α : Type} (n c : Nat) (l : List α) :
    (applyCoord n c l).Perm l :=
  applyCoordAux_perm n 1 c l

/-- Core of the Lehmer round-trip: running `calculate_coord` on the result of
`apply_coord` from index `i` upward recovers the digits consumed, on top of
whatever the lower indices contribute. -/
theorem calcCoordAux_applyCoordAux {α : Type} [DecidableEq α] (ident : List α)
    (n : Nat) (hn : n = ident.length) :
    ∀ (k i c : Nat) (l : List α), i + k = n → 1 ≤ i →
      l.length = n → l.Nodup →
      (∀ j, i ≤ j → j < n → l[j]? = ident[j]?) →
      c < partialFac i n →
      calcCoordAux ident (n-1) (n-1) 0 (applyCoordAux n i c l) =
        (calcCoordAux ident (n-1) (i-1) 0 l).map (fun low => c * i.factorial + low) := by
  intro k
  induction k with
  | zero =>
    intro i c l hik h1i hlen hnd hagree hc
    have hin : i = n := by omega
    subst hin
    rw [applyCoordAux, dif_neg (by omega)]
    rw [partialFac_of_ge (by omega)] at hc
    have hc0 : c = 0 := by omega
    subst hc0
    have : (fun low => 0 * i.factorial + low) = fun low => low := by
      funext low; ring
    rw [this]
    cases calcCoordAux ident (i-1) (i-1) 0 l <;> rfl
  | succ k ih =>
    intro i c l hik h1i hlen hnd hagree hc
    have hilt : i < n := by omega
    rw [applyCoordAux, dif_pos hilt]
    set r := c % (i + 1) with hr
    set l1 := (rotrPre (i+1))^[r] l with hl1
    have hl1len : l1.length = n := by rw [hl1, rotrPre_iterate_length, hlen]
    have hl1perm : l1.Perm l := rotrPre_iterate_perm _ _ _
    have hl1nd : l1.Nodup := (hl1perm.nodup_iff).mpr hnd
    have hl1agree : ∀ j, i + 1 ≤ j → j < n → l1[j]? = ident[j]? := by
      intro j hj1 hj2
      rw [hl1, rotrPre_iterate_getElem_high _ _ _ _ (by omega)]
      exact hagree j (by omega) hj2
    have hcdiv : c / (i + 1) < partialFac (i + 1) n := by
      rw [partialFac_of_lt hilt] at hc
      exact Nat.div_lt_of_lt_mul hc
    have hmain := ih (i+1) (c / (i+1)) l1 (by omega) (by omega) hl1len hl1nd
      hl1agree hcdiv
    rw [hmain]
    -- now unfold one step of calcCoordAux at index i = (i-1)+1
    obtain ⟨i', rfl⟩ : ∃ i', i = i' + 1 := ⟨i - 1, by omega⟩
    have hsimp1 : i' + 1 + 1 - 1 = i' + 1 := by omega
    rw [hsimp1]
    have htargetl : l[i'+1]? = ident[i'+1]? := hagree (i'+1) (by omega) (by omega)
    have htarget : ∃ t, ident[i'+1]? = some t := by
      have : i' + 1 < ident.length := by omega
      exact ⟨ident[i'+1], List.getElem?_eq_getElem this⟩
    obtain ⟨t, ht⟩ := htarget
    rw [calcCoordAux, ht]
    simp only [Option.some_bind]
    have hrlt : r < i' + 2 := by
      rw [hr]
      exact Nat.mod_lt c (by omega)
    have hfind : findRot t (i' + 2) (n-1) l1 = some (r, l) := by
      have hm2 : i' + 2 ≤ l.length := by omega
      have htop2 : l[i'+2-1]? = some t := by
        rw [(by omega : i' + 2 - 1 = i' + 1), htargetl, ht]
      have hnd2 : (l.take (i'+2)).Nodup := hnd.sublist (List.take_sublist _ _)
      rw [hl1]
      exact findRot_rotrPre_iterate t (i'+2) l (by omega) hm2 htop2 hnd2 r (n-1)
        hrlt (by omega)
    rw [hfind]
    simp only [Option.some_bind]
    rw [calcCoordAux_acc ident (n-1) i' ((0 + r) * (i' + 1)) l, Option.map_map]
    congr 1
    funext low
    simp only [Function.comp_apply]
    have hfact : (i' + 1 + 1).factorial = (i' + 2) * ((i' + 1) * i'.factorial) := by
      rw [Nat.factorial_succ, Nat.factorial_succ]
    have hfact1 : (i' + 1).factorial = (i' + 1) * i'.factorial := Nat.factorial_succ i'
    rw [hfact1, hfact]
    have hreq : r = c % (i' + 2) := by rw [hr]
    rw [hreq]
    set d := c / (i' + 2) with hd
    set mm := c % (i' + 2) with hmm2
    have hc2 : c = (i' + 2) * d + mm := (Nat.div_add_mod c (i' + 2)).symm
    rw [hc2]
    ring

/-- Lehmer round-trip: `calculate_coord` applied to `apply_coord`'s output
recovers any in-range coordinate, over a duplicate-free identity list. -/
theorem calcCoord_applyCoord {α : Type} [DecidableEq α] (ident : List α)
    (hnd : ident.Nodup) (c : Nat) (hc : c < ident.length.factorial) :
    calcCoord ident (applyCoord ident.length c ident) = some c := by
  cases Nat.eq_zero_or_pos ident.length with
  | inl h0 =>
    have hc0 : c = 0 := by
      rw [h0] at hc
      simpa [Nat.factorial] using hc
    subst hc0
    rw [applyCoord, applyCoordAux, dif_neg (by omega), calcCoord, h0]
    rfl
  | inr hpos =>
    set n := ident.length with hn
    have hlen' : (applyCoord n c ident).length = n := by
      rw [applyCoord, applyCoordAux_length]
    rw [calcCoord, hlen', ← hn, applyCoord]
    have hmain := calcCoordAux_applyCoordAux ident n hn (n - 1) 1 c ident
      (by omega) (by omega) hn.symm hnd
      (fun j _ _ => rfl) (by rw [partialFac_one]; exact hc)
    rw [hmain]
    have h10 : (1 : Nat) - 1 = 0 := rfl
    rw [h10, calcCoordAux]
    simp [Nat.factorial]

theorem rotlPre_iterate_length {α : Type} (m k : Nat) (l : List α) :
    ((rotlPre m)^[k] l).length = l.length := by
  induction k generalizing l with
  | zero => rfl
  | succ k ih => rw [Function.iterate_succ_apply, ih, rotlPre_length]

theorem rotlPre_iterate_perm {α : Type} (m k : Nat) (l : List α) :
    ((rotlPre m)^[k] l).Perm l := by
  induction k with
  | zero => exact List.Perm.refl l
  | succ k ih =>
    rw [Function.iterate_succ_apply' (rotlPre m)]
    exact (rotlPre_perm _ _).trans ih

theorem rotlPre_iterate_getElem_high {α : Type} (m k j : Nat) (l : List α)
    (hj : m ≤ j) : ((rotlPre m)^[k] l)[j]? = l[j]? := by
  induction k with
  | zero => rfl
  | succ k ih =>
    rw [Function.iterate_succ_apply' (rotlPre m)]
    have hone : ∀ x : List α, (rotlPre m x)[j]? = x[j]? := by
      intro x
      by_cases hm : m ≤ x.length
      · have hlen : (rotl (x.take m)).length = m := by
          rw [rotl_length, List.length_take]; omega
        rw [rotlPre, List.getElem?_append_right (by omega), hlen, List.getElem?_drop]
        congr 1
        omega
      · push_neg at hm
        rw [rotlPre, List.take_of_length_le (by omega), List.drop_of_length_le (by omega),
          List.append_nil]
        rw [List.getElem?_eq_none (by rw [rotl_length]; omega),
          List.getElem?_eq_none (by omega)]
    rw [hone, ih]

/-- The search loop succeeds whenever some number of rotations within the fuel
budget brings the target to the top of the prefix. -/
theorem findRot_isSome_of_hit {α : Type} [DecidableEq α] (target : α) (m : Nat) :
    ∀ (fuel : Nat) (l : List α),
      (∃ s, s ≤ fuel ∧ ((rotlPre m)^[s] l)[m-1]? = some target) →
      ∃ r l2, findRot target m fuel l = some (r, l2) ∧ l2 = (rotlPre m)^[r] l ∧
        l2[m-1]? = some target := by
  intro fuel
  induction fuel with
  | zero =>
    rintro l ⟨s, hs, hhit⟩
    have hs0 : s = 0 := by omega
    subst hs0
    rw [Function.iterate_zero_apply] at hhit
    exact ⟨0, l, by rw [findRot, if_pos hhit], by simp, hhit⟩
  | succ fuel ih =>
    rintro l ⟨s, hs, hhit⟩
    by_cases h0 : l[m-1]? = some target
    · exact ⟨0, l, by rw [findRot, if_pos h0], by simp, h0⟩
    · have hs1 : 1 ≤ s := by
        rcases Nat.eq_zero_or_pos s with h | h
        · subst h; rw [Function.iterate_zero_apply] at hhit; exact absurd hhit h0
        · exact h
      obtain ⟨s', rfl⟩ : ∃ s', s = s' + 1 := ⟨s - 1, by omega⟩
      have hhit' : ((rotlPre m)^[s'] (rotlPre m l))[m-1]? = some target := by
        rw [← Function.iterate_succ_apply (rotlPre m)]
        exact hhit
      obtain ⟨r, l2, hfind, hl2, htop⟩ := ih (rotlPre m l) ⟨s', by omega, hhit'⟩
      refine ⟨r + 1, l2, ?_, ?_, htop⟩
      · rw [findRot, if_neg h0, hfind]; rfl
      · rw [hl2, ← Function.iterate_succ_apply (rotlPre m)]

/-- If the target occurs in the length-`m` prefix, a hit occurs within `m-1`
left rotations of that prefix. -/
theorem exists_hit_of_mem {α : Type} [DecidableEq α] (target : α) (m : Nat)
    (l : List α) (hm1 : 1 ≤ m) (hm : m ≤ l.length) (hmem : target ∈ l.take m) :
    ∃ s, s ≤ m - 1 ∧ ((rotlPre m)^[s] l)[m-1]? = some target := by
  obtain ⟨p, hp, hval⟩ := List.getElem_of_mem hmem
  have hplen : p < m := by
    have := hp
    rw [List.length_take] at this
    omega
  have hlp : l[p]? = some target := by
    have h1 : (l.take m)[p]? = some target := by
      rw [List.getElem?_eq_getElem hp, hval]
    rw [List.getElem?_take_of_lt hplen] at h1
    exact h1
  by_cases hpm : p = m - 1
  · refine ⟨0, by omega, ?_⟩
    rw [Function.iterate_zero_apply, ← hpm]
    exact hlp
  · refine ⟨p + 1, by omega, ?_⟩
    rw [rotlPre_iterate_getElem_top m (p+1) l hm (by omega) (by omega)]
    simpa using hlp

/-- `calculate_coord`'s downward loop succeeds on any rearrangement of the
identity list, given that the entries above the current index already agree
with the identity. -/
theorem calcCoordAux_isSome_of_perm {α : Type} [DecidableEq α] (ident : List α)
    (n : Nat) (hn : n = ident.length) (hnd : ident.Nodup) :
    ∀ (i acc : Nat) (l : List α), i < n →
      l.length = n → l.Perm ident →
      (∀ j, i < j → j < n → l[j]? = ident[j]?) →
      (calcCoordAux ident (n-1) i acc l).isSome := by
  intro i
  induction i with
  | zero =>
    intro acc l _ _ _ _
    rw [calcCoordAux]
    rfl
  | succ i ih =>
    intro acc l hin hlen hperm hagree
    have hident : i + 1 < ident.length := by omega
    rw [calcCoordAux, List.getElem?_eq_getElem hident, Option.some_bind]
    have hmem : ident[i+1] ∈ l.take (i+2) := by
      have hmeml : ident[i+1] ∈ l := hperm.mem_iff.mpr (ident.getElem_mem hident)
      obtain ⟨p, hp, hval⟩ := List.getElem_of_mem hmeml
      have hple : p < i + 2 := by
        by_contra hcon
        push_neg at hcon
        have hpn : p < n := by omega
        have h1 : l[p]? = ident[p]? := hagree p (by omega) hpn
        have h2 : ident[p]? = some ident[i+1] := by
          rw [← h1, List.getElem?_eq_getElem hp, hval]
        have hpi : p < ident.length := by omega
        rw [List.getElem?_eq_getElem hpi] at h2
        have := hnd.getElem_inj_iff.mp (Option.some_inj.mp h2)
        omega
      have : (l.take (i+2))[p]? = some ident[i+1] := by
        rw [List.getElem?_take_of_lt hple, List.getElem?_eq_getElem hp, hval]
      exact List.getElem?_mem this
    obtain ⟨s, hs, hhit⟩ :=
      exists_hit_of_mem ident[i+1] (i+2) l (by omega) (by omega) hmem
    obtain ⟨r, l2, hfind, hl2, htop⟩ :=
      findRot_isSome_of_hit ident[i+1] (i+2) (n-1) l ⟨s, by omega, hhit⟩
    rw [hfind, Option.some_bind]
    apply ih
    · omega
    · rw [hl2, rotlPre_iterate_length, hlen]
    · rw [hl2]
      exact (rotlPre_iterate_perm (i+2) r l).trans hperm
    · intro j hj1 hj2
      by_cases hje : j = i + 1
      · subst hje
        have : i + 2 - 1 = i + 1 := by omega
        rw [this] at htop
        rw [htop, List.getElem?_eq_getElem hident]
      · rw [hl2, rotlPre_iterate_getElem_high _ _ _ _ (by omega)]
        exact hagree j (by omega) hj2

/-- `calculate_coord` never panics on a genuine rearrangement of the identity
list. -/
theorem calcCoord_isSome_of_perm {α : Type} [DecidableEq α] (ident l : List α)
    (hnd : ident.Nodup) (hperm : l.Perm ident) :
    (calcCoord ident l).isSome := by
  have hlen : l.length = ident.length := hperm.length_eq
  cases Nat.eq_zero_or_pos ident.length with
  | inl h0 =>
    rw [calcCoord, h0, hlen, h0]
    rw [(by omega : (0:Nat) - 1 = 0), calcCoordAux]
    rfl
  | inr hpos =>
    rw [calcCoord, hlen]
    exact calcCoordAux_isSome_of_perm ident ident.length rfl hnd
      (ident.length - 1) 0 l (by omega) hlen hperm
      (fun j hj1 hj2 => absurd hj2 (by omega))

/-- Faithfulness of the Lehmer pair on genuine permutations: every
rearrangement of a duplicate-free identity list is `apply_coord` of exactly the
coordinate that `calculate_coord` assigns to it. -/
theorem applyCoord_calcCoord {α : Type} [DecidableEq α] (ident l : List α)
    (hnd : ident.Nodup) (hperm : l.Perm ident) :
    ∃ c, c < ident.length.factorial ∧ calcCoord ident l = some c ∧
      applyCoord ident.length c ident = l := by
  classical
  set n := ident.length with hn
  set dec : Nat → List α := fun c => applyCoord n c ident with hdec
  have hinj : Set.InjOn dec (Finset.range n.factorial) := by
    intro c1 hc1 c2 hc2 heq
    simp only [Finset.coe_range, Set.mem_Iio] at hc1 hc2
    have h1 := calcCoord_applyCoord ident hnd c1 hc1
    have h2 := calcCoord_applyCoord ident hnd c2 hc2
    rw [hdec] at heq
    simp only at heq
    rw [heq] at h1
    rw [h2] at h1
    exact (Option.some_inj.mp h1).symm
  have hsub : (Finset.range n.factorial).image dec ⊆ ident.permutations.toFinset := by
    intro x hx
    rw [Finset.mem_image] at hx
    obtain ⟨c, _, rfl⟩ := hx
    rw [List.mem_toFinset, List.mem_permutations]
    exact applyCoord_perm n c ident
  have hcard1 : ((Finset.range n.factorial).image dec).card = n.factorial := by
    rw [Finset.card_image_of_injOn hinj, Finset.card_range]
  have hcard2 : ident.permutations.toFinset.card = n.factorial := by
    rw [List.toFinset_card_of_nodup (List.nodup_permutations ident hnd),
      List.length_permutations]
  have heqset : (Finset.range n.factorial).image dec = ident.permutations.toFinset :=
    Finset.eq_of_subset_of_card_le hsub (by omega)
  have hlmem : l ∈ ident.permutations.toFinset := by
    rw [List.mem_toFinset, List.mem_permutations]
    exact hperm
  rw [← heqset, Finset.mem_image] at hlmem
  obtain ⟨c, hcmem, hcl⟩ := hlmem
  rw [Finset.mem_range] at hcmem
  refine ⟨c, hcmem, ?_, hcl⟩
  rw [← hcl]
  exact calcCoord_applyCoord ident hnd c hcmem

/-! ## Bridging lemmas: apply_coord versus map and prefix -/

theorem rotl_map {α β : Type} (f : α → β) (l : List α) :
    (rotl l).map f = rotl (l.map f) := by
  cases l <;> simp [rotl]

theorem rotr_map {α β : Type} (f : α → β) (l : List α) :
    (rotr l).map f = rotr (l.map f) := by
  simp [rotr, rotl_map]

theorem rotrPre_map {α β : Type} (f : α → β) (m : Nat) (l : List α) :
    (rotrPre m l).map f = rotrPre m (l.map f) := by
  simp [rotrPre, rotr_map, List.map_take, List.map_drop]

theorem rotrPre_iterate_map {α β : Type} (f : α → β) (m k : Nat) (l : List α) :
    ((rotrPre m)^[k] l).map f = (rotrPre m)^[k] (l.map f) := by
  induction k generalizing l with
  | zero => rfl
  | succ k ih =>
    rw [Function.iterate_succ_apply, Function.iterate_succ_apply, ← rotrPre_map, ih]

theorem applyCoordAux_map {α β : Type} (f : α → β) (n i c : Nat) (l : List α) :
    (applyCoordAux n i c l).map f = applyCoordAux n i c (l.map f) := by
  obtain ⟨k, hk⟩ : ∃ k, n - i = k := ⟨_, rfl⟩
  induction k generalizing i c l with
  | zero =>
    rw [applyCoordAux, dif_neg (by omega), applyCoordAux, dif_neg (by omega)]
  | succ k ih =>
    conv_lhs => rw [applyCoordAux]
    conv_rhs => rw [applyCoordAux]
    rw [dif_pos (by omega : i < n), dif_pos (by omega : i < n),
      ih _ _ _ (by omega), rotrPre_iterate_map]

theorem applyCoord_map {α β : Type} (f : α → β) (n c : Nat) (l : List α) :
    (applyCoord n c l).map f = applyCoord n c (l.map f) :=
  applyCoordAux_map f n 1 c l

theorem rotrPre_append {α : Type} (m : Nat) (A B : List α) (hA : m ≤ A.length) :
    rotrPre m (A ++ B) = rotrPre m A ++ B := by
  rw [rotrPre, rotrPre, List.take_append_of_le_length hA,
    List.drop_append_of_le_length hA, List.append_assoc]

theorem rotrPre_iterate_append {α : Type} (m k : Nat) (A B : List α)
    (hA : m ≤ A.length) :
    (rotrPre m)^[k] (A ++ B) = (rotrPre m)^[k] A ++ B := by
  induction k with
  | zero => rfl
  | succ k ih =>
    rw [Function.iterate_succ_apply' (rotrPre m), Function.iterate_succ_apply' (rotrPre m),
      ih, rotrPre_append m _ B (by rw [rotrPre_iterate_length]; omega)]

theorem applyCoordAux_append {α : Type} (n i c : Nat) (A B : List α)
    (hA : n ≤ A.length) :
    applyCoordAux n i c (A ++ B) = applyCoordAux n i c A ++ B := by
  obtain ⟨k, hk⟩ : ∃ k, n - i = k := ⟨_, rfl⟩
  induction k generalizing i c A with
  | zero =>
    rw [applyCoordAux, dif_neg (by omega), applyCoordAux, dif_neg (by omega)]
  | succ k ih =>
    conv_lhs => rw [applyCoordAux]
    conv_rhs => rw [applyCoordAux]
    rw [dif_pos (by omega : i < n), dif_pos (by omega : i < n),
      rotrPre_iterate_append _ _ _ _ (by omega),
      ih _ _ _ (by rw [rotrPre_iterate_length]; omega) (by omega)]

theorem applyCoord_append {α : Type} (n c : Nat) (A B : List α) (hA : n ≤ A.length) :
    applyCoord n c (A ++ B) = applyCoord n c A ++ B :=
  applyCoordAux_append n 1 c A B hA

/-- Mapping a length-`nn` list's getter over the first `kk` indices recovers
`take kk` of the list. -/
theorem map_finRange_take_getD {α : Type} (nn kk : Nat) (L : List α) (d : α)
    (hL : L.length = nn) (hk : kk ≤ nn) :
    ((List.finRange nn).take kk).map (fun (q : Fin nn) => L.getD q.val d) = L.take kk := by
  apply List.ext_getElem
  · simp only [List.length_map, List.length_take, List.length_finRange, hL]
  · intro j hj1 hj2
    have hjk : j < kk := by
      simp only [List.length_map, List.length_take, List.length_finRange] at hj1
      omega
    have hjn : j < nn := by omega
    rw [List.getElem_map, List.getElem_take, List.getElem_take, List.getElem_finRange]
    simp only [Fin.coe_cast, Fin.val_mk]
    rw [List.getD_eq_getElem?_getD, List.getElem?_eq_getElem (by omega : j < L.length)]
    rfl

/-! ## cube/corner.rs and cube/edge.rs: cubie data model -/

/-- Corner positions ULB, UBR, URF, UFL, DLF, DFR, DRB, DBL are modelled by
their enum indices 0..7; DBL is index 7.  Corner orientations Oriented,
Clockwise, AntiClockwise are 0, 1, 2. -/
structure Corner where
  pos : Fin 8
  orient : Fin 3
deriving DecidableEq, Repr

/-- Rust `CornerOrient::add`: `(a + b) % 3`. -/
def addOrient (a b : Fin 3) : Fin 3 := ⟨(a.val + b.val) % 3, by omega⟩

/-- Rust `CornerOrient::neg`: `(3 - a) % 3`. -/
def negOrient (a : Fin 3) : Fin 3 := ⟨(3 - a.val) % 3, by omega⟩

/-- A corner permutation indexed by destination position: `p q` is the cubie
currently at position `q` (Rust `CornerPerm`, an array of 8 `Corner`s). -/
abbrev CornerPerm := Fin 8 → Corner

def cornerIdentity : CornerPerm := fun q => ⟨q, 0⟩

/-- Rust `CornerPerm::sequence` ("first self, then other"):
`res[pos] = (self[other[pos].pos].pos, other[pos].orient + self[other[pos].pos].orient)`. -/
def cornerSeq (a b : CornerPerm) : CornerPerm := fun pos =>
  let finalSrc := a (b pos).pos
  ⟨finalSrc.pos, addOrient (b pos).orient finalSrc.orient⟩

/-- Rust `CornerPerm::invert`: write `(pos, -self[pos].orient)` at destination
`self[pos].pos` for each `pos` in order, over the `empty()` scratch value
(which Rust fills with `(URF, Oriented)`, index 2). -/
def cornerInv (a : CornerPerm) : CornerPerm :=
  (List.finRange 8).foldl
    (fun res pos => Function.update res (a pos).pos ⟨pos, negOrient (a pos).orient⟩)
    (fun _ => ⟨2, 0⟩)

/-- Rust `PuzzlePerm::ntimes` for non-negative `n` (the solver and primitives
only use non-negative counts). -/
def cornerNTimes (a : CornerPerm) : Nat → CornerPerm
  | 0 => cornerIdentity
  | 1 => a
  | n + 2 => cornerSeq (cornerNTimes a (n + 1)) a

/-- Edge positions UF, UL, UB, UR, DF, DR, DB, DL, FR, FL, BL, BR are indices
0..11; the E slice is indices 8..11. -/
structure Edge where
  pos : Fin 12
  orient : Fin 2
deriving DecidableEq, Repr

/-- Rust `EdgeOrient::add`: `from_bool(self == other)` (equality-xor). -/
def addEdgeOrient (a b : Fin 2) : Fin 2 := if a = b then 0 else 1

abbrev EdgePerm := Fin 12 → Edge

def edgeIdentity : EdgePerm := fun q => ⟨q, 0⟩

def edgeSeq (a b : EdgePerm) : EdgePerm := fun pos =>
  let finalSrc := a (b pos).pos
  ⟨finalSrc.pos, addEdgeOrient (b pos).orient finalSrc.orient⟩

/-- Rust `EdgePerm::invert` (edge orientation is its own inverse; scratch
value is `(UF, Oriented)`, index 0). -/
def edgeInv (a : EdgePerm) : EdgePerm :=
  (List.finRange 12).foldl
    (fun res pos => Function.update res (a pos).pos ⟨pos, (a pos).orient⟩)
    (fun _ => ⟨0, 0⟩)

def cornerPermOfList (l : List Corner) : CornerPerm := fun q => l.getD q ⟨2, 0⟩

def cornerPermToList (a : CornerPerm) : List Corner := (List.finRange 8).map a

def edgePermOfList (l : List Edge) : EdgePerm := fun q => l.getD q ⟨0, 0⟩

def edgePermToList (a : EdgePerm) : List Edge := (List.finRange 12).map a

/-! ## cube/cube2/primitives.rs: the six basic 2x2x2 face turns -/

namespace Cube2

def uPerm : CornerPerm := cornerPermOfList
  [⟨3,0⟩, ⟨0,0⟩, ⟨1,0⟩, ⟨2,0⟩, ⟨4,0⟩, ⟨5,0⟩, ⟨6,0⟩, ⟨7,0⟩]

def rPerm : CornerPerm := cornerPermOfList
  [⟨0,0⟩, ⟨2,1⟩, ⟨5,2⟩, ⟨3,0⟩, ⟨4,0⟩, ⟨6,1⟩, ⟨1,2⟩, ⟨7,0⟩]

def fPerm : CornerPerm := cornerPermOfList
  [⟨0,0⟩, ⟨1,0⟩, ⟨3,1⟩, ⟨4,2⟩, ⟨5,1⟩, ⟨2,2⟩, ⟨6,0⟩, ⟨7,0⟩]

def dPerm : CornerPerm := cornerPermOfList
  [⟨0,0⟩, ⟨1,0⟩, ⟨2,0⟩, ⟨3,0⟩, ⟨7,0⟩, ⟨4,0⟩, ⟨5,0⟩, ⟨6,0⟩]

def lPerm : CornerPerm := cornerPermOfList
  [⟨7,2⟩, ⟨1,0⟩, ⟨2,0⟩, ⟨0,1⟩, ⟨3,2⟩, ⟨5,0⟩, ⟨6,0⟩, ⟨4,1⟩]

def bPerm : CornerPerm := cornerPermOfList
  [⟨1,1⟩, ⟨6,2⟩, ⟨2,0⟩, ⟨3,0⟩, ⟨4,0⟩, ⟨5,0⟩, ⟨7,1⟩, ⟨0,2⟩]

def uPrimePerm : CornerPerm := cornerInv uPerm
def u2Perm : CornerPerm := cornerNTimes uPerm 2
def rPrimePerm : CornerPerm := cornerInv rPerm
def r2Perm : CornerPerm := cornerNTimes rPerm 2
def fPrimePerm : CornerPerm := cornerInv fPerm
def f2Perm : CornerPerm := cornerNTimes fPerm 2

end Cube2

/-! ## cube/cube2/mod.rs: the UrfTurn move set -/

inductive UrfTurn
  | U | U2 | UP | R | R2 | RP | F | F2 | FP
deriving DecidableEq, Repr

def UrfTurn.index : UrfTurn → Nat
  | .U => 0 | .U2 => 1 | .UP => 2
  | .R => 3 | .R2 => 4 | .RP => 5
  | .F => 6 | .F2 => 7 | .FP => 8

/-- Enumeration order of `UrfTurn` (strum `EnumIter` declaration order). -/
def UrfTurn.iterList : List UrfTurn :=
  [.U, .U2, .UP, .R, .R2, .RP, .F, .F2, .FP]

def UrfTurn.permutation : UrfTurn → CornerPerm
  | .U => Cube2.uPerm
  | .U2 => Cube2.u2Perm
  | .UP => Cube2.uPrimePerm
  | .R => Cube2.rPerm
  | .R2 => Cube2.r2Perm
  | .RP => Cube2.rPrimePerm
  | .F => Cube2.fPerm
  | .F2 => Cube2.f2Perm
  | .FP => Cube2.fPrimePerm

/-- Rust `UrfTurn::combines_with`, verbatim: the pair is first ordered so that
`a` is the one with the larger derived-`Ord` value (declaration order), then
matched against the listed patterns. -/
def UrfTurn.combinesWith (self other : UrfTurn) : Bool :=
  let ab := if self.index ≥ other.index then (self, other) else (other, self)
  if ab.1 = ab.2 then true
  else
    match ab.1, ab.2 with
    | .U, .U2 | .U, .UP | .U2, .UP => true
    | .R, .R2 | .R, .RP | .R2, .RP => true
    | .F, .F2 | .F, .FP | .F2, .FP => true
    | _, _ => false

/-! ## cube/cube2/coord.rs and cube/coord/{corner,edge}.rs: coordinates -/

/-- Rust `important_corners()`: the first seven corner positions (DBL, index
7, excluded). -/
def importantCorners : List (Fin 8) := (List.finRange 8).take 7

def fullCorners : List (Fin 8) := List.finRange 8

def fullEdges : List (Fin 12) := List.finRange 12

def identCorners : List Corner := (List.finRange 8).map (fun q => ⟨q, 0⟩)

def identEdges : List Edge := (List.finRange 12).map (fun q => ⟨q, 0⟩)

/-- `CornerOrient7Coord::from_perm`. -/
def cornerOrient7FromPerm (p : CornerPerm) : Nat :=
  parityCalc 3 (importantCorners.map (fun q => ((p q).orient : Nat)))

/-- `CornerOrient7Coord::into_perm`: default (identity) positions, the first
seven orientations from `extract_from_coord` (slot DBL keeps the default).
The extracted values are always `< 3`; Rust's `from_i8_unsafe` would panic
otherwise, so the `% 3` is a no-op. -/
def cornerOrient7IntoPerm (c : Nat) : CornerPerm := fun q =>
  ⟨q, ⟨(parityExt 3 0 7 c).getD q.val 0 % 3, by omega⟩⟩

/-- `CornerPos7Coord::from_perm`. -/
def cornerPos7FromPerm (p : CornerPerm) : Option Nat :=
  calcCoord importantCorners (importantCorners.map (fun q => (p q).pos))

/-- `CornerPos7Coord::into_perm`: `apply_coord` over the first seven entries
of the default cubie array. -/
def cornerPos7IntoPerm (c : Nat) : CornerPerm :=
  cornerPermOfList (applyCoord 7 c identCorners)

/-- `Corner7Coord::from_perm`: `orient_index * 5040 + pos_index`. -/
def corner7FromPerm (p : CornerPerm) : Option Nat :=
  (cornerPos7FromPerm p).map (fun pc => cornerOrient7FromPerm p * 5040 + pc)

/-- `Corner7Coord::into_perm`: positions from the position sub-coordinate with
orientations overwritten from the orientation sub-coordinate. -/
def corner7IntoPerm (c : Nat) : CornerPerm := fun q =>
  ⟨(cornerPos7IntoPerm (c % 5040) q).pos, (cornerOrient7IntoPerm (c / 5040) q).orient⟩

/-- `CornerOrientCoord::from_perm` (all eight corners). -/
def cornerOrientFromPerm (p : CornerPerm) : Nat :=
  parityCalc 3 (fullCorners.map (fun q => ((p q).orient : Nat)))

def cornerOrientIntoPerm (c : Nat) : CornerPerm := fun q =>
  ⟨q, ⟨(parityExt 3 0 8 c).getD q.val 0 % 3, by omega⟩⟩

/-- `CornerPosCoord::from_perm` (all eight corners). -/
def cornerPosFromPerm (p : CornerPerm) : Option Nat :=
  calcCoord fullCorners (fullCorners.map (fun q => (p q).pos))

def cornerPosIntoPerm (c : Nat) : CornerPerm :=
  cornerPermOfList (applyCoord 8 c identCorners)

/-- `EdgeOrientCoord::from_perm` (all twelve edges, base 2). -/
def edgeOrientFromPerm (p : EdgePerm) : Nat :=
  parityCalc 2 (fullEdges.map (fun q => ((p q).orient : Nat)))

def edgeOrientIntoPerm (c : Nat) : EdgePerm := fun q =>
  ⟨q, ⟨(parityExt 2 0 12 c).getD q.val 0 % 2, by omega⟩⟩

/-! ### Round trips for the corner / edge coordinates -/

theorem importantCorners_nodup : importantCorners.Nodup := by decide

theorem parityExtAux_length (k par : Nat) :
    ∀ n c sum, (parityExtAux k par n c sum).length = n := by
  intro n
  induction n with
  | zero => intro c sum; rfl
  | succ n ih =>
    intro c sum
    cases n with
    | zero => rfl
    | succ n => rw [parityExtAux, List.length_cons, ih]

theorem parityExtAux_lt (k par : Nat) (hk : 0 < k) :
    ∀ n c sum, ∀ x ∈ parityExtAux k par n c sum, x < k := by
  intro n
  induction n with
  | zero => intro c sum x hx; exact absurd hx (List.not_mem_nil x)
  | succ n ih =>
    intro c sum x hx
    cases n with
    | zero =>
      rw [parityExtAux, List.mem_singleton] at hx
      subst hx
      exact Nat.mod_lt _ hk
    | succ n =>
      rw [parityExtAux, List.mem_cons] at hx
      cases hx with
      | inl h => subst h; exact Nat.mod_lt _ hk
      | inr h => exact ih _ _ x h

/-- The fold of `parity::calculate_coord` is the little-endian base-`k` digit
fold over all but the last item. -/
theorem parityCalc_eq_foldr (k : Nat) (os : List Nat) :
    parityCalc k os = os.dropLast.foldr (fun v acc => acc * k + v) 0 := by
  rw [parityCalc, List.drop_one, List.tail_reverse, List.foldl_reverse]

/-- Folding the digits emitted by `extract_from_coord` recovers the coordinate
(the last, parity-completing entry is dropped by the fold). -/
theorem parityFold_parityExtAux (k : Nat) (_hk : 0 < k) :
    ∀ n c sum par, c < k ^ (n - 1) → 1 ≤ n →
      (parityExtAux k par n c sum).dropLast.foldr (fun v acc => acc * k + v) 0 = c := by
  intro n
  induction n with
  | zero => intro c sum par _ h1; omega
  | succ n ih =>
    intro c sum par hc _
    cases n with
    | zero =>
      have hc' : c < k ^ 0 := hc
      rw [pow_zero] at hc'
      have hc0 : c = 0 := by omega
      subst hc0
      rfl
    | succ n =>
      rw [parityExtAux]
      have hlen : (parityExtAux k par (n+1) (c / k) ((sum + c % k) % k)).length = n + 1 :=
        parityExtAux_length k par (n+1) (c / k) ((sum + c % k) % k)
      rw [List.dropLast_cons_of_ne_nil (by intro hnil; rw [hnil] at hlen; simp at hlen)]
      rw [List.foldr_cons]
      have hdiv : c / k < k ^ n := by
        have hpow : k ^ (n + 1) = k * k ^ n := by ring
        apply Nat.div_lt_of_lt_mul
        rw [← hpow]
        simpa using hc
      rw [ih (c / k) ((sum + c % k) % k) par (by simpa using hdiv) (by omega)]
      exact Nat.div_add_mod' c k

theorem parityCalc_parityExt (k n c : Nat) (hk : 0 < k) (hn : 1 ≤ n)
    (hc : c < k ^ (n - 1)) :
    parityCalc k (parityExt k 0 n c) = c := by
  rw [parityCalc_eq_foldr, parityExt]
  exact parityFold_parityExtAux k hk n c 0 0 hc hn

/-- Faithfulness of the parity pair: extracting from the computed coordinate
reproduces the original digit list, provided all entries are in range and the
total digit sum is `par` modulo `k`. -/
theorem parityExtAux_parityCalc (k : Nat) (hk : 0 < k) :
    ∀ (os : List Nat) (par sum : Nat), (∀ x ∈ os, x < k) → sum < k →
      (sum + os.sum) % k = par % k →
      parityExtAux k par os.length
        (os.dropLast.foldr (fun v acc => acc * k + v) 0) sum = os := by
  intro os
  induction os with
  | nil => intro par sum _ _ _; rfl
  | cons d rest ih =>
    intro par sum hall hsum hpar
    cases rest with
    | nil =>
      show [(par + k - sum) % k] = [d]
      have hd : d < k := hall d (List.mem_cons_self d [])
      have hpar' : (sum + d) % k = par % k := by simpa using hpar
      have h1 : (par + k - sum) % k = d := by
        have ha : par + k - sum = par + (k - sum) := by omega
        rw [ha, Nat.add_mod, ← hpar', ← Nat.add_mod]
        have hb : sum + d + (k - sum) = d + k := by omega
        rw [hb, Nat.add_mod_right, Nat.mod_eq_of_lt hd]
      rw [h1]
    | cons d2 rest2 =>
      have hd : d < k := hall d (List.mem_cons_self d _)
      have hRne : (d2 :: rest2) ≠ [] := by simp
      have hfold : ((d :: d2 :: rest2).dropLast.foldr (fun v acc => acc * k + v) 0) =
          ((d2 :: rest2).dropLast.foldr (fun v acc => acc * k + v) 0) * k + d := by
        rw [List.dropLast_cons_of_ne_nil hRne, List.foldr_cons]
      rw [List.length_cons, List.length_cons, hfold, parityExtAux]
      have hmodk' : (((d2 :: rest2).dropLast.foldr (fun v acc => acc * k + v) 0) * k + d) % k
          = d := by
        rw [Nat.add_comm, Nat.add_mul_mod_self_right, Nat.mod_eq_of_lt hd]
      have hdivk : (((d2 :: rest2).dropLast.foldr (fun v acc => acc * k + v) 0) * k + d) / k
          = (d2 :: rest2).dropLast.foldr (fun v acc => acc * k + v) 0 := by
        rw [Nat.add_comm, Nat.add_mul_div_right d _ hk, Nat.div_eq_of_lt hd, Nat.zero_add]
      rw [hmodk', hdivk]
      have h1 : ∀ x ∈ d2 :: rest2, x < k := fun x hx => hall x (List.mem_cons_of_mem d hx)
      have h2 : (sum + d) % k < k := Nat.mod_lt _ hk
      have h3 : ((sum + d) % k + (d2 :: rest2).sum) % k = par % k := by
        rw [Nat.mod_add_mod, Nat.add_assoc]
        simpa using hpar
      have := ih par ((sum + d) % k) h1 h2 h3
      rw [List.length_cons] at this
      rw [this]

theorem map_finRange_take_getD_all {α : Type} (nn kk : Nat) (L : List α) (d : α)
    (hL : L.length = kk) (hk : kk ≤ nn) :
    ((List.finRange nn).take kk).map (fun (q : Fin nn) => L.getD q.val d) = L := by
  apply List.ext_getElem
  · simp only [List.length_map, List.length_take, List.length_finRange, hL]
    omega
  · intro j hj1 hj2
    have hjk : j < kk := by
      simp only [List.length_map, List.length_take, List.length_finRange] at hj1
      omega
    have hjn : j < nn := by omega
    rw [List.getElem_map, List.getElem_take, List.getElem_finRange]
    simp only [Fin.coe_cast, Fin.val_mk]
    rw [List.getD_eq_getElem?_getD, List.getElem?_eq_getElem (by omega : j < L.length)]
    rfl

/-- Reading the digit list back through `% k` (a no-op on in-range digits)
over the first `kk` slots of `0..nn` recovers the digit list. -/
theorem map_finRange_take_getD_mod (nn kk k : Nat) (L : List Nat)
    (hL : L.length = kk) (hkn : kk ≤ nn) (hall : ∀ x ∈ L, x < k) :
    ((List.finRange nn).take kk).map (fun (q : Fin nn) => L.getD q.val 0 % k) = L := by
  have h1 : ((List.finRange nn).take kk).map (fun (q : Fin nn) => L.getD q.val 0) = L :=
    map_finRange_take_getD_all nn kk L 0 hL hkn
  have h3 : (((List.finRange nn).take kk).map
      (fun (q : Fin nn) => L.getD q.val 0)).map (fun x => x % k)
      = ((List.finRange nn).take kk).map (fun (q : Fin nn) => L.getD q.val 0 % k) := by
    rw [List.map_map]
    exact rfl
  rw [← h3, h1]
  have h5 : L.map (fun x => x % k) = L.map (fun x => x) :=
    List.map_congr_left (fun x hx => Nat.mod_eq_of_lt (hall x hx))
  rw [h5]
  exact List.map_id' L

theorem cornerOrient7_round (c : Nat) (hc : c < 729) :
    cornerOrient7FromPerm (cornerOrient7IntoPerm c) = c := by
  have hlen : (parityExt 3 0 7 c).length = 7 := parityExtAux_length 3 0 7 c 0
  have hall : ∀ x ∈ parityExt 3 0 7 c, x < 3 := parityExtAux_lt 3 0 (by omega) 7 c 0
  have hmap : importantCorners.map (fun q => ((cornerOrient7IntoPerm c q).orient : Nat))
      = parityExt 3 0 7 c :=
    map_finRange_take_getD_mod 8 7 3 _ hlen (by omega) hall
  rw [cornerOrient7FromPerm, hmap]
  exact parityCalc_parityExt 3 7 c (by omega) (by omega)
    (by have h : (3:Nat) ^ (7-1) = 729 := by norm_num
        omega)

/-- The first `kk` corner positions in order. -/
def cornerPre (kk : Nat) : List (Fin 8) := (List.finRange 8).take kk

theorem importantCorners_eq_pre : importantCorners = cornerPre 7 := rfl

theorem fullCorners_eq_pre : fullCorners = cornerPre 8 := by
  rw [fullCorners, cornerPre]
  exact (List.take_of_length_le (by simp)).symm

/-- Reading back the first `kk` positions of `apply_coord` applied to the
identity cubie array yields `apply_coord` of the identity position list. -/
theorem cornerPosItems_eq (kk c : Nat) (hk : kk ≤ 8) :
    (cornerPre kk).map
      (fun q => (cornerPermOfList (applyCoord kk c identCorners) q).pos) =
    applyCoord kk c (cornerPre kk) := by
  set L := applyCoord kk c identCorners with hL
  have hLlen : L.length = 8 := by
    rw [hL, applyCoord, applyCoordAux_length]
    simp [identCorners]
  have h1 : (cornerPre kk).map (fun q => cornerPermOfList L q) = L.take kk :=
    map_finRange_take_getD 8 kk L ⟨2, 0⟩ hLlen hk
  have h1' : (cornerPre kk).map (fun q => (cornerPermOfList L q).pos) =
      (L.take kk).map Corner.pos := by
    rw [← h1, List.map_map]
    rfl
  have htklen : (identCorners.take kk).length = kk := by
    simp [identCorners, List.length_take]
    omega
  have h2 : L.take kk = applyCoord kk c (identCorners.take kk) := by
    have hsplit : identCorners = identCorners.take kk ++ identCorners.drop kk :=
      (List.take_append_drop kk identCorners).symm
    rw [hL]
    conv_lhs => rw [hsplit]
    rw [applyCoord_append kk c _ _ (by omega)]
    exact take_append_exact _
      (by rw [applyCoord, applyCoordAux_length]; omega)
  have h3 : (identCorners.take kk).map Corner.pos = cornerPre kk := by
    rw [identCorners, cornerPre, ← List.map_take, List.map_map]
    have : (Corner.pos ∘ fun (q : Fin 8) => (⟨q, 0⟩ : Corner)) = fun q => q := rfl
    rw [this, List.map_id']
  rw [h1', h2, applyCoord_map, h3]

theorem cornerPre_nodup (kk : Nat) : (cornerPre kk).Nodup :=
  (List.nodup_finRange 8).sublist (List.take_sublist _ _)

theorem cornerPre_length (kk : Nat) (hk : kk ≤ 8) : (cornerPre kk).length = kk := by
  simp [cornerPre, List.length_take]
  omega

/-- Version of the Lehmer round trip with the length named explicitly. -/
theorem calcCoord_applyCoord' {α : Type} [DecidableEq α] (ident : List α)
    (n : Nat) (hn : ident.length = n) (hnd : ident.Nodup) (c : Nat)
    (hc : c < n.factorial) :
    calcCoord ident (applyCoord n c ident) = some c := by
  subst hn
  exact calcCoord_applyCoord ident hnd c hc

/-- `CornerPos7Coord` round trip. -/
theorem cornerPos7_round (c : Nat) (hc : c < 5040) :
    cornerPos7FromPerm (cornerPos7IntoPerm c) = some c := by
  rw [cornerPos7FromPerm, cornerPos7IntoPerm, importantCorners_eq_pre,
    cornerPosItems_eq 7 c (by omega)]
  exact calcCoord_applyCoord' (cornerPre 7) 7 (cornerPre_length 7 (by omega))
    (cornerPre_nodup 7) c (by norm_num [Nat.factorial]; omega)

/-- `CornerPosCoord` round trip. -/
theorem cornerPos_round (c : Nat) (hc : c < 40320) :
    cornerPosFromPerm (cornerPosIntoPerm c) = some c := by
  rw [cornerPosFromPerm, cornerPosIntoPerm, fullCorners_eq_pre,
    cornerPosItems_eq 8 c (by omega)]
  exact calcCoord_applyCoord' (cornerPre 8) 8 (cornerPre_length 8 (by omega))
    (cornerPre_nodup 8) c (by norm_num [Nat.factorial]; omega)

/-- `Corner7Coord` round trip. -/
theorem corner7_round (c : Nat) (hc : c < 729 * 5040) :
    corner7FromPerm (corner7IntoPerm c) = some c := by
  have hpos : cornerPos7FromPerm (corner7IntoPerm c) =
      cornerPos7FromPerm (cornerPos7IntoPerm (c % 5040)) := rfl
  have horient : cornerOrient7FromPerm (corner7IntoPerm c) =
      cornerOrient7FromPerm (cornerOrient7IntoPerm (c / 5040)) := rfl
  rw [corner7FromPerm, hpos, cornerPos7_round (c % 5040) (by omega), horient,
    cornerOrient7_round (c / 5040) (by omega : c / 5040 < 729)]
  show some (c / 5040 * 5040 + c % 5040) = some c
  rw [Nat.div_add_mod' c 5040]

/-- `CornerOrientCoord` round trip. -/
theorem cornerOrient_round (c : Nat) (hc : c < 2187) :
    cornerOrientFromPerm (cornerOrientIntoPerm c) = c := by
  have hlen : (parityExt 3 0 8 c).length = 8 := parityExtAux_length 3 0 8 c 0
  have hall : ∀ x ∈ parityExt 3 0 8 c, x < 3 := parityExtAux_lt 3 0 (by omega) 8 c 0
  have hmap : (cornerPre 8).map (fun q => ((cornerOrientIntoPerm c q).orient : Nat))
      = parityExt 3 0 8 c :=
    map_finRange_take_getD_mod 8 8 3 _ hlen (by omega) hall
  rw [cornerOrientFromPerm, fullCorners_eq_pre, hmap]
  exact parityCalc_parityExt 3 8 c (by omega) (by omega)
    (by have h : (3:Nat) ^ (8-1) = 2187 := by norm_num
        omega)

theorem fullEdges_eq_take : fullEdges = (List.finRange 12).take 12 := by
  rw [fullEdges, List.take_of_length_le (by rw [List.length_finRange])]

/-- `EdgeOrientCoord` round trip. -/
theorem edgeOrient_round (c : Nat) (hc : c < 2048) :
    edgeOrientFromPerm (edgeOrientIntoPerm c) = c := by
  have hlen : (parityExt 2 0 12 c).length = 12 := parityExtAux_length 2 0 12 c 0
  have hall : ∀ x ∈ parityExt 2 0 12 c, x < 2 := parityExtAux_lt 2 0 (by omega) 12 c 0
  have hmap : ((List.finRange 12).take 12).map
      (fun (q : Fin 12) => ((edgeOrientIntoPerm c q).orient : Nat))
      = parityExt 2 0 12 c :=
    map_finRange_take_getD_mod 12 12 2 _ hlen (by omega) hall
  rw [edgeOrientFromPerm, fullEdges_eq_take, hmap]
  exact parityCalc_parityExt 2 12 c (by omega) (by omega)
    (by have h : (2:Nat) ^ (12-1) = 2048 := by norm_num
        omega)

/-! ## A structurally recursive twin of `apply_coord`, for concrete evaluation -/

/-- `applyCoordAux` with the loop counter distance made an explicit fuel; the
two agree (`applyCoordAux_eq_run`), and this version reduces definitionally. -/
def applyCoordRun {α : Type} : Nat → Nat → Nat → List α → List α
  | 0, _, _, l => l
  | fuel + 1, i, c, l =>
    applyCoordRun fuel (i + 1) (c / (i + 1)) ((rotrPre (i + 1))^[c % (i + 1)] l)

theorem applyCoordAux_eq_run {α : Type} (n : Nat) :
    ∀ fuel i c (l : List α), n - i = fuel →
      applyCoordAux n i c l = applyCoordRun fuel i c l := by
  intro fuel
  induction fuel with
  | zero =>
    intro i c l h
    rw [applyCoordAux, dif_neg (by omega)]
    rfl
  | succ fuel ih =>
    intro i c l h
    rw [applyCoordAux, dif_pos (by omega), applyCoordRun]
    exact ih (i + 1) _ _ (by omega)

theorem applyCoord_eq_run {α : Type} (n c : Nat) (l : List α) :
    applyCoord n c l = applyCoordRun (n - 1) 1 c l :=
  applyCoordAux_eq_run n (n - 1) 1 c l rfl

/-! ## cube/cube2/primitives.rs: remaining derived turns (D, L, B families) -/

namespace Cube2

def dPrimePerm : CornerPerm := cornerInv dPerm
def d2Perm : CornerPerm := cornerNTimes dPerm 2
def lPrimePerm : CornerPerm := cornerInv lPerm
def l2Perm : CornerPerm := cornerNTimes lPerm 2
def bPrimePerm : CornerPerm := cornerInv bPerm
def b2Perm : CornerPerm := cornerNTimes bPerm 2

end Cube2

/-! ## cube/cube3/mod.rs and primitives.rs: the 3x3x3 cube -/

/-- Rust `Cube3Perm`: a corner permutation paired with an edge permutation. -/
structure Cube3Perm where
  corners : CornerPerm
  edges : EdgePerm

def cube3Identity : Cube3Perm := ⟨cornerIdentity, edgeIdentity⟩

/-- `Cube3Perm::sequence` is componentwise. -/
def cube3Seq (a b : Cube3Perm) : Cube3Perm :=
  ⟨cornerSeq a.corners b.corners, edgeSeq a.edges b.edges⟩

def cube3Inv (a : Cube3Perm) : Cube3Perm := ⟨cornerInv a.corners, edgeInv a.edges⟩

/-- `PuzzlePerm::ntimes` on `Cube3Perm` for non-negative counts. -/
def cube3NTimes (a : Cube3Perm) : Nat → Cube3Perm
  | 0 => cube3Identity
  | 1 => a
  | n + 2 => cube3Seq (cube3NTimes a (n + 1)) a

namespace Cube3

/-- `edge_prim::U` (edges UF..BR are indices 0..11; NotOriented is 1). -/
def uEdge : EdgePerm := edgePermOfList
  [⟨3,0⟩, ⟨0,0⟩, ⟨1,0⟩, ⟨2,0⟩, ⟨4,0⟩, ⟨5,0⟩, ⟨6,0⟩, ⟨7,0⟩, ⟨8,0⟩, ⟨9,0⟩, ⟨10,0⟩, ⟨11,0⟩]

def rEdge : EdgePerm := edgePermOfList
  [⟨0,0⟩, ⟨1,0⟩, ⟨2,0⟩, ⟨8,0⟩, ⟨4,0⟩, ⟨11,0⟩, ⟨6,0⟩, ⟨7,0⟩, ⟨5,0⟩, ⟨9,0⟩, ⟨10,0⟩, ⟨3,0⟩]

def fEdge : EdgePerm := edgePermOfList
  [⟨9,1⟩, ⟨1,0⟩, ⟨2,0⟩, ⟨3,0⟩, ⟨8,1⟩, ⟨5,0⟩, ⟨6,0⟩, ⟨7,0⟩, ⟨0,1⟩, ⟨4,1⟩, ⟨10,0⟩, ⟨11,0⟩]

def dEdge : EdgePerm := edgePermOfList
  [⟨0,0⟩, ⟨1,0⟩, ⟨2,0⟩, ⟨3,0⟩, ⟨7,0⟩, ⟨4,0⟩, ⟨5,0⟩, ⟨6,0⟩, ⟨8,0⟩, ⟨9,0⟩, ⟨10,0⟩, ⟨11,0⟩]

def lEdge : EdgePerm := edgePermOfList
  [⟨0,0⟩, ⟨10,0⟩, ⟨2,0⟩, ⟨3,0⟩, ⟨4,0⟩, ⟨5,0⟩, ⟨6,0⟩, ⟨9,0⟩, ⟨8,0⟩, ⟨1,0⟩, ⟨7,0⟩, ⟨11,0⟩]

def bEdge : EdgePerm := edgePermOfList
  [⟨0,0⟩, ⟨1,0⟩, ⟨11,1⟩, ⟨3,0⟩, ⟨4,0⟩, ⟨5,0⟩, ⟨10,1⟩, ⟨7,0⟩, ⟨8,0⟩, ⟨9,0⟩, ⟨2,1⟩, ⟨6,1⟩]

/-- `primitives::u()` for the 3x3x3: 2x2x2 corner primitive plus the edge
primitive; the derived turns are built with `invert` and `ntimes(2)` exactly
as in the source. -/
def u3 : Cube3Perm := ⟨Cube2.uPerm, uEdge⟩
def r3 : Cube3Perm := ⟨Cube2.rPerm, rEdge⟩
def f3 : Cube3Perm := ⟨Cube2.fPerm, fEdge⟩
def d3 : Cube3Perm := ⟨Cube2.dPerm, dEdge⟩
def l3 : Cube3Perm := ⟨Cube2.lPerm, lEdge⟩
def b3 : Cube3Perm := ⟨Cube2.bPerm, bEdge⟩
def uPrime3 : Cube3Perm := cube3Inv u3
def u23 : Cube3Perm := cube3NTimes u3 2
def rPrime3 : Cube3Perm := cube3Inv r3
def r23 : Cube3Perm := cube3NTimes r3 2
def fPrime3 : Cube3Perm := cube3Inv f3
def f23 : Cube3Perm := cube3NTimes f3 2
def dPrime3 : Cube3Perm := cube3Inv d3
def d23 : Cube3Perm := cube3NTimes d3 2
def lPrime3 : Cube3Perm := cube3Inv l3
def l23 : Cube3Perm := cube3NTimes l3 2
def bPrime3 : Cube3Perm := cube3Inv b3
def b23 : Cube3Perm := cube3NTimes b3 2

end Cube3

/-- Rust `CubeTurn` (cube/cube3/mod.rs), in declaration order. -/
inductive CubeTurn
  | U | U2 | UP | R | R2 | RP | F | F2 | FP
  | D | D2 | DP | L | L2 | LP | B | B2 | BP
deriving DecidableEq, Repr

def CubeTurn.index : CubeTurn → Nat
  | .U => 0 | .U2 => 1 | .UP => 2
  | .R => 3 | .R2 => 4 | .RP => 5
  | .F => 6 | .F2 => 7 | .FP => 8
  | .D => 9 | .D2 => 10 | .DP => 11
  | .L => 12 | .L2 => 13 | .LP => 14
  | .B => 15 | .B2 => 16 | .BP => 17

/-- strum `EnumIter` order for `CubeTurn`. -/
def CubeTurn.iterList : List CubeTurn :=
  [.U, .U2, .UP, .R, .R2, .RP, .F, .F2, .FP,
   .D, .D2, .DP, .L, .L2, .LP, .B, .B2, .BP]

def CubeTurn.permutation : CubeTurn → Cube3Perm
  | .U => Cube3.u3   | .U2 => Cube3.u23 | .UP => Cube3.uPrime3
  | .R => Cube3.r3   | .R2 => Cube3.r23 | .RP => Cube3.rPrime3
  | .F => Cube3.f3   | .F2 => Cube3.f23 | .FP => Cube3.fPrime3
  | .D => Cube3.d3   | .D2 => Cube3.d23 | .DP => Cube3.dPrime3
  | .L => Cube3.l3   | .L2 => Cube3.l23 | .LP => Cube3.lPrime3
  | .B => Cube3.b3   | .B2 => Cube3.b23 | .BP => Cube3.bPrime3

/-- Rust `CubeTurn::combines_with`, verbatim: the pair is first ordered so
that the first component has the larger derived-`Ord` value (declaration
order), then matched against the listed patterns. -/
def CubeTurn.combinesWith (self other : CubeTurn) : Bool :=
  let ab := if self.index ≥ other.index then (self, other) else (other, self)
  if ab.1 = ab.2 then true
  else
    match ab.1, ab.2 with
    | .U, .U2 | .U, .UP | .U2, .UP => true
    | .R, .R2 | .R, .RP | .R2, .RP => true
    | .F, .F2 | .F, .FP | .F2, .FP => true
    | .D, .D2 | .D, .DP | .D2, .DP => true
    | .L, .L2 | .L, .LP | .L2, .LP => true
    | .B, .B2 | .B, .BP | .B2, .BP => true
    | _, _ => false

/-- Rust `G1CubeTurn` (phase-2 generators), in declaration order. -/
inductive G1CubeTurn
  | U | U2 | UP | D | D2 | DP | R2 | F2 | L2 | B2
deriving DecidableEq, Repr

def G1CubeTurn.index : G1CubeTurn → Nat
  | .U => 0 | .U2 => 1 | .UP => 2
  | .D => 3 | .D2 => 4 | .DP => 5
  | .R2 => 6 | .F2 => 7 | .L2 => 8 | .B2 => 9

def G1CubeTurn.iterList : List G1CubeTurn :=
  [.U, .U2, .UP, .D, .D2, .DP, .R2, .F2, .L2, .B2]

def G1CubeTurn.permutation : G1CubeTurn → Cube3Perm
  | .U => Cube3.u3 | .U2 => Cube3.u23 | .UP => Cube3.uPrime3
  | .D => Cube3.d3 | .D2 => Cube3.d23 | .DP => Cube3.dPrime3
  | .R2 => Cube3.r23 | .F2 => Cube3.f23 | .L2 => Cube3.l23 | .B2 => Cube3.b23

/-- Rust `G1CubeTurn::combines_with`, verbatim. -/
def G1CubeTurn.combinesWith (self other : G1CubeTurn) : Bool :=
  let ab := if self.index ≥ other.index then (self, other) else (other, self)
  if ab.1 = ab.2 then true
  else
    match ab.1, ab.2 with
    | .U, .U2 | .U, .UP | .U2, .UP => true
    | .D, .D2 | .D, .DP | .D2, .DP => true
    | _, _ => false

/-! ## cube/cube3/coord/util.rs -/

/-- Rust `in_e_slice`: `pos > EdgePos::DL` (DL has index 7). -/
def inESlice (q : Fin 12) : Bool := decide (7 < q.val)

/-- Rust `ud_edges()`: the first eight edge positions. -/
def udEdges : List (Fin 12) := (List.finRange 12).take 8

/-- Rust `e_slice_edges()`: the last four edge positions. -/
def eSliceEdges : List (Fin 12) := (List.finRange 12).drop 8

/-! ## cube/cube3/coord/phase1.rs: EEdgePosCoord and ESliceAndEOCoord -/

/-- `EEdgePosCoord::from_perm`: scan slots in order, counting E-slice edges
seen (`k`) and accumulating `C(n, k-1)` at each non-E edge after the first E
edge. -/
def eEdgePosFromPerm (p : EdgePerm) : Nat :=
  ((List.finRange 12).foldl
    (fun (st : Nat × Nat) q =>
      if inESlice (p q).pos then (st.1, st.2 + 1)
      else if 0 < st.2 then (st.1 + Nat.choose q.val (st.2 - 1), st.2)
      else st)
    (0, 0)).1

/-- The loop of `EEdgePosCoord::into_perm` over positions 11 down to 0:
either the position holds an E edge (consume `k`, stopping after the last) or
`rotate_left` of the prefix `..=p` shifts a non-E edge into position `p`. -/
def eEdgePosIntoPermList : List Nat → Nat → Nat → List Edge → List Edge
  | [], _, _, res => res
  | p :: rest, c, k, res =>
    if c < Nat.choose p k then
      if k = 0 then res
      else eEdgePosIntoPermList rest c (k - 1) res
    else eEdgePosIntoPermList rest (c - Nat.choose p k) k (rotlPre (p + 1) res)

def eEdgePosIntoPerm (c : Nat) : EdgePerm :=
  edgePermOfList (eEdgePosIntoPermList ((List.range 12).reverse) c 3 identEdges)

/-- `ESliceAndEOCoord::from_perm` (composite code `a * 2048 + b`). -/
def eSliceAndEOFromPerm (p : EdgePerm) : Nat :=
  eEdgePosFromPerm p * 2048 + edgeOrientFromPerm p

/-- `ESliceAndEOCoord::into_perm`: positions of the E-slice sub-coordinate
with every orientation overwritten from the orientation sub-coordinate. -/
def eSliceAndEOIntoPerm (c : Nat) : EdgePerm := fun q =>
  ⟨(eEdgePosIntoPerm (c / 2048) q).pos, (edgeOrientIntoPerm (c % 2048) q).orient⟩

/-- `Phase1Coord::from_perm` (composite code over `CornerOrientCoord` and
`ESliceAndEOCoord`, whose count is `495 * 2048 = 1013760`). -/
def phase1FromPerm (p : Cube3Perm) : Nat :=
  cornerOrientFromPerm p.corners * 1013760 + eSliceAndEOFromPerm p.edges

/-- `Phase1Coord::into_perm`: the edge permutation of the edge sub-coordinate
with the corners overwritten from the corner sub-coordinate. -/
def phase1IntoPerm (c : Nat) : Cube3Perm :=
  ⟨cornerOrientIntoPerm (c / 1013760), eSliceAndEOIntoPerm (c % 1013760)⟩

/-! ## cube/cube3/coord/phase2.rs: the phase-2 coordinates -/

/-- `ESliceEdgePosCoord::from_perm`: a Lehmer code of the four E-slice slots;
the Rust code asserts every E-slice edge is in the E slice (a panic is
modelled by `none`). -/
def eSliceEdgePosFromPerm (p : EdgePerm) : Option Nat :=
  if eSliceEdges.all (fun q => inESlice (p q).pos) then
    calcCoord eSliceEdges (eSliceEdges.map (fun q => (p q).pos))
  else none

/-- `ESliceEdgePosCoord::into_perm`: `apply_coord` over the cubie-array
suffix starting at the first E-slice slot (index 8). -/
def eSliceEdgePosIntoPerm (c : Nat) : EdgePerm :=
  edgePermOfList (identEdges.take 8 ++ applyCoord 4 c (identEdges.drop 8))

/-- `UdEdgePosCoord::from_perm`. -/
def udEdgePosFromPerm (p : EdgePerm) : Option Nat :=
  calcCoord udEdges (udEdges.map (fun q => (p q).pos))

/-- `UdEdgePosCoord::into_perm`: `apply_coord` over the first eight slots of
the default cubie array. -/
def udEdgePosIntoPerm (c : Nat) : EdgePerm :=
  edgePermOfList (applyCoord 8 c identEdges)

/-- `Phase2MinusECoord::from_perm` (composite code `a * 40320 + b`). -/
def phase2MinusEFromPerm (p : Cube3Perm) : Option Nat :=
  (cornerPosFromPerm p.corners).bind (fun a =>
    (udEdgePosFromPerm p.edges).map (fun b => a * 40320 + b))

def phase2MinusEIntoPerm (c : Nat) : Cube3Perm :=
  ⟨cornerPosIntoPerm (c / 40320), udEdgePosIntoPerm (c % 40320)⟩

/-- `Phase2Coord::from_perm` (composite code `a * 24 + b`). -/
def phase2FromPerm (p : Cube3Perm) : Option Nat :=
  (phase2MinusEFromPerm p).bind (fun a =>
    (eSliceEdgePosFromPerm p.edges).map (fun b => a * 24 + b))

/-- `Phase2Coord::into_perm`: the `Phase2MinusECoord` permutation with the
four E-slice slots overwritten from the `ESliceEdgePosCoord` permutation. -/
def phase2IntoPerm (c : Nat) : Cube3Perm :=
  ⟨(phase2MinusEIntoPerm (c / 24)).corners,
    fun q =>
      if inESlice q then eSliceEdgePosIntoPerm (c % 24) q
      else (phase2MinusEIntoPerm (c / 24)).edges q⟩

/-! ### Round trips for the 3x3x3 coordinates -/

/-- Reading a length-`nn` list's getter over the indices from `kk` on recovers
`drop kk` of the list. -/
theorem map_finRange_drop_getD {α : Type} (nn kk : Nat) (L : List α) (d : α)
    (hL : L.length = nn) :
    ((List.finRange nn).drop kk).map (fun (q : Fin nn) => L.getD q.val d) = L.drop kk := by
  apply List.ext_getElem
  · simp [hL]
  · intro j hj1 hj2
    have hjn : kk + j < nn := by
      simp only [List.length_map, List.length_drop, List.length_finRange] at hj1
      omega
    rw [List.getElem_map, List.getElem_drop, List.getElem_drop, List.getElem_finRange]
    simp only [Fin.coe_cast, Fin.val_mk]
    rw [List.getD_eq_getElem?_getD, List.getElem?_eq_getElem (by omega : kk + j < L.length)]
    rfl

/-- The first `kk` edge positions in order. -/
def edgePre (kk : Nat) : List (Fin 12) := (List.finRange 12).take kk

theorem udEdges_eq_pre : udEdges = edgePre 8 := rfl

theorem edgePre_nodup (kk : Nat) : (edgePre kk).Nodup :=
  (List.nodup_finRange 12).sublist (List.take_sublist _ _)

theorem edgePre_length (kk : Nat) (hk : kk ≤ 12) : (edgePre kk).length = kk := by
  simp [edgePre, List.length_take]
  omega

/-- Edge analogue of `cornerPosItems_eq`. -/
theorem edgePosItems_eq (kk c : Nat) (hk : kk ≤ 12) :
    (edgePre kk).map
      (fun q => (edgePermOfList (applyCoord kk c identEdges) q).pos) =
    applyCoord kk c (edgePre kk) := by
  set L := applyCoord kk c identEdges with hL
  have hLlen : L.length = 12 := by
    rw [hL, applyCoord, applyCoordAux_length]
    simp [identEdges]
  have h1 : (edgePre kk).map (fun q => edgePermOfList L q) = L.take kk :=
    map_finRange_take_getD 12 kk L ⟨0, 0⟩ hLlen hk
  have h1' : (edgePre kk).map (fun q => (edgePermOfList L q).pos) =
      (L.take kk).map Edge.pos := by
    rw [← h1, List.map_map]
    rfl
  have htklen : (identEdges.take kk).length = kk := by
    simp [identEdges, List.length_take]
    omega
  have h2 : L.take kk = applyCoord kk c (identEdges.take kk) := by
    have hsplit : identEdges = identEdges.take kk ++ identEdges.drop kk :=
      (List.take_append_drop kk identEdges).symm
    rw [hL]
    conv_lhs => rw [hsplit]
    rw [applyCoord_append kk c _ _ (by omega)]
    exact take_append_exact _
      (by rw [applyCoord, applyCoordAux_length]; omega)
  have h3 : (identEdges.take kk).map Edge.pos = edgePre kk := by
    rw [identEdges, edgePre, ← List.map_take, List.map_map]
    have : (Edge.pos ∘ fun (q : Fin 12) => (⟨q, 0⟩ : Edge)) = fun q => q := rfl
    rw [this, List.map_id']
  rw [h1', h2, applyCoord_map, h3]

/-- `UdEdgePosCoord` round trip. -/
theorem udEdgePos_round (c : Nat) (hc : c < 40320) :
    udEdgePosFromPerm (udEdgePosIntoPerm c) = some c := by
  rw [udEdgePosFromPerm, udEdgePosIntoPerm, udEdges_eq_pre, edgePosItems_eq 8 c (by omega)]
  exact calcCoord_applyCoord' (edgePre 8) 8 (edgePre_length 8 (by omega))
    (edgePre_nodup 8) c (by norm_num [Nat.factorial]; omega)

theorem eSliceEdges_map_pos : (identEdges.drop 8).map Edge.pos = eSliceEdges := by
  rw [identEdges, eSliceEdges, ← List.map_drop, List.map_map]
  have : (Edge.pos ∘ fun (q : Fin 12) => (⟨q, 0⟩ : Edge)) = fun q => q := rfl
  rw [this, List.map_id']

theorem eSliceEdges_nodup : eSliceEdges.Nodup :=
  (List.nodup_finRange 12).sublist (List.drop_sublist _ _)

/-- `ESliceEdgePosCoord` round trip (the in-slice assertion passes). -/
theorem eSliceEdgePos_round (c : Nat) (hc : c < 24) :
    eSliceEdgePosFromPerm (eSliceEdgePosIntoPerm c) = some c := by
  rw [eSliceEdgePosFromPerm, eSliceEdgePosIntoPerm]
  set L := identEdges.take 8 ++ applyCoord 4 c (identEdges.drop 8) with hLdef
  have htake : (identEdges.take 8).length = 8 := by simp [identEdges]
  have hLlen : L.length = 12 := by
    rw [hLdef, List.length_append, htake, applyCoord, applyCoordAux_length]
    simp [identEdges]
  have hmap : eSliceEdges.map (fun q => edgePermOfList L q)
      = applyCoord 4 c (identEdges.drop 8) := by
    have h1 : ((List.finRange 12).drop 8).map (fun (q : Fin 12) => L.getD q.val ⟨0,0⟩)
        = L.drop 8 := map_finRange_drop_getD 12 8 L ⟨0,0⟩ hLlen
    have h2 : L.drop 8 = applyCoord 4 c (identEdges.drop 8) := by
      rw [hLdef]
      exact drop_append_exact _ htake
    exact h1.trans h2
  have hmappos : eSliceEdges.map (fun q => (edgePermOfList L q).pos)
      = applyCoord 4 c eSliceEdges := by
    have hcomp : eSliceEdges.map (fun q => (edgePermOfList L q).pos)
        = (eSliceEdges.map (fun q => edgePermOfList L q)).map Edge.pos := by
      rw [List.map_map]
      rfl
    rw [hcomp, hmap, applyCoord_map, eSliceEdges_map_pos]
  have hperm : (applyCoord 4 c eSliceEdges).Perm eSliceEdges :=
    applyCoordAux_perm 4 1 c eSliceEdges
  have hall : ∀ x ∈ applyCoord 4 c eSliceEdges, inESlice x = true := by
    intro x hx
    have hmem : x ∈ eSliceEdges := hperm.mem_iff.mp hx
    have hin : ∀ y ∈ eSliceEdges, inESlice y = true := by decide
    exact hin x hmem
  have hcond : (eSliceEdges.all (fun q => inESlice (edgePermOfList L q).pos)) = true := by
    rw [List.all_eq_true]
    intro q hq
    apply hall
    rw [← hmappos]
    exact List.mem_map_of_mem _ hq
  rw [if_pos hcond, hmappos]
  exact calcCoord_applyCoord' eSliceEdges 4 (by simp [eSliceEdges])
    eSliceEdges_nodup c (by norm_num [Nat.factorial]; omega)

set_option maxRecDepth 3000 in
/-- `EEdgePosCoord` round trip, by exhaustive evaluation of all 495 values. -/
theorem eEdgePos_round_all : ∀ c < 495, eEdgePosFromPerm (eEdgePosIntoPerm c) = c := by
  decide

theorem eEdgePos_round (c : Nat) (hc : c < 495) :
    eEdgePosFromPerm (eEdgePosIntoPerm c) = c := eEdgePos_round_all c hc

/-- `EEdgePosCoord::from_perm` reads only the position fields. -/
theorem eEdgePosFromPerm_congr (p p' : EdgePerm)
    (h : ∀ q, (p q).pos = (p' q).pos) : eEdgePosFromPerm p = eEdgePosFromPerm p' := by
  rw [eEdgePosFromPerm, eEdgePosFromPerm]
  congr 1
  apply List.foldl_ext
  intro st q hq
  rw [h q]

/-- `EdgeOrientCoord::from_perm` reads only the orientation fields. -/
theorem edgeOrientFromPerm_congr (p p' : EdgePerm)
    (h : ∀ q, (p q).orient = (p' q).orient) :
    edgeOrientFromPerm p = edgeOrientFromPerm p' := by
  rw [edgeOrientFromPerm, edgeOrientFromPerm]
  congr 1
  exact List.map_congr_left (fun q _ => by rw [h q])

/-- `UdEdgePosCoord::from_perm` reads only the first eight slots. -/
theorem udEdgePosFromPerm_congr (p p' : EdgePerm)
    (h : ∀ q : Fin 12, q.val < 8 → p q = p' q) :
    udEdgePosFromPerm p = udEdgePosFromPerm p' := by
  rw [udEdgePosFromPerm, udEdgePosFromPerm]
  congr 1
  apply List.map_congr_left
  intro q hq
  have h8 : q.val < 8 := by
    have hmem : ∀ x ∈ udEdges, x.val < 8 := by decide
    exact hmem q hq
  rw [h q h8]

/-- `ESliceEdgePosCoord::from_perm` reads only the E-slice slots. -/
theorem eSliceEdgePosFromPerm_congr (p p' : EdgePerm)
    (h : ∀ q : Fin 12, 7 < q.val → p q = p' q) :
    eSliceEdgePosFromPerm p = eSliceEdgePosFromPerm p' := by
  have hmem : ∀ x ∈ eSliceEdges, 7 < x.val := by decide
  rw [eSliceEdgePosFromPerm, eSliceEdgePosFromPerm]
  have hmapeq : eSliceEdges.map (fun q => (p q).pos)
      = eSliceEdges.map (fun q => (p' q).pos) :=
    List.map_congr_left (fun q hq => by rw [h q (hmem q hq)])
  have hcond : (eSliceEdges.all (fun q => inESlice (p q).pos))
      = (eSliceEdges.all (fun q => inESlice (p' q).pos)) := by
    rw [Bool.eq_iff_iff, List.all_eq_true, List.all_eq_true]
    constructor
    · intro hx q hq
      rw [← h q (hmem q hq)]
      exact hx q hq
    · intro hx q hq
      rw [h q (hmem q hq)]
      exact hx q hq
  rw [hcond, hmapeq]

/-- `ESliceAndEOCoord` round trip. -/
theorem eSliceAndEO_round (c : Nat) (hc : c < 1013760) :
    eSliceAndEOFromPerm (eSliceAndEOIntoPerm c) = c := by
  have ha : eEdgePosFromPerm (eSliceAndEOIntoPerm c)
      = eEdgePosFromPerm (eEdgePosIntoPerm (c / 2048)) :=
    eEdgePosFromPerm_congr _ _ (fun q => rfl)
  have hb : edgeOrientFromPerm (eSliceAndEOIntoPerm c)
      = edgeOrientFromPerm (edgeOrientIntoPerm (c % 2048)) :=
    edgeOrientFromPerm_congr _ _ (fun q => rfl)
  rw [eSliceAndEOFromPerm, ha, hb, eEdgePos_round (c / 2048) (by omega),
    edgeOrient_round (c % 2048) (by omega : c % 2048 < 2048), Nat.div_add_mod' c 2048]

/-- `Phase1Coord` round trip. -/
theorem phase1_round (c : Nat) (hc : c < 2187 * 1013760) :
    phase1FromPerm (phase1IntoPerm c) = c := by
  have h1 : (phase1IntoPerm c).corners = cornerOrientIntoPerm (c / 1013760) := rfl
  have h2 : (phase1IntoPerm c).edges = eSliceAndEOIntoPerm (c % 1013760) := rfl
  rw [phase1FromPerm, h1, h2, cornerOrient_round _ (by omega),
    eSliceAndEO_round _ (by omega : c % 1013760 < 1013760), Nat.div_add_mod' c 1013760]

/-- `Phase2MinusECoord` round trip. -/
theorem phase2MinusE_round (c : Nat) (hc : c < 40320 * 40320) :
    phase2MinusEFromPerm (phase2MinusEIntoPerm c) = some c := by
  have h1 : (phase2MinusEIntoPerm c).corners = cornerPosIntoPerm (c / 40320) := rfl
  have h2 : (phase2MinusEIntoPerm c).edges = udEdgePosIntoPerm (c % 40320) := rfl
  rw [phase2MinusEFromPerm, h1, h2, cornerPos_round _ (by omega), Option.some_bind,
    udEdgePos_round _ (by omega : c % 40320 < 40320)]
  show some (c / 40320 * 40320 + c % 40320) = some c
  rw [Nat.div_add_mod' c 40320]

/-- `Phase2Coord` round trip. -/
theorem phase2_round (c : Nat) (hc : c < 40320 * 40320 * 24) :
    phase2FromPerm (phase2IntoPerm c) = some c := by
  have hcors : (phase2IntoPerm c).corners = (phase2MinusEIntoPerm (c / 24)).corners := rfl
  have hud : udEdgePosFromPerm (phase2IntoPerm c).edges
      = udEdgePosFromPerm (phase2MinusEIntoPerm (c / 24)).edges := by
    apply udEdgePosFromPerm_congr
    intro q hq
    have hfalse : inESlice q = false := decide_eq_false (by omega)
    show (if inESlice q then eSliceEdgePosIntoPerm (c % 24) q
          else (phase2MinusEIntoPerm (c / 24)).edges q)
        = (phase2MinusEIntoPerm (c / 24)).edges q
    rw [hfalse]
    simp
  have hesl : eSliceEdgePosFromPerm (phase2IntoPerm c).edges
      = eSliceEdgePosFromPerm (eSliceEdgePosIntoPerm (c % 24)) := by
    apply eSliceEdgePosFromPerm_congr
    intro q hq
    have htrue : inESlice q = true := decide_eq_true (by omega)
    show (if inESlice q then eSliceEdgePosIntoPerm (c % 24) q
          else (phase2MinusEIntoPerm (c / 24)).edges q)
        = eSliceEdgePosIntoPerm (c % 24) q
    rw [htrue]
    simp
  have h1 : phase2MinusEFromPerm (phase2IntoPerm c)
      = phase2MinusEFromPerm (phase2MinusEIntoPerm (c / 24)) := by
    rw [phase2MinusEFromPerm, phase2MinusEFromPerm, hcors, hud]
  rw [phase2FromPerm, h1, phase2MinusE_round (c / 24) (by omega), Option.some_bind, hesl,
    eSliceEdgePos_round (c % 24) (by omega : c % 24 < 24)]
  show some (c / 24 * 24 + c % 24) = some c
  rw [Nat.div_add_mod' c 24]

/-- C4: for every shipped coordinate type (CornerOrientCoord, CornerPosCoord,
CornerOrient7Coord, CornerPos7Coord, Corner7Coord, EdgeOrientCoord,
EEdgePosCoord, ESliceEdgePosCoord, UdEdgePosCoord, ESliceAndEOCoord,
Phase1Coord, Phase2MinusECoord, Phase2Coord) and every coordinate value `c`
in `[0, COUNT)`, `from_perm(into_perm(c)) = c` (for the coordinates whose
`from_perm` can panic, it in fact succeeds and returns `c`). -/
theorem coordinate_round_trips :
    (∀ c < 2187, cornerOrientFromPerm (cornerOrientIntoPerm c) = c) ∧
    (∀ c < 40320, cornerPosFromPerm (cornerPosIntoPerm c) = some c) ∧
    (∀ c < 729, cornerOrient7FromPerm (cornerOrient7IntoPerm c) = c) ∧
    (∀ c < 5040, cornerPos7FromPerm (cornerPos7IntoPerm c) = some c) ∧
    (∀ c < 729 * 5040, corner7FromPerm (corner7IntoPerm c) = some c) ∧
    (∀ c < 2048, edgeOrientFromPerm (edgeOrientIntoPerm c) = c) ∧
    (∀ c < 495, eEdgePosFromPerm (eEdgePosIntoPerm c) = c) ∧
    (∀ c < 24, eSliceEdgePosFromPerm (eSliceEdgePosIntoPerm c) = some c) ∧
    (∀ c < 40320, udEdgePosFromPerm (udEdgePosIntoPerm c) = some c) ∧
    (∀ c < 495 * 2048, eSliceAndEOFromPerm (eSliceAndEOIntoPerm c) = c) ∧
    (∀ c < 2187 * (495 * 2048), phase1FromPerm (phase1IntoPerm c) = c) ∧
    (∀ c < 40320 * 40320, phase2MinusEFromPerm (phase2MinusEIntoPerm c) = some c) ∧
    (∀ c < 40320 * 40320 * 24, phase2FromPerm (phase2IntoPerm c) = some c) :=
  ⟨fun c hc => cornerOrient_round c hc,
   fun c hc => cornerPos_round c hc,
   fun c hc => cornerOrient7_round c hc,
   fun c hc => cornerPos7_round c hc,
   fun c hc => corner7_round c hc,
   fun c hc => edgeOrient_round c hc,
   fun c hc => eEdgePos_round c hc,
   fun c hc => eSliceEdgePos_round c hc,
   fun c hc => udEdgePos_round c hc,
   fun c hc => eSliceAndEO_round c (by omega),
   fun c hc => phase1_round c (by omega),
   fun c hc => phase2MinusE_round c hc,
   fun c hc => phase2_round c hc⟩

/-- Witness: the round-trip law evaluated at one concrete value per
coordinate. -/
theorem coordinate_round_trips_witness :
    cornerOrientFromPerm (cornerOrientIntoPerm 5) = 5 ∧
    cornerPosFromPerm (cornerPosIntoPerm 6) = some 6 ∧
    cornerOrient7FromPerm (cornerOrient7IntoPerm 7) = 7 ∧
    cornerPos7FromPerm (cornerPos7IntoPerm 8) = some 8 ∧
    corner7FromPerm (corner7IntoPerm 9) = some 9 ∧
    edgeOrientFromPerm (edgeOrientIntoPerm 10) = 10 ∧
    eEdgePosFromPerm (eEdgePosIntoPerm 11) = 11 ∧
    eSliceEdgePosFromPerm (eSliceEdgePosIntoPerm 12) = some 12 ∧
    udEdgePosFromPerm (udEdgePosIntoPerm 13) = some 13 ∧
    eSliceAndEOFromPerm (eSliceAndEOIntoPerm 14) = 14 ∧
    phase1FromPerm (phase1IntoPerm 15) = 15 ∧
    phase2MinusEFromPerm (phase2MinusEIntoPerm 16) = some 16 ∧
    phase2FromPerm (phase2IntoPerm 17) = some 17 := by
  obtain ⟨h1, h2, h3, h4, h5, h6, h7, h8, h9, h10, h11, h12, h13⟩ := coordinate_round_trips
  exact ⟨h1 5 (by norm_num), h2 6 (by norm_num), h3 7 (by norm_num), h4 8 (by norm_num),
    h5 9 (by norm_num), h6 10 (by norm_num), h7 11 (by norm_num), h8 12 (by norm_num),
    h9 13 (by norm_num), h10 14 (by norm_num), h11 15 (by norm_num), h12 16 (by norm_num),
    h13 17 (by norm_num)⟩

/-! ### Totality of `from_perm` (claim C5) -/

theorem perm_of_nodup_subset_length {α : Type} [DecidableEq α] (l ident : List α)
    (hnd : l.Nodup) (hsub : ∀ x ∈ l, x ∈ ident) (hlen : ident.length ≤ l.length) :
    l.Perm ident :=
  (List.subperm_of_subset hnd hsub).perm_of_length_le hlen

theorem mem_udEdges_iff : ∀ x : Fin 12, x ∈ udEdges ↔ x.val < 8 := by decide

theorem mem_eSliceEdges_iff : ∀ x : Fin 12, x ∈ eSliceEdges ↔ 7 < x.val := by decide

theorem mem_importantCorners_iff : ∀ x : Fin 8, x ∈ importantCorners ↔ x.val < 7 := by
  decide

/-- If the edge placement is injective and keeps the E-slice slots inside the
E slice, the four E-slice images are a rearrangement of the E-slice slots. -/
theorem eSliceImages_perm (p : EdgePerm)
    (hnd : ((List.finRange 12).map (fun q => (p q).pos)).Nodup)
    (he : ∀ q : Fin 12, 7 < q.val → 7 < ((p q).pos : Nat)) :
    (eSliceEdges.map (fun q => (p q).pos)).Perm eSliceEdges := by
  apply perm_of_nodup_subset_length
  · have hmt : eSliceEdges.map (fun q => (p q).pos)
        = ((List.finRange 12).map (fun q => (p q).pos)).drop 8 := by
      rw [eSliceEdges, ← List.map_drop]
    rw [hmt]
    exact hnd.sublist (List.drop_sublist _ _)
  · intro x hx
    obtain ⟨q, hq, rfl⟩ := List.mem_map.mp hx
    exact (mem_eSliceEdges_iff _).mpr (he q ((mem_eSliceEdges_iff q).mp hq))
  · simp [eSliceEdges]

theorem pos_inj_of_nodup {p : EdgePerm}
    (hnd : ((List.finRange 12).map (fun q => (p q).pos)).Nodup) :
    ∀ q r : Fin 12, (p q).pos = (p r).pos → q = r := fun q r hqr =>
  List.inj_on_of_nodup_map hnd (List.mem_finRange q) (List.mem_finRange r) hqr

/-- With the E slice closed under an injective placement, the U/D slots stay
in the U/D layers (a pigeonhole consequence). -/
theorem ud_closed_of_slice_closed (p : EdgePerm)
    (hnd : ((List.finRange 12).map (fun q => (p q).pos)).Nodup)
    (he : ∀ q : Fin 12, 7 < q.val → 7 < ((p q).pos : Nat)) :
    ∀ q : Fin 12, q.val < 8 → ((p q).pos : Nat) < 8 := by
  intro q hq
  by_contra hge
  push_neg at hge
  have hmem : (p q).pos ∈ eSliceEdges := (mem_eSliceEdges_iff _).mpr (by omega)
  have hperm := eSliceImages_perm p hnd he
  have hmem' : (p q).pos ∈ eSliceEdges.map (fun r => (p r).pos) := hperm.mem_iff.mpr hmem
  obtain ⟨r, hr, hre⟩ := List.mem_map.mp hmem'
  have hqr : q = r := pos_inj_of_nodup hnd q r hre.symm
  subst hqr
  have := (mem_eSliceEdges_iff q).mp hr
  omega

/-- `CornerPos7Coord::from_perm` succeeds on any injective placement that
keeps the DBL cubie in place. -/
theorem cornerPos7FromPerm_isSome_of_valid (pc : CornerPerm)
    (hndc : ((List.finRange 8).map (fun q => (pc q).pos)).Nodup)
    (hdbl : (pc 7).pos = 7) :
    (cornerPos7FromPerm pc).isSome := by
  have hinjc : ∀ q r : Fin 8, (pc q).pos = (pc r).pos → q = r := fun q r hqr =>
    List.inj_on_of_nodup_map hndc (List.mem_finRange q) (List.mem_finRange r) hqr
  rw [cornerPos7FromPerm]
  apply calcCoord_isSome_of_perm _ _ importantCorners_nodup
  apply perm_of_nodup_subset_length
  · have hmt : importantCorners.map (fun q => (pc q).pos)
        = ((List.finRange 8).map (fun q => (pc q).pos)).take 7 := by
      rw [importantCorners, ← List.map_take]
    rw [hmt]
    exact hndc.sublist (List.take_sublist _ _)
  · intro x hx
    obtain ⟨q, hq, rfl⟩ := List.mem_map.mp hx
    apply (mem_importantCorners_iff _).mpr
    have hqlt : q.val < 7 := (mem_importantCorners_iff q).mp hq
    by_contra hge
    push_neg at hge
    have h7 : (pc q).pos = 7 := by
      apply Fin.ext
      have := (pc q).pos.isLt
      show ((pc q).pos : Nat) = ((7 : Fin 8) : Nat)
      omega
    have hq7 : q = 7 := hinjc q 7 (by rw [h7, hdbl])
    rw [hq7] at hqlt
    exact absurd hqlt (by decide)
  · simp [importantCorners]

/-- C5 (amended): on genuinely bijective placements the permutation
coordinates never panic; `CornerPos7Coord` additionally needs the DBL cubie
in place, and the E-slice coordinates need the E-slice edges inside the E
slice. -/
theorem from_perm_total_on_valid_perms (pc : CornerPerm) (p : EdgePerm)
    (hndc : ((List.finRange 8).map (fun q => (pc q).pos)).Nodup)
    (hdbl : (pc 7).pos = 7)
    (hnd : ((List.finRange 12).map (fun q => (p q).pos)).Nodup)
    (he : ∀ q : Fin 12, 7 < q.val → 7 < ((p q).pos : Nat)) :
    (cornerPosFromPerm pc).isSome ∧ (cornerPos7FromPerm pc).isSome ∧
    (corner7FromPerm pc).isSome ∧ (udEdgePosFromPerm p).isSome ∧
    (eSliceEdgePosFromPerm p).isSome := by
  have hinjc : ∀ q r : Fin 8, (pc q).pos = (pc r).pos → q = r := fun q r hqr =>
    List.inj_on_of_nodup_map hndc (List.mem_finRange q) (List.mem_finRange r) hqr
  have hcp : (cornerPosFromPerm pc).isSome := by
    rw [cornerPosFromPerm]
    apply calcCoord_isSome_of_perm _ _ (List.nodup_finRange 8)
    apply perm_of_nodup_subset_length
    · exact hndc
    · intro x _
      exact List.mem_finRange x
    · simp [fullCorners]
  have hcp7 : (cornerPos7FromPerm pc).isSome :=
    cornerPos7FromPerm_isSome_of_valid pc hndc hdbl
  have hc7 : (corner7FromPerm pc).isSome := by
    rw [corner7FromPerm, Option.isSome_map']
    exact hcp7
  have hud : (udEdgePosFromPerm p).isSome := by
    rw [udEdgePosFromPerm]
    apply calcCoord_isSome_of_perm _ _ (edgePre_nodup 8)
    apply perm_of_nodup_subset_length
    · have hmt : udEdges.map (fun q => (p q).pos)
          = ((List.finRange 12).map (fun q => (p q).pos)).take 8 := by
        rw [udEdges, ← List.map_take]
      rw [hmt]
      exact hnd.sublist (List.take_sublist _ _)
    · intro x hx
      obtain ⟨q, hq, rfl⟩ := List.mem_map.mp hx
      exact (mem_udEdges_iff _).mpr
        (ud_closed_of_slice_closed p hnd he q ((mem_udEdges_iff q).mp hq))
    · simp [udEdges, edgePre]
  have hes : (eSliceEdgePosFromPerm p).isSome := by
    rw [eSliceEdgePosFromPerm]
    have hcond : (eSliceEdges.all (fun q => inESlice (p q).pos)) = true := by
      rw [List.all_eq_true]
      intro q hq
      exact decide_eq_true (he q ((mem_eSliceEdges_iff q).mp hq))
    rw [if_pos hcond]
    exact calcCoord_isSome_of_perm _ _ eSliceEdges_nodup (eSliceImages_perm p hnd he)
  exact ⟨hcp, hcp7, hc7, hud, hes⟩

/-- A bijective edge placement with the FR cubie in slot UF (and UF in FR). -/
def eSliceSwapPerm : EdgePerm := fun q =>
  if q.val = 0 then ⟨8, 0⟩ else if q.val = 8 then ⟨0, 0⟩ else ⟨q, 0⟩

/-- C5 counterexample: `ESliceEdgePosCoord::from_perm` panics (modelled
`none`) on a genuine permutation that moves an E-slice edge out of the E
slice, so `from_perm` is not total on all of `P`. -/
theorem eSliceEdgePos_from_perm_panics :
    ((List.finRange 12).map (fun q => (eSliceSwapPerm q).pos)).Nodup ∧
    eSliceEdgePosFromPerm eSliceSwapPerm = none := by decide

/-- Witness for the amended totality claim at the identity permutations. -/
theorem from_perm_total_on_valid_perms_witness :
    (((List.finRange 8).map (fun q => (cornerIdentity q).pos)).Nodup ∧
     (cornerIdentity 7).pos = 7 ∧
     ((List.finRange 12).map (fun q => (edgeIdentity q).pos)).Nodup ∧
     (∀ q : Fin 12, 7 < q.val → 7 < ((edgeIdentity q).pos : Nat))) ∧
    ((cornerPosFromPerm cornerIdentity).isSome ∧
     (cornerPos7FromPerm cornerIdentity).isSome ∧
     (corner7FromPerm cornerIdentity).isSome ∧
     (udEdgePosFromPerm edgeIdentity).isSome ∧
     (eSliceEdgePosFromPerm edgeIdentity).isSome) :=
  ⟨⟨by decide, by decide, by decide, by decide⟩,
   from_perm_total_on_valid_perms cornerIdentity edgeIdentity
     (by decide) (by decide) (by decide) (by decide)⟩

/-! ## move_table.rs: BasicMoveTable, CompositeMoveTable and to_basic -/

/-- `BasicMoveTable::create`: for each coordinate value in order, push
`from_perm(into_perm(c).sequence(m.permutation()))` for each move in order. -/
def basicTable {P C : Type} (count : Nat) (ip : Nat → P) (fp : P → C)
    (sq : P → P → P) (mps : List P) : List C :=
  (List.range count).flatMap
    (fun c => mps.map (fun mp => fp (sq (ip c) mp)))

/-- `BasicMoveTable::get_move`: `table[M::COUNT * c.index() + m.index()]`
(an out-of-range read, which would panic in Rust, is `none`). -/
def basicGetMove {P C : Type} (count : Nat) (ip : Nat → P) (fp : P → C)
    (sq : P → P → P) (mps : List P) (c m : Nat) : Option C :=
  (basicTable count ip fp sq mps)[mps.length * c + m]?

/-- `CompositeMoveTable::to_basic`: flatten a table's values in the same
`(coord, move)` order. -/
def toBasicTable {C : Type} (count mcount : Nat) (get : Nat → Nat → C) : List C :=
  (List.range count).flatMap (fun c => (List.range mcount).map (fun m => get c m))

def toBasicGetMove {C : Type} (count mcount : Nat) (get : Nat → Nat → C)
    (c m : Nat) : Option C :=
  (toBasicTable count mcount get)[mcount * c + m]?

theorem flatMap_range_length {β : Type} (g : Nat → List β) (M : Nat)
    (hg : ∀ x, (g x).length = M) : ∀ n, ((List.range n).flatMap g).length = M * n := by
  intro n
  induction n with
  | zero => rfl
  | succ n ih =>
    rw [List.range_succ, List.flatMap_append, List.length_append, ih]
    have h1 : ([n].flatMap g).length = M := by simp [hg]
    rw [h1, Nat.mul_succ]

theorem flatMap_range_getElem {β : Type} (g : Nat → List β) (M : Nat)
    (hg : ∀ x, (g x).length = M) :
    ∀ n c m, c < n → m < M → ((List.range n).flatMap g)[M * c + m]? = (g c)[m]? := by
  intro n
  induction n with
  | zero => intro c m hc _; exact absurd hc (by omega)
  | succ n ih =>
    intro c m hc hm
    rw [List.range_succ, List.flatMap_append]
    by_cases h : c < n
    · rw [List.getElem?_append_left]
      · exact ih c m h hm
      · rw [flatMap_range_length g M hg]
        calc M * c + m < M * c + M := by omega
          _ = M * (c + 1) := by ring
          _ ≤ M * n := Nat.mul_le_mul_left M h
    · have hcn : c = n := by omega
      subst hcn
      rw [List.getElem?_append_right (by rw [flatMap_range_length g M hg]; omega)]
      rw [flatMap_range_length g M hg]
      have harith : M * c + m - M * c = m := by omega
      rw [harith]
      simp

/-- The stored `BasicMoveTable` entry is exactly the defining formula. -/
theorem basicGetMove_eq {P C : Type} (count : Nat) (ip : Nat → P) (fp : P → C)
    (sq : P → P → P) (mps : List P) (c m : Nat) (hc : c < count)
    (hm : m < mps.length) :
    basicGetMove count ip fp sq mps c m = some (fp (sq (ip c) mps[m])) := by
  rw [basicGetMove, basicTable,
    flatMap_range_getElem _ mps.length (fun x => by simp) count c m hc hm,
    List.getElem?_map, List.getElem?_eq_getElem hm]
  rfl

/-- `to_basic` stores exactly the composite table's values. -/
theorem toBasicGetMove_eq {C : Type} (count mcount : Nat) (get : Nat → Nat → C)
    (c m : Nat) (hc : c < count) (hm : m < mcount) :
    toBasicGetMove count mcount get c m = some (get c m) := by
  rw [toBasicGetMove, toBasicTable,
    flatMap_range_getElem _ mcount (fun x => by simp) count c m hc hm,
    List.getElem?_map, List.getElem?_eq_getElem (by simpa using hm)]
  simp

/-! ### Congruence facts used for the shipped composite tables -/

theorem cornerOrient7FromPerm_congr (p p' : CornerPerm)
    (h : ∀ q, (p q).orient = (p' q).orient) :
    cornerOrient7FromPerm p = cornerOrient7FromPerm p' := by
  rw [cornerOrient7FromPerm, cornerOrient7FromPerm]
  congr 1
  exact List.map_congr_left (fun q _ => by rw [h q])

theorem cornerPos7FromPerm_congr (p p' : CornerPerm)
    (h : ∀ q, (p q).pos = (p' q).pos) :
    cornerPos7FromPerm p = cornerPos7FromPerm p' := by
  rw [cornerPos7FromPerm, cornerPos7FromPerm]
  congr 1
  exact List.map_congr_left (fun q _ => by rw [h q])

/-- The orientation field of `sequence` depends only on the left factor's
orientation fields. -/
theorem cornerSeq_orient_congr (p p' m : CornerPerm)
    (h : ∀ q, (p q).orient = (p' q).orient) :
    ∀ q, ((cornerSeq p m) q).orient = ((cornerSeq p' m) q).orient := fun q => by
  show addOrient ((m q).orient) ((p ((m q).pos)).orient)
      = addOrient ((m q).orient) ((p' ((m q).pos)).orient)
  rw [h ((m q).pos)]

/-- The position field of `sequence` depends only on the left factor's
position fields. -/
theorem cornerSeq_pos_congr (p p' m : CornerPerm)
    (h : ∀ q, (p q).pos = (p' q).pos) :
    ∀ q, ((cornerSeq p m) q).pos = ((cornerSeq p' m) q).pos := fun q => by
  show (p ((m q).pos)).pos = (p' ((m q).pos)).pos
  rw [h ((m q).pos)]

theorem edgeSeq_orient_congr (p p' m : EdgePerm)
    (h : ∀ q, (p q).orient = (p' q).orient) :
    ∀ q, ((edgeSeq p m) q).orient = ((edgeSeq p' m) q).orient := fun q => by
  show addEdgeOrient ((m q).orient) ((p ((m q).pos)).orient)
      = addEdgeOrient ((m q).orient) ((p' ((m q).pos)).orient)
  rw [h ((m q).pos)]

theorem edgeSeq_pos_congr (p p' m : EdgePerm)
    (h : ∀ q, (p q).pos = (p' q).pos) :
    ∀ q, ((edgeSeq p m) q).pos = ((edgeSeq p' m) q).pos := fun q => by
  show (p ((m q).pos)).pos = (p' ((m q).pos)).pos
  rw [h ((m q).pos)]

/-- `sequence` entries on the U/D slots depend only on the left factor's U/D
entries, for a move permutation keeping U/D slots in the U/D layers. -/
theorem edgeSeq_eq_on_low (p p' m : EdgePerm)
    (hm : ∀ q : Fin 12, q.val < 8 → ((m q).pos : Nat) < 8)
    (h : ∀ q : Fin 12, q.val < 8 → p q = p' q) :
    ∀ q : Fin 12, q.val < 8 → (edgeSeq p m) q = (edgeSeq p' m) q := fun q hq => by
  show (⟨(p ((m q).pos)).pos, addEdgeOrient ((m q).orient) ((p ((m q).pos)).orient)⟩ : Edge)
      = ⟨(p' ((m q).pos)).pos, addEdgeOrient ((m q).orient) ((p' ((m q).pos)).orient)⟩
  rw [h ((m q).pos) (hm q hq)]

theorem edgeSeq_eq_on_high (p p' m : EdgePerm)
    (hm : ∀ q : Fin 12, 7 < q.val → 7 < ((m q).pos : Nat))
    (h : ∀ q : Fin 12, 7 < q.val → p q = p' q) :
    ∀ q : Fin 12, 7 < q.val → (edgeSeq p m) q = (edgeSeq p' m) q := fun q hq => by
  show (⟨(p ((m q).pos)).pos, addEdgeOrient ((m q).orient) ((p ((m q).pos)).orient)⟩ : Edge)
      = ⟨(p' ((m q).pos)).pos, addEdgeOrient ((m q).orient) ((p' ((m q).pos)).orient)⟩
  rw [h ((m q).pos) (hm q hq)]

/-! ### The shipped move tables -/

def urfMovePerms : List CornerPerm := UrfTurn.iterList.map UrfTurn.permutation

def cubeMovePerms : List Cube3Perm := CubeTurn.iterList.map CubeTurn.permutation

def g1MovePerms : List Cube3Perm := G1CubeTurn.iterList.map G1CubeTurn.permutation

/-- Every phase-2 generator keeps U/D edges in the U/D layers. -/
theorem g1_preserves_ud :
    ∀ mp ∈ g1MovePerms, ∀ q : Fin 12, q.val < 8 → ((mp.edges q).pos : Nat) < 8 := by
  decide

/-- Every phase-2 generator keeps E-slice edges in the E slice. -/
theorem g1_preserves_eslice :
    ∀ mp ∈ g1MovePerms, ∀ q : Fin 12, 7 < q.val → 7 < ((mp.edges q).pos : Nat) := by
  decide

/-- `Coord<Cube3Perm>` wrappers used by the 3x3x3 tables: the sub-coordinate
fills its component and the other component is the default permutation. -/
def cornerOrientIntoPerm3 (c : Nat) : Cube3Perm := ⟨cornerOrientIntoPerm c, edgeIdentity⟩

def cornerOrientFromPerm3 (p : Cube3Perm) : Nat := cornerOrientFromPerm p.corners

def eEdgePosIntoPerm3 (c : Nat) : Cube3Perm := ⟨cornerIdentity, eEdgePosIntoPerm c⟩

def eEdgePosFromPerm3 (p : Cube3Perm) : Nat := eEdgePosFromPerm p.edges

def edgeOrientIntoPerm3 (c : Nat) : Cube3Perm := ⟨cornerIdentity, edgeOrientIntoPerm c⟩

def edgeOrientFromPerm3 (p : Cube3Perm) : Nat := edgeOrientFromPerm p.edges

def eSliceAndEOIntoPerm3 (c : Nat) : Cube3Perm := ⟨cornerIdentity, eSliceAndEOIntoPerm c⟩

def eSliceAndEOFromPerm3 (p : Cube3Perm) : Nat := eSliceAndEOFromPerm p.edges

def cornerPosIntoPerm3 (c : Nat) : Cube3Perm := ⟨cornerPosIntoPerm c, edgeIdentity⟩

def cornerPosFromPerm3 (p : Cube3Perm) : Option Nat := cornerPosFromPerm p.corners

def udEdgePosIntoPerm3 (c : Nat) : Cube3Perm := ⟨cornerIdentity, udEdgePosIntoPerm c⟩

def udEdgePosFromPerm3 (p : Cube3Perm) : Option Nat := udEdgePosFromPerm p.edges

def eSliceEdgePosIntoPerm3 (c : Nat) : Cube3Perm := ⟨cornerIdentity, eSliceEdgePosIntoPerm c⟩

def eSliceEdgePosFromPerm3 (p : Cube3Perm) : Option Nat := eSliceEdgePosFromPerm p.edges

/-- The 2x2x2 driver's `CompositeMoveTable<Corner7Coord>` lookup over the two
shipped basic tables. -/
def corner7CompositeGetMove (c m : Nat) : Option Nat :=
  (basicGetMove 729 cornerOrient7IntoPerm cornerOrient7FromPerm cornerSeq urfMovePerms
      (c / 5040) m).bind (fun a =>
    (basicGetMove 5040 cornerPos7IntoPerm cornerPos7FromPerm cornerSeq urfMovePerms
      (c % 5040) m).bind (fun ob =>
      ob.map (fun b => a * 5040 + b)))

/-- The 3x3x3 driver's `CompositeMoveTable<ESliceAndEOCoord>` lookup. -/
def eSliceAndEOCompositeGetMove (c m : Nat) : Option Nat :=
  (basicGetMove 495 eEdgePosIntoPerm3 eEdgePosFromPerm3 cube3Seq cubeMovePerms
      (c / 2048) m).bind (fun a =>
    (basicGetMove 2048 edgeOrientIntoPerm3 edgeOrientFromPerm3 cube3Seq cubeMovePerms
      (c % 2048) m).map (fun b => a * 2048 + b))

/-- The 3x3x3 driver's phase-1 `CompositeMoveTable<Phase1Coord>` lookup: the
corner table is basic, the edge table is `to_basic` of the composite edge
table. -/
def phase1CompositeGetMove (c m : Nat) : Option Nat :=
  (basicGetMove 2187 cornerOrientIntoPerm3 cornerOrientFromPerm3 cube3Seq cubeMovePerms
      (c / 1013760) m).bind (fun a =>
    (toBasicGetMove 1013760 18 eSliceAndEOCompositeGetMove (c % 1013760) m).bind (fun ob =>
      ob.map (fun b => a * 1013760 + b)))

/-- The 3x3x3 driver's `CompositeMoveTable<Phase2MinusECoord>` lookup. -/
def phase2MinusECompositeGetMove (c m : Nat) : Option Nat :=
  (basicGetMove 40320 cornerPosIntoPerm3 cornerPosFromPerm3 cube3Seq g1MovePerms
      (c / 40320) m).bind (fun oa =>
    oa.bind (fun a =>
      (basicGetMove 40320 udEdgePosIntoPerm3 udEdgePosFromPerm3 cube3Seq g1MovePerms
        (c % 40320) m).bind (fun ob =>
        ob.map (fun b => a * 40320 + b))))

/-- The 3x3x3 driver's `CompositeMoveTable<Phase2Coord>` lookup. -/
def phase2CompositeGetMove (c m : Nat) : Option Nat :=
  (phase2MinusECompositeGetMove (c / 24) m).bind (fun a =>
    (basicGetMove 24 eSliceEdgePosIntoPerm3 eSliceEdgePosFromPerm3 cube3Seq g1MovePerms
      (c % 24) m).bind (fun ob =>
      ob.map (fun b => a * 24 + b)))

theorem corner7_composite_eq (c m : Nat) (hc : c < 729 * 5040)
    (hm : m < urfMovePerms.length) :
    corner7CompositeGetMove c m
      = corner7FromPerm (cornerSeq (corner7IntoPerm c) urfMovePerms[m]) := by
  rw [corner7CompositeGetMove,
    basicGetMove_eq 729 cornerOrient7IntoPerm cornerOrient7FromPerm cornerSeq urfMovePerms
      (c / 5040) m (by omega) hm,
    basicGetMove_eq 5040 cornerPos7IntoPerm cornerPos7FromPerm cornerSeq urfMovePerms
      (c % 5040) m (by omega) hm,
    Option.some_bind, Option.some_bind]
  have hA : cornerOrient7FromPerm (cornerSeq (cornerOrient7IntoPerm (c / 5040)) urfMovePerms[m])
      = cornerOrient7FromPerm (cornerSeq (corner7IntoPerm c) urfMovePerms[m]) :=
    cornerOrient7FromPerm_congr _ _ (cornerSeq_orient_congr _ _ _ (fun q => rfl))
  have hB : cornerPos7FromPerm (cornerSeq (cornerPos7IntoPerm (c % 5040)) urfMovePerms[m])
      = cornerPos7FromPerm (cornerSeq (corner7IntoPerm c) urfMovePerms[m]) :=
    cornerPos7FromPerm_congr _ _ (cornerSeq_pos_congr _ _ _ (fun q => rfl))
  rw [hA, hB, corner7FromPerm]

theorem eSliceAndEO_composite_eq (c m : Nat) (hc : c < 1013760)
    (hm : m < cubeMovePerms.length) :
    eSliceAndEOCompositeGetMove c m
      = some (eSliceAndEOFromPerm3 (cube3Seq (eSliceAndEOIntoPerm3 c) cubeMovePerms[m])) := by
  rw [eSliceAndEOCompositeGetMove,
    basicGetMove_eq 495 eEdgePosIntoPerm3 eEdgePosFromPerm3 cube3Seq cubeMovePerms
      (c / 2048) m (by omega) hm,
    basicGetMove_eq 2048 edgeOrientIntoPerm3 edgeOrientFromPerm3 cube3Seq cubeMovePerms
      (c % 2048) m (by omega) hm,
    Option.some_bind]
  have hA : eEdgePosFromPerm3 (cube3Seq (eEdgePosIntoPerm3 (c / 2048)) cubeMovePerms[m])
      = eEdgePosFromPerm3 (cube3Seq (eSliceAndEOIntoPerm3 c) cubeMovePerms[m]) := by
    show eEdgePosFromPerm (edgeSeq (eEdgePosIntoPerm (c / 2048)) (cubeMovePerms[m]).edges)
        = eEdgePosFromPerm (edgeSeq (eSliceAndEOIntoPerm c) (cubeMovePerms[m]).edges)
    exact eEdgePosFromPerm_congr _ _ (edgeSeq_pos_congr _ _ _ (fun q => rfl))
  have hB : edgeOrientFromPerm3 (cube3Seq (edgeOrientIntoPerm3 (c % 2048)) cubeMovePerms[m])
      = edgeOrientFromPerm3 (cube3Seq (eSliceAndEOIntoPerm3 c) cubeMovePerms[m]) := by
    show edgeOrientFromPerm (edgeSeq (edgeOrientIntoPerm (c % 2048)) (cubeMovePerms[m]).edges)
        = edgeOrientFromPerm (edgeSeq (eSliceAndEOIntoPerm c) (cubeMovePerms[m]).edges)
    exact edgeOrientFromPerm_congr _ _ (edgeSeq_orient_congr _ _ _ (fun q => rfl))
  rw [hA, hB]
  rfl

theorem phase1_composite_eq (c m : Nat) (hc : c < 2187 * 1013760)
    (hm : m < cubeMovePerms.length) :
    phase1CompositeGetMove c m
      = some (phase1FromPerm (cube3Seq (phase1IntoPerm c) cubeMovePerms[m])) := by
  have hm18 : m < 18 := by
    have hlen : cubeMovePerms.length = 18 := rfl
    omega
  rw [phase1CompositeGetMove,
    basicGetMove_eq 2187 cornerOrientIntoPerm3 cornerOrientFromPerm3 cube3Seq cubeMovePerms
      (c / 1013760) m (by omega) hm,
    toBasicGetMove_eq 1013760 18 eSliceAndEOCompositeGetMove (c % 1013760) m (by omega) hm18,
    Option.some_bind, Option.some_bind,
    eSliceAndEO_composite_eq (c % 1013760) m (by omega) hm]
  rfl

theorem phase2MinusE_composite_eq (c m : Nat) (hc : c < 40320 * 40320)
    (hm : m < g1MovePerms.length) :
    phase2MinusECompositeGetMove c m
      = phase2MinusEFromPerm (cube3Seq (phase2MinusEIntoPerm c) g1MovePerms[m]) := by
  rw [phase2MinusECompositeGetMove,
    basicGetMove_eq 40320 cornerPosIntoPerm3 cornerPosFromPerm3 cube3Seq g1MovePerms
      (c / 40320) m (by omega) hm,
    basicGetMove_eq 40320 udEdgePosIntoPerm3 udEdgePosFromPerm3 cube3Seq g1MovePerms
      (c % 40320) m (by omega) hm]
  simp only [Option.some_bind]
  rw [phase2MinusEFromPerm]
  rfl

theorem phase2_composite_eq (c m : Nat) (hc : c < 40320 * 40320 * 24)
    (hm : m < g1MovePerms.length) :
    phase2CompositeGetMove c m
      = phase2FromPerm (cube3Seq (phase2IntoPerm c) g1MovePerms[m]) := by
  have hmem : g1MovePerms[m] ∈ g1MovePerms := List.getElem_mem _
  have hlow : ∀ q : Fin 12, q.val < 8 →
      (phase2MinusEIntoPerm (c / 24)).edges q = (phase2IntoPerm c).edges q := by
    intro q hq
    have hfalse : inESlice q = false := decide_eq_false (by omega)
    show (phase2MinusEIntoPerm (c / 24)).edges q
        = (if inESlice q then eSliceEdgePosIntoPerm (c % 24) q
           else (phase2MinusEIntoPerm (c / 24)).edges q)
    rw [hfalse]
    simp
  have hhigh : ∀ q : Fin 12, 7 < q.val →
      eSliceEdgePosIntoPerm (c % 24) q = (phase2IntoPerm c).edges q := by
    intro q hq
    have htrue : inESlice q = true := decide_eq_true (by omega)
    show eSliceEdgePosIntoPerm (c % 24) q
        = (if inESlice q then eSliceEdgePosIntoPerm (c % 24) q
           else (phase2MinusEIntoPerm (c / 24)).edges q)
    rw [htrue]
    simp
  rw [phase2CompositeGetMove,
    phase2MinusE_composite_eq (c / 24) m (by omega) hm,
    basicGetMove_eq 24 eSliceEdgePosIntoPerm3 eSliceEdgePosFromPerm3 cube3Seq g1MovePerms
      (c % 24) m (by omega) hm]
  simp only [Option.some_bind]
  have hP : phase2MinusEFromPerm (cube3Seq (phase2MinusEIntoPerm (c / 24)) g1MovePerms[m])
      = phase2MinusEFromPerm (cube3Seq (phase2IntoPerm c) g1MovePerms[m]) := by
    rw [phase2MinusEFromPerm, phase2MinusEFromPerm]
    have hcor : (cube3Seq (phase2MinusEIntoPerm (c / 24)) g1MovePerms[m]).corners
        = (cube3Seq (phase2IntoPerm c) g1MovePerms[m]).corners := rfl
    have hudp : udEdgePosFromPerm (cube3Seq (phase2MinusEIntoPerm (c / 24)) g1MovePerms[m]).edges
        = udEdgePosFromPerm (cube3Seq (phase2IntoPerm c) g1MovePerms[m]).edges := by
      show udEdgePosFromPerm
            (edgeSeq (phase2MinusEIntoPerm (c / 24)).edges (g1MovePerms[m]).edges)
          = udEdgePosFromPerm (edgeSeq (phase2IntoPerm c).edges (g1MovePerms[m]).edges)
      apply udEdgePosFromPerm_congr
      exact edgeSeq_eq_on_low _ _ _ (g1_preserves_ud _ hmem) hlow
    rw [hcor, hudp]
  have hE : eSliceEdgePosFromPerm3 (cube3Seq (eSliceEdgePosIntoPerm3 (c % 24)) g1MovePerms[m])
      = eSliceEdgePosFromPerm (cube3Seq (phase2IntoPerm c) g1MovePerms[m]).edges := by
    show eSliceEdgePosFromPerm
          (edgeSeq (eSliceEdgePosIntoPerm (c % 24)) (g1MovePerms[m]).edges)
        = eSliceEdgePosFromPerm (edgeSeq (phase2IntoPerm c).edges (g1MovePerms[m]).edges)
    apply eSliceEdgePosFromPerm_congr
    exact edgeSeq_eq_on_high _ _ _ (g1_preserves_eslice _ hmem) hhigh
  rw [hP, hE, phase2FromPerm]

/-- C3: every shipped move table satisfies
`get_move(c, m) = from_perm(sequence(into_perm(c), perm(m)))`: the first
conjunct is `BasicMoveTable` (any coordinate), the second is
`CompositeMoveTable::to_basic`, and the remaining five are the shipped
composite lookups (Corner7 over UrfTurn; ESliceAndEO, Phase1 over CubeTurn;
Phase2MinusE, Phase2 over G1CubeTurn). -/
theorem move_tables_agree :
    (∀ (P C : Type) (count : Nat) (ip : Nat → P) (fp : P → C) (sq : P → P → P)
        (mps : List P) (c m : Nat) (hc : c < count) (hm : m < mps.length),
        basicGetMove count ip fp sq mps c m = some (fp (sq (ip c) mps[m]))) ∧
    (∀ (C : Type) (count mcount : Nat) (get : Nat → Nat → C) (c m : Nat)
        (hc : c < count) (hm : m < mcount),
        toBasicGetMove count mcount get c m = some (get c m)) ∧
    (∀ (c m : Nat) (hc : c < 729 * 5040) (hm : m < urfMovePerms.length),
        corner7CompositeGetMove c m
          = corner7FromPerm (cornerSeq (corner7IntoPerm c) urfMovePerms[m])) ∧
    (∀ (c m : Nat) (hc : c < 1013760) (hm : m < cubeMovePerms.length),
        eSliceAndEOCompositeGetMove c m
          = some (eSliceAndEOFromPerm3 (cube3Seq (eSliceAndEOIntoPerm3 c) cubeMovePerms[m]))) ∧
    (∀ (c m : Nat) (hc : c < 2187 * 1013760) (hm : m < cubeMovePerms.length),
        phase1CompositeGetMove c m
          = some (phase1FromPerm (cube3Seq (phase1IntoPerm c) cubeMovePerms[m]))) ∧
    (∀ (c m : Nat) (hc : c < 40320 * 40320) (hm : m < g1MovePerms.length),
        phase2MinusECompositeGetMove c m
          = phase2MinusEFromPerm (cube3Seq (phase2MinusEIntoPerm c) g1MovePerms[m])) ∧
    (∀ (c m : Nat) (hc : c < 40320 * 40320 * 24) (hm : m < g1MovePerms.length),
        phase2CompositeGetMove c m
          = phase2FromPerm (cube3Seq (phase2IntoPerm c) g1MovePerms[m])) :=
  ⟨fun P C count ip fp sq mps c m hc hm => basicGetMove_eq count ip fp sq mps c m hc hm,
   fun C count mcount get c m hc hm => toBasicGetMove_eq count mcount get c m hc hm,
   corner7_composite_eq, eSliceAndEO_composite_eq, phase1_composite_eq,
   phase2MinusE_composite_eq, phase2_composite_eq⟩

/-- Witness: the `BasicMoveTable` law at a one-coordinate, one-move system,
and the `Corner7` composite lookup at `(0, 0)`. -/
theorem move_tables_agree_witness :
    ((0:Nat) < 1 ∧ (0:Nat) < [(4:Nat)].length ∧ (0:Nat) < 729 * 5040 ∧
      (0:Nat) < urfMovePerms.length) ∧
    basicGetMove 1 (fun n => n) (fun n => n) (fun a b => a + b) [(4:Nat)] 0 0 = some 4 ∧
    corner7CompositeGetMove 0 0
      = corner7FromPerm (cornerSeq (corner7IntoPerm 0) urfMovePerms[0]) := by
  refine ⟨⟨by norm_num, by norm_num, by norm_num, by decide⟩, ?_, ?_⟩
  · exact move_tables_agree.1 Nat Nat 1 (fun n => n) (fun n => n) (fun a b => a + b)
      [(4:Nat)] 0 0 (by norm_num) (by norm_num)
  · exact move_tables_agree.2.2.1 0 0 (by norm_num) (by decide)

/-! ## solver.rs: the SolutionIter state machine -/

/-- One Rust `StackState`: the coordinate after the move, the move, and what
remains of its `move_iter`. -/
structure StackEntry (M : Type) where
  coord : Nat
  mov : M
  moveRest : List M

/-- The fields of `SolutionIter` (the tables are passed separately).  The
head of `stack` is the top of the Rust `Vec`. -/
structure SolverState (M : Type) where
  initCoord : Nat
  target : Nat
  maxDepth : Nat
  nextMaxDepth : Nat
  firstMoves : List M
  stack : List (StackEntry M)

/-- `self.stack.iter().map(|state| state.mov).collect()` (bottom to top). -/
def emittedSolution {M : Type} (stack : List (StackEntry M)) : List M :=
  (stack.map (fun st => st.mov)).reverse

/-- `SolutionIter::new`: depth 0, next depth 1, `first_move_iter` already
consumed, empty stack. -/
def solverInit {M : Type} (target initCoord : Nat) : SolverState M :=
  { initCoord := initCoord, target := target, maxDepth := 0, nextMaxDepth := 1,
    firstMoves := [], stack := [] }

/-- One iteration of the `loop` in `SolutionIter::next`, returning the next
state and the solution returned by this iteration, if any. -/
def solverStep {M : Type} (combines : M → M → Bool) (getMove : Nat → M → Nat)
    (prune : Nat → Nat) (allMoves : List M) (s : SolverState M) :
    SolverState M × Option (List M) :=
  match hstack : s.stack with
  | st :: rest =>
    match st.moveRest with
    | [] => ({ s with stack := rest }, none)
    | m :: ms =>
      let stack' := { st with moveRest := ms } :: rest
      if combines st.mov m then ({ s with stack := stack' }, none)
      else
        let newCoord := getMove st.coord m
        let depth := s.stack.length + 1
        let h := prune newCoord + depth
        if h ≤ s.maxDepth then
          let stack2 := (⟨newCoord, m, allMoves⟩ : StackEntry M) :: stack'
          if depth = s.maxDepth ∧ newCoord = s.target then
            ({ s with stack := stack2 }, some (emittedSolution stack2))
          else ({ s with stack := stack2 }, none)
        else ({ s with stack := stack', nextMaxDepth := min s.nextMaxDepth h }, none)
  | [] =>
    match s.firstMoves with
    | fm :: fs =>
      let newCoord := getMove s.initCoord fm
      let stack2 := [(⟨newCoord, fm, allMoves⟩ : StackEntry M)]
      if s.maxDepth = 1 ∧ newCoord = s.target then
        ({ s with stack := stack2, firstMoves := fs }, some (emittedSolution stack2))
      else ({ s with stack := stack2, firstMoves := fs }, none)
    | [] =>
      let s' : SolverState M :=
        { initCoord := s.initCoord, target := s.target, maxDepth := s.nextMaxDepth,
          nextMaxDepth := s.nextMaxDepth + 1, firstMoves := allMoves, stack := s.stack }
      if s.nextMaxDepth = 1 ∧ s.initCoord = s.target then (s', some [])
      else (s', none)

/-- The stream of solutions produced by `fuel` iterations of the loop. -/
def solverRun {M : Type} (combines : M → M → Bool) (getMove : Nat → M → Nat)
    (prune : Nat → Nat) (allMoves : List M) : Nat → SolverState M → List (List M)
  | 0, _ => []
  | fuel + 1, s =>
    match solverStep combines getMove prune allMoves s with
    | (s', some sol) => sol :: solverRun combines getMove prune allMoves fuel s'
    | (s', none) => solverRun combines getMove prune allMoves fuel s'

/-- `max_depth < next_max_depth` throughout. -/
def SolverInv {M : Type} (s : SolverState M) : Prop := s.maxDepth < s.nextMaxDepth

theorem solverStep_inv {M : Type} (combines : M → M → Bool) (getMove : Nat → M → Nat)
    (prune : Nat → Nat) (allMoves : List M) (s s' : SolverState M) (em : Option (List M))
    (hstep : solverStep combines getMove prune allMoves s = (s', em))
    (h : SolverInv s) : SolverInv s' := by
  rcases s with ⟨ic, tg, md, nmd, fms, stack⟩
  simp only [SolverInv] at h
  rcases stack with _ | ⟨⟨co, mv, mrest⟩, rest⟩
  · rcases fms with _ | ⟨fm, fs⟩
    · simp only [solverStep] at hstep
      split at hstep <;>
      · simp only [Prod.mk.injEq] at hstep
        obtain ⟨h1, _⟩ := hstep
        subst h1
        simp only [SolverInv]
        omega
    · simp only [solverStep] at hstep
      split at hstep <;>
      · simp only [Prod.mk.injEq] at hstep
        obtain ⟨h1, _⟩ := hstep
        subst h1
        simp only [SolverInv]
        omega
  · rcases mrest with _ | ⟨m, ms⟩
    · simp only [solverStep] at hstep
      simp only [Prod.mk.injEq] at hstep
      obtain ⟨h1, _⟩ := hstep
      subst h1
      simp only [SolverInv]
      omega
    · simp only [solverStep] at hstep
      split at hstep
      · simp only [Prod.mk.injEq] at hstep
        obtain ⟨h1, _⟩ := hstep
        subst h1
        simp only [SolverInv]
        omega
      · split at hstep
        · split at hstep <;>
          · simp only [Prod.mk.injEq] at hstep
            obtain ⟨h1, _⟩ := hstep
            subst h1
            simp only [SolverInv]
            omega
        · simp only [Prod.mk.injEq] at hstep
          obtain ⟨h1, _⟩ := hstep
          subst h1
          simp only [SolverInv]
          simp only [Nat.lt_min]
          omega

theorem solverStep_max_mono {M : Type} (combines : M → M → Bool) (getMove : Nat → M → Nat)
    (prune : Nat → Nat) (allMoves : List M) (s s' : SolverState M) (em : Option (List M))
    (hstep : solverStep combines getMove prune allMoves s = (s', em))
    (h : SolverInv s) : s.maxDepth ≤ s'.maxDepth := by
  rcases s with ⟨ic, tg, md, nmd, fms, stack⟩
  simp only [SolverInv] at h
  rcases stack with _ | ⟨⟨co, mv, mrest⟩, rest⟩
  · rcases fms with _ | ⟨fm, fs⟩
    · simp only [solverStep] at hstep
      split at hstep <;>
      · simp only [Prod.mk.injEq] at hstep
        obtain ⟨h1, _⟩ := hstep
        subst h1
        simp only []
        omega
    · simp only [solverStep] at hstep
      split at hstep <;>
      · simp only [Prod.mk.injEq] at hstep
        obtain ⟨h1, _⟩ := hstep
        subst h1
        simp only []
        omega
  · rcases mrest with _ | ⟨m, ms⟩
    · simp only [solverStep] at hstep
      simp only [Prod.mk.injEq] at hstep
      obtain ⟨h1, _⟩ := hstep
      subst h1
      simp only []
      omega
    · simp only [solverStep] at hstep
      split at hstep
      · simp only [Prod.mk.injEq] at hstep
        obtain ⟨h1, _⟩ := hstep
        subst h1
        simp only []
        omega
      · split at hstep
        · split at hstep <;>
          · simp only [Prod.mk.injEq] at hstep
            obtain ⟨h1, _⟩ := hstep
            subst h1
            simp only []
            omega
        · simp only [Prod.mk.injEq] at hstep
          obtain ⟨h1, _⟩ := hstep
          subst h1
          simp only []
          omega

theorem solverStep_const {M : Type} (combines : M → M → Bool) (getMove : Nat → M → Nat)
    (prune : Nat → Nat) (allMoves : List M) (s s' : SolverState M) (em : Option (List M))
    (hstep : solverStep combines getMove prune allMoves s = (s', em)) :
    s'.initCoord = s.initCoord ∧ s'.target = s.target := by
  rcases s with ⟨ic, tg, md, nmd, fms, stack⟩
  rcases stack with _ | ⟨⟨co, mv, mrest⟩, rest⟩
  · rcases fms with _ | ⟨fm, fs⟩
    · simp only [solverStep] at hstep
      split at hstep <;>
      · simp only [Prod.mk.injEq] at hstep
        obtain ⟨h1, _⟩ := hstep
        subst h1
        exact ⟨rfl, rfl⟩
    · simp only [solverStep] at hstep
      split at hstep <;>
      · simp only [Prod.mk.injEq] at hstep
        obtain ⟨h1, _⟩ := hstep
        subst h1
        exact ⟨rfl, rfl⟩
  · rcases mrest with _ | ⟨m, ms⟩
    · simp only [solverStep] at hstep
      simp only [Prod.mk.injEq] at hstep
      obtain ⟨h1, _⟩ := hstep
      subst h1
      exact ⟨rfl, rfl⟩
    · simp only [solverStep] at hstep
      split at hstep
      · simp only [Prod.mk.injEq] at hstep
        obtain ⟨h1, _⟩ := hstep
        subst h1
        exact ⟨rfl, rfl⟩
      · split at hstep
        · split at hstep <;>
          · simp only [Prod.mk.injEq] at hstep
            obtain ⟨h1, _⟩ := hstep
            subst h1
            exact ⟨rfl, rfl⟩
        · simp only [Prod.mk.injEq] at hstep
          obtain ⟨h1, _⟩ := hstep
          subst h1
          exact ⟨rfl, rfl⟩

theorem solverStep_emit_le {M : Type} (combines : M → M → Bool) (getMove : Nat → M → Nat)
    (prune : Nat → Nat) (allMoves : List M) (s s' : SolverState M) (sol : List M)
    (hstep : solverStep combines getMove prune allMoves s = (s', some sol)) :
    sol.length ≤ s'.maxDepth := by
  rcases s with ⟨ic, tg, md, nmd, fms, stack⟩
  rcases stack with _ | ⟨⟨co, mv, mrest⟩, rest⟩
  · rcases fms with _ | ⟨fm, fs⟩
    · simp only [solverStep] at hstep
      split at hstep
      · simp only [Prod.mk.injEq, Option.some.injEq] at hstep
        obtain ⟨h1, h2⟩ := hstep
        subst h1
        subst h2
        simp
      · simp at hstep
    · simp only [solverStep] at hstep
      split at hstep
      · rename_i hcond
        simp only [Prod.mk.injEq, Option.some.injEq] at hstep
        obtain ⟨h1, h2⟩ := hstep
        subst h1
        subst h2
        simp only [emittedSolution, List.map_cons, List.map_nil, List.reverse_cons,
          List.reverse_nil, List.nil_append, List.length_cons, List.length_nil]
        omega
      · simp at hstep
  · rcases mrest with _ | ⟨m, ms⟩
    · simp only [solverStep] at hstep
      simp at hstep
    · simp only [solverStep] at hstep
      split at hstep
      · simp at hstep
      · split at hstep
        · split at hstep
          · rename_i hcond
            simp only [List.length_cons] at hcond
            simp only [Prod.mk.injEq, Option.some.injEq] at hstep
            obtain ⟨h1, h2⟩ := hstep
            subst h1
            subst h2
            simp only [emittedSolution, List.length_reverse, List.length_map,
              List.length_cons]
            omega
          · simp at hstep
        · simp at hstep

theorem solverStep_emit_ge {M : Type} (combines : M → M → Bool) (getMove : Nat → M → Nat)
    (prune : Nat → Nat) (allMoves : List M) (s s' : SolverState M) (sol : List M)
    (hinv : SolverInv s)
    (hstep : solverStep combines getMove prune allMoves s = (s', some sol)) :
    s.maxDepth ≤ sol.length := by
  rcases s with ⟨ic, tg, md, nmd, fms, stack⟩
  simp only [SolverInv] at hinv
  rcases stack with _ | ⟨⟨co, mv, mrest⟩, rest⟩
  · rcases fms with _ | ⟨fm, fs⟩
    · simp only [solverStep] at hstep
      split at hstep
      · rename_i hcond
        simp only [Prod.mk.injEq, Option.some.injEq] at hstep
        obtain ⟨h1, h2⟩ := hstep
        simp only []
        omega
      · simp at hstep
    · simp only [solverStep] at hstep
      split at hstep
      · rename_i hcond
        simp only [Prod.mk.injEq, Option.some.injEq] at hstep
        obtain ⟨h1, h2⟩ := hstep
        subst h2
        simp only [emittedSolution, List.map_cons, List.map_nil, List.reverse_cons,
          List.reverse_nil, List.nil_append, List.length_cons, List.length_nil]
        omega
      · simp at hstep
  · rcases mrest with _ | ⟨m, ms⟩
    · simp only [solverStep] at hstep
      simp at hstep
    · simp only [solverStep] at hstep
      split at hstep
      · simp at hstep
      · split at hstep
        · split at hstep
          · rename_i hcond
            simp only [List.length_cons] at hcond
            simp only [Prod.mk.injEq, Option.some.injEq] at hstep
            obtain ⟨h1, h2⟩ := hstep
            subst h2
            simp only [emittedSolution, List.length_reverse, List.length_map,
              List.length_cons]
            omega
          · simp at hstep
        · simp at hstep

theorem solverRun_all_ge {M : Type} (combines : M → M → Bool) (getMove : Nat → M → Nat)
    (prune : Nat → Nat) (allMoves : List M) :
    ∀ (fuel : Nat) (s : SolverState M), SolverInv s →
      ∀ sol ∈ solverRun combines getMove prune allMoves fuel s, s.maxDepth ≤ sol.length := by
  intro fuel
  induction fuel with
  | zero => intro s _ sol hsol; exact absurd hsol (List.not_mem_nil sol)
  | succ fuel ih =>
    intro s hinv sol hsol
    rw [solverRun] at hsol
    rcases hstep : solverStep combines getMove prune allMoves s with ⟨s2, em⟩
    rw [hstep] at hsol
    have hinv' := solverStep_inv combines getMove prune allMoves s s2 em hstep hinv
    have hmono := solverStep_max_mono combines getMove prune allMoves s s2 em hstep hinv
    cases em with
    | none =>
      have := ih s2 hinv' sol hsol
      omega
    | some e =>
      simp only at hsol
      rcases List.mem_cons.mp hsol with heq | htail
      · subst heq
        exact solverStep_emit_ge combines getMove prune allMoves s s2 sol hinv hstep
      · have := ih s2 hinv' sol htail
        omega

/-- C6: across successive calls to `next()`, the solution lengths are
non-decreasing (each solution's length is at most the length of every later
one). -/
theorem solver_lengths_nondecreasing {M : Type} (combines : M → M → Bool)
    (getMove : Nat → M → Nat) (prune : Nat → Nat) (allMoves : List M)
    (target initCoord fuel : Nat) :
    List.Pairwise (fun a b => a.length ≤ b.length)
      (solverRun combines getMove prune allMoves fuel
        (solverInit target initCoord : SolverState M)) := by
  have main : ∀ (fuel : Nat) (s : SolverState M), SolverInv s →
      List.Pairwise (fun (a b : List M) => a.length ≤ b.length)
        (solverRun combines getMove prune allMoves fuel s) := by
    intro fuel
    induction fuel with
    | zero => intro s _; exact List.Pairwise.nil
    | succ fuel ih =>
      intro s hinv
      rw [solverRun]
      rcases hstep : solverStep combines getMove prune allMoves s with ⟨s2, em⟩
      have hinv' := solverStep_inv combines getMove prune allMoves s s2 em hstep hinv
      cases em with
      | none => exact ih s2 hinv'
      | some e =>
        refine List.Pairwise.cons ?_ (ih s2 hinv')
        intro b hb
        have hle : e.length ≤ s2.maxDepth :=
          solverStep_emit_le combines getMove prune allMoves s s2 e hstep
        have hge := solverRun_all_ge combines getMove prune allMoves fuel s2 hinv' b hb
        omega
  exact main fuel _ (by simp [solverInit, SolverInv])

/-- An empty solution is only produced at the depth bump to 1, which requires
the start to be at the target. -/
theorem solverStep_emit_nil {M : Type} (combines : M → M → Bool) (getMove : Nat → M → Nat)
    (prune : Nat → Nat) (allMoves : List M) (s s' : SolverState M)
    (hstep : solverStep combines getMove prune allMoves s = (s', some ([] : List M))) :
    s.initCoord = s.target := by
  rcases s with ⟨ic, tg, md, nmd, fms, stack⟩
  rcases stack with _ | ⟨⟨co, mv, mrest⟩, rest⟩
  · rcases fms with _ | ⟨fm, fs⟩
    · simp only [solverStep] at hstep
      split at hstep
      · rename_i hcond
        exact hcond.2
      · simp at hstep
    · simp only [solverStep] at hstep
      split at hstep
      · simp only [Prod.mk.injEq, Option.some.injEq] at hstep
        exact absurd hstep.2.symm (by simp [emittedSolution])
      · simp at hstep
  · rcases mrest with _ | ⟨m, ms⟩
    · simp only [solverStep] at hstep
      simp at hstep
    · simp only [solverStep] at hstep
      split at hstep
      · simp at hstep
      · split at hstep
        · split at hstep
          · simp only [Prod.mk.injEq, Option.some.injEq] at hstep
            exact absurd hstep.2.symm (by simp [emittedSolution])
          · simp at hstep
        · simp at hstep

theorem solverRun_nil_mem {M : Type} (combines : M → M → Bool) (getMove : Nat → M → Nat)
    (prune : Nat → Nat) (allMoves : List M) :
    ∀ (fuel : Nat) (s : SolverState M),
      ([] : List M) ∈ solverRun combines getMove prune allMoves fuel s →
      s.initCoord = s.target := by
  intro fuel
  induction fuel with
  | zero => intro s h; exact absurd h (List.not_mem_nil _)
  | succ fuel ih =>
    intro s h
    rw [solverRun] at h
    rcases hstep : solverStep combines getMove prune allMoves s with ⟨s2, em⟩
    rw [hstep] at h
    have hconst := solverStep_const combines getMove prune allMoves s s2 em hstep
    cases em with
    | none =>
      have := ih s2 h
      rw [hconst.1, hconst.2] at this
      exact this
    | some e =>
      simp only at h
      rcases List.mem_cons.mp h with heq | htail
      · exact solverStep_emit_nil combines getMove prune allMoves s s2 (by rw [hstep, ← heq])
      · have := ih s2 htail
        rw [hconst.1, hconst.2] at this
        exact this

/-- The coordinate reached from `c` by looking the moves up in sequence. -/
def coordAfter {M : Type} (getMove : Nat → M → Nat) : Nat → List M → Nat
  | c, [] => c
  | c, m :: ms => coordAfter getMove (getMove c m) ms

/-- The first iteration from the initial iterator state performs the depth
bump to 1 and returns the empty solution exactly when the start is at the
target. -/
theorem solverRun_head_empty {M : Type} (combines : M → M → Bool) (getMove : Nat → M → Nat)
    (prune : Nat → Nat) (allMoves : List M) (target init fuel : Nat) (h : init = target) :
    (solverRun combines getMove prune allMoves (fuel + 1)
      (solverInit target init : SolverState M)).head? = some [] := by
  rw [solverRun]
  simp only [solverInit, solverStep]
  rw [if_pos ⟨trivial, h⟩]
  rfl

/-! ## solver.rs: solve_cube's recursive depth-first search -/

/-- The `for m in new_moves` loop body of `depth_search`: `recurse` is the
call at `depth - 1`; a failed child hands back its path, which is popped. -/
def combinesLast {M : Type} (combines : M → M → Bool) : Option M → M → Bool
  | some l, m => combines l m
  | none, _ => false

def dsLoop {M : Type} (combines : M → M → Bool) (getMove : Nat → M → Nat)
    (prune : Nat → Nat) (recurse : List M → Nat → Bool × List M) (depth : Nat)
    (last : Option M) : List M → List M → Nat → Bool × List M
  | [], path, _ => (false, path)
  | m :: ms, path, coord =>
    if combinesLast combines last m then
      dsLoop combines getMove prune recurse depth last ms path coord
    else if depth < prune (getMove coord m) then
      dsLoop combines getMove prune recurse depth last ms path coord
    else if (recurse (path ++ [m]) (getMove coord m)).1 then
      (true, (recurse (path ++ [m]) (getMove coord m)).2)
    else
      dsLoop combines getMove prune recurse depth last ms
        ((recurse (path ++ [m]) (getMove coord m)).2).dropLast coord

/-- Rust `depth_search`: check the target first, then give up at depth 0,
else loop over the moves not combining with the last one. -/
def depthSearch {M : Type} (combines : M → M → Bool) (getMove : Nat → M → Nat)
    (prune : Nat → Nat) (target : Nat) (allMoves : List M) :
    Nat → List M → Nat → Bool × List M
  | 0, path, coord =>
    if coord = target then (true, path) else (false, path)
  | depth + 1, path, coord =>
    if coord = target then (true, path)
    else
      dsLoop combines getMove prune
        (depthSearch combines getMove prune target allMoves depth) (depth + 1)
        path.getLast? allMoves path coord

/-- Rust `solve_cube`'s `for depth in 1..` loop, fuelled. -/
def solveCubeFrom {M : Type} (combines : M → M → Bool) (getMove : Nat → M → Nat)
    (prune : Nat → Nat) (target : Nat) (allMoves : List M) (root : Nat) :
    Nat → Nat → Option (List M)
  | 0, _ => none
  | fuel + 1, depth =>
    match depthSearch combines getMove prune target allMoves depth [] root with
    | (true, path) => some path
    | (false, _) => solveCubeFrom combines getMove prune target allMoves root fuel (depth + 1)

def solveCube {M : Type} (combines : M → M → Bool) (getMove : Nat → M → Nat)
    (prune : Nat → Nat) (target : Nat) (allMoves : List M) (root fuel : Nat) :
    Option (List M) :=
  solveCubeFrom combines getMove prune target allMoves root fuel 1

theorem dsLoop_false_path {M : Type} (combines : M → M → Bool) (getMove : Nat → M → Nat)
    (prune : Nat → Nat) (recurse : List M → Nat → Bool × List M) (depth : Nat)
    (last : Option M)
    (hrecF : ∀ path coord out, recurse path coord = (false, out) → out = path) :
    ∀ (ms path : List M) (coord : Nat) (out : List M),
      dsLoop combines getMove prune recurse depth last ms path coord = (false, out) →
      out = path := by
  intro ms
  induction ms with
  | nil =>
    intro path coord out h
    rw [dsLoop] at h
    simp only [Prod.mk.injEq] at h
    exact h.2.symm
  | cons m ms ih =>
    intro path coord out h
    rw [dsLoop] at h
    split at h
    · exact ih path coord out h
    · split at h
      · exact ih path coord out h
      · rcases hr : recurse (path ++ [m]) (getMove coord m) with ⟨found, newPath⟩
        rw [hr] at h
        simp only [] at h
        cases found with
        | true => simp at h
        | false =>
          rw [if_neg Bool.false_ne_true] at h
          have hnp : newPath = path ++ [m] := hrecF _ _ _ hr
          have := ih (newPath.dropLast) coord out h
          rw [this, hnp]
          simp

theorem depthSearch_false_path {M : Type} (combines : M → M → Bool) (getMove : Nat → M → Nat)
    (prune : Nat → Nat) (target : Nat) (allMoves : List M) :
    ∀ (depth : Nat) (path : List M) (coord : Nat) (out : List M),
      depthSearch combines getMove prune target allMoves depth path coord = (false, out) →
      out = path := by
  intro depth
  induction depth with
  | zero =>
    intro path coord out h
    rw [depthSearch] at h
    split at h
    · simp at h
    · simp only [Prod.mk.injEq] at h
      exact h.2.symm
  | succ depth ih =>
    intro path coord out h
    rw [depthSearch] at h
    split at h
    · simp at h
    · exact dsLoop_false_path combines getMove prune _ (depth + 1) path.getLast?
        (fun p c o => ih p c o) allMoves path coord out h

theorem dsLoop_sound {M : Type} (combines : M → M → Bool) (getMove : Nat → M → Nat)
    (prune : Nat → Nat) (recurse : List M → Nat → Bool × List M) (depth : Nat)
    (last : Option M) (target : Nat)
    (hrec : ∀ path coord out, recurse path coord = (true, out) →
      ∃ ext, out = path ++ ext ∧ coordAfter getMove coord ext = target)
    (hrecF : ∀ path coord out, recurse path coord = (false, out) → out = path) :
    ∀ (ms path : List M) (coord : Nat) (out : List M),
      dsLoop combines getMove prune recurse depth last ms path coord = (true, out) →
      ∃ ext, out = path ++ ext ∧ coordAfter getMove coord ext = target := by
  intro ms
  induction ms with
  | nil =>
    intro path coord out h
    rw [dsLoop] at h
    simp at h
  | cons m ms ih =>
    intro path coord out h
    rw [dsLoop] at h
    split at h
    · exact ih path coord out h
    · split at h
      · exact ih path coord out h
      · rcases hr : recurse (path ++ [m]) (getMove coord m) with ⟨found, newPath⟩
        rw [hr] at h
        simp only [] at h
        cases found with
        | true =>
          rw [if_pos rfl] at h
          simp only [Prod.mk.injEq] at h
          obtain ⟨ext, hext, hca⟩ := hrec _ _ _ hr
          refine ⟨m :: ext, ?_, ?_⟩
          · rw [← h.2, hext]
            simp
          · show coordAfter getMove (getMove coord m) ext = target
            exact hca
        | false =>
          rw [if_neg Bool.false_ne_true] at h
          have hnp : newPath = path ++ [m] := hrecF _ _ _ hr
          have hrestore : newPath.dropLast = path := by rw [hnp]; simp
          rw [hrestore] at h
          exact ih path coord out h

theorem depthSearch_sound {M : Type} (combines : M → M → Bool) (getMove : Nat → M → Nat)
    (prune : Nat → Nat) (target : Nat) (allMoves : List M) :
    ∀ (depth : Nat) (path : List M) (coord : Nat) (out : List M),
      depthSearch combines getMove prune target allMoves depth path coord = (true, out) →
      ∃ ext, out = path ++ ext ∧ coordAfter getMove coord ext = target := by
  intro depth
  induction depth with
  | zero =>
    intro path coord out h
    rw [depthSearch] at h
    split at h
    · rename_i hct
      simp only [Prod.mk.injEq] at h
      exact ⟨[], by simp [← h.2], hct⟩
    · simp at h
  | succ depth ih =>
    intro path coord out h
    rw [depthSearch] at h
    split at h
    · rename_i hct
      simp only [Prod.mk.injEq] at h
      exact ⟨[], by simp [← h.2], hct⟩
    · exact dsLoop_sound combines getMove prune _ (depth + 1) path.getLast? target
        (fun p c o => ih p c o) (fun p c o => depthSearch_false_path _ _ _ _ _ depth p c o)
        allMoves path coord out h

theorem solveCubeFrom_sound {M : Type} (combines : M → M → Bool) (getMove : Nat → M → Nat)
    (prune : Nat → Nat) (target : Nat) (allMoves : List M) (root : Nat) :
    ∀ (fuel depth : Nat) (sol : List M),
      solveCubeFrom combines getMove prune target allMoves root fuel depth = some sol →
      coordAfter getMove root sol = target := by
  intro fuel
  induction fuel with
  | zero => intro depth sol h; exact absurd h (by rw [solveCubeFrom]; simp)
  | succ fuel ih =>
    intro depth sol h
    rw [solveCubeFrom] at h
    rcases hd : depthSearch combines getMove prune target allMoves depth [] root
      with ⟨found, path⟩
    rw [hd] at h
    cases found with
    | true =>
      simp only [Option.some.injEq] at h
      obtain ⟨ext, hext, hca⟩ := depthSearch_sound combines getMove prune target allMoves
        depth [] root path hd
      rw [← h, hext]
      simpa using hca
    | false => exact ih (depth + 1) sol h

theorem depthSearch_at_target {M : Type} (combines : M → M → Bool) (getMove : Nat → M → Nat)
    (prune : Nat → Nat) (target : Nat) (allMoves : List M) (depth : Nat) (path : List M)
    (coord : Nat) (h : coord = target) :
    depthSearch combines getMove prune target allMoves depth path coord = (true, path) := by
  cases depth with
  | zero => rw [depthSearch, if_pos h]
  | succ d => rw [depthSearch, if_pos h]

/-- C7: the empty sequence is produced exactly when the start coordinate is
the target: any empty solution of the iterator forces `init = target`; when
`init = target` the empty solution is the iterator's first; and `solve_cube`
returns `Some(vec![])` iff `init = target`. -/
theorem empty_solution_iff {M : Type} (combines : M → M → Bool) (getMove : Nat → M → Nat)
    (prune : Nat → Nat) (allMoves : List M) (target init fuel : Nat) :
    (([] : List M) ∈ solverRun combines getMove prune allMoves fuel
        (solverInit target init) → init = target) ∧
    (init = target →
      (solverRun combines getMove prune allMoves (fuel + 1)
        (solverInit target init : SolverState M)).head? = some []) ∧
    (solveCube combines getMove prune target allMoves init (fuel + 1) = some ([] : List M)
      ↔ init = target) := by
  refine ⟨?_, ?_, ?_, ?_⟩
  · intro h
    exact solverRun_nil_mem combines getMove prune allMoves fuel _ h
  · exact solverRun_head_empty combines getMove prune allMoves target init fuel
  · intro h
    have := solveCubeFrom_sound combines getMove prune target allMoves init
      (fuel + 1) 1 [] h
    simpa [coordAfter] using this
  · intro h
    rw [solveCube, solveCubeFrom, depthSearch_at_target _ _ _ _ _ 1 [] init h]

/-- Witness for C7 at a concrete one-coordinate system. -/
theorem empty_solution_iff_witness :
    solveCube (fun (_ _ : Bool) => false) (fun c _ => c) (fun _ => 0) 5 [] 5 1
      = some ([] : List Bool) :=
  (empty_solution_iff (fun (_ _ : Bool) => false) (fun c _ => c) (fun _ => 0)
    [] 5 5 0).2.2.mpr rfl

/-! ## solver.rs: soundness of the emitted solutions at the coordinate level -/

/-- The coordinate currently at the top of the stack (the initial coordinate
for an empty stack). -/
def stackCoord {M : Type} (init : Nat) : List (StackEntry M) → Nat
  | [] => init
  | e :: _ => e.coord

/-- Every stack entry's `coord` is its parent's coordinate moved by `mov`. -/
def GoodStack {M : Type} (getMove : Nat → M → Nat) (init : Nat) :
    List (StackEntry M) → Prop
  | [] => True
  | e :: rest => e.coord = getMove (stackCoord init rest) e.mov ∧
      GoodStack getMove init rest

theorem coordAfter_append {M : Type} (getMove : Nat → M → Nat) :
    ∀ (xs : List M) (c : Nat) (m : M),
      coordAfter getMove c (xs ++ [m]) = getMove (coordAfter getMove c xs) m := by
  intro xs
  induction xs with
  | nil => intro c m; rfl
  | cons x xs ih =>
    intro c m
    show coordAfter getMove (getMove c x) (xs ++ [m])
      = getMove (coordAfter getMove (getMove c x) xs) m
    exact ih (getMove c x) m

theorem goodStack_coordAfter {M : Type} (getMove : Nat → M → Nat) (init : Nat) :
    ∀ stack : List (StackEntry M), GoodStack getMove init stack →
      coordAfter getMove init (emittedSolution stack) = stackCoord init stack := by
  intro stack
  induction stack with
  | nil => intro _; rfl
  | cons e rest ih =>
    intro hg
    have hemit : emittedSolution (e :: rest) = emittedSolution rest ++ [e.mov] := by
      simp [emittedSolution]
    show coordAfter getMove init (emittedSolution (e :: rest)) = e.coord
    rw [hemit, coordAfter_append, ih hg.2, ← hg.1]

theorem solverStep_good {M : Type} (combines : M → M → Bool) (getMove : Nat → M → Nat)
    (prune : Nat → Nat) (allMoves : List M) (s s' : SolverState M) (em : Option (List M))
    (hstep : solverStep combines getMove prune allMoves s = (s', em))
    (hg : GoodStack getMove s.initCoord s.stack) :
    GoodStack getMove s'.initCoord s'.stack := by
  have hconst := solverStep_const combines getMove prune allMoves s s' em hstep
  rw [hconst.1]
  rcases s with ⟨ic, tg, md, nmd, fms, stack⟩
  rcases stack with _ | ⟨⟨co, mv, mrest⟩, rest⟩
  · rcases fms with _ | ⟨fm, fs⟩
    · simp only [solverStep] at hstep
      split at hstep <;>
      · simp only [Prod.mk.injEq] at hstep
        rw [← hstep.1]
        exact trivial
    · simp only [solverStep] at hstep
      split at hstep <;>
      · simp only [Prod.mk.injEq] at hstep
        rw [← hstep.1]
        exact ⟨rfl, trivial⟩
  · rcases mrest with _ | ⟨m, ms⟩
    · simp only [solverStep] at hstep
      simp only [Prod.mk.injEq] at hstep
      rw [← hstep.1]
      exact hg.2
    · simp only [solverStep] at hstep
      split at hstep
      · simp only [Prod.mk.injEq] at hstep
        rw [← hstep.1]
        exact ⟨hg.1, hg.2⟩
      · split at hstep
        · split at hstep <;>
          · simp only [Prod.mk.injEq] at hstep
            rw [← hstep.1]
            exact ⟨rfl, hg.1, hg.2⟩
        · simp only [Prod.mk.injEq] at hstep
          rw [← hstep.1]
          exact ⟨hg.1, hg.2⟩

theorem solverStep_emit_sound {M : Type} (combines : M → M → Bool)
    (getMove : Nat → M → Nat) (prune : Nat → Nat) (allMoves : List M)
    (s s' : SolverState M) (sol : List M)
    (hstep : solverStep combines getMove prune allMoves s = (s', some sol))
    (hg : GoodStack getMove s.initCoord s.stack) :
    coordAfter getMove s.initCoord sol = s.target := by
  rcases s with ⟨ic, tg, md, nmd, fms, stack⟩
  rcases stack with _ | ⟨⟨co, mv, mrest⟩, rest⟩
  · rcases fms with _ | ⟨fm, fs⟩
    · simp only [solverStep] at hstep
      split at hstep
      · rename_i hcond
        simp only [Prod.mk.injEq, Option.some.injEq] at hstep
        rw [← hstep.2]
        exact hcond.2
      · simp at hstep
    · simp only [solverStep] at hstep
      split at hstep
      · rename_i hcond
        simp only [Prod.mk.injEq, Option.some.injEq] at hstep
        rw [← hstep.2]
        have hgood : GoodStack getMove ic [(⟨getMove ic fm, fm, allMoves⟩ : StackEntry M)] :=
          ⟨rfl, trivial⟩
        have := goodStack_coordAfter getMove ic _ hgood
        rw [this]
        exact hcond.2
      · simp at hstep
  · rcases mrest with _ | ⟨m, ms⟩
    · simp only [solverStep] at hstep
      simp at hstep
    · simp only [solverStep] at hstep
      split at hstep
      · simp at hstep
      · split at hstep
        · split at hstep
          · rename_i hcond
            simp only [Prod.mk.injEq, Option.some.injEq] at hstep
            rw [← hstep.2]
            have hgood : GoodStack getMove ic
                ((⟨getMove co m, m, allMoves⟩ : StackEntry M) ::
                  (⟨co, mv, ms⟩ : StackEntry M) :: rest) :=
              ⟨rfl, hg.1, hg.2⟩
            have := goodStack_coordAfter getMove ic _ hgood
            rw [this]
            exact hcond.2
          · simp at hstep
        · simp at hstep

theorem solverRun_sound {M : Type} (combines : M → M → Bool) (getMove : Nat → M → Nat)
    (prune : Nat → Nat) (allMoves : List M) :
    ∀ (fuel : Nat) (s : SolverState M), GoodStack getMove s.initCoord s.stack →
      ∀ sol ∈ solverRun combines getMove prune allMoves fuel s,
        coordAfter getMove s.initCoord sol = s.target := by
  intro fuel
  induction fuel with
  | zero =>
    intro s _ sol hmem
    rw [solverRun] at hmem
    simp at hmem
  | succ fuel ih =>
    intro s hg sol hmem
    rw [solverRun] at hmem
    rcases hstep : solverStep combines getMove prune allMoves s with ⟨s2, em⟩
    rw [hstep] at hmem
    have hconst := solverStep_const combines getMove prune allMoves s s2 em hstep
    have hg2 := solverStep_good combines getMove prune allMoves s s2 em hstep hg
    cases em with
    | some sol0 =>
      simp only [List.mem_cons] at hmem
      rcases hmem with rfl | hmem
      · exact solverStep_emit_sound combines getMove prune allMoves s s2 sol hstep hg
      · have := ih s2 hg2 sol hmem
        rw [hconst.1, hconst.2] at this
        exact this
    | none =>
      have := ih s2 hg2 sol hmem
      rw [hconst.1, hconst.2] at this
      exact this

/-- Applying a list of moves to a puzzle permutation in order
(`perm.sequence(m.permutation())` repeatedly). -/
def applyMoves {P M : Type} (seqFn : P → M → P) : P → List M → P
  | p, [] => p
  | p, m :: ms => applyMoves seqFn (seqFn p m) ms

theorem applyMoves_coordAfter {P M : Type} (seqFn : P → M → P) (fromPerm : P → Nat)
    (getMove : Nat → M → Nat)
    (hcompat : ∀ p m, fromPerm (seqFn p m) = getMove (fromPerm p) m) :
    ∀ (ms : List M) (p : P),
      fromPerm (applyMoves seqFn p ms) = coordAfter getMove (fromPerm p) ms := by
  intro ms
  induction ms with
  | nil => intro p; rfl
  | cons m ms ih =>
    intro p
    show fromPerm (applyMoves seqFn (seqFn p m) ms)
      = coordAfter getMove (getMove (fromPerm p) m) ms
    rw [ih (seqFn p m), hcompat]

/-- C1 (amended): every solution yielded by `SolutionIter::next` and every
sequence returned by `solve_cube` takes the start coordinate to the target
(`coordAfter` folds `get_move` over the sequence); and provided `from_perm`
commutes with move application — `from_perm(sequence(p, perm(m))) ==
get_move(from_perm(p), m)` for every permutation `p`, a strengthening of the
stated move-table law — applying the moves to the start permutation itself
lands on a permutation whose `from_perm` equals the target. -/
theorem solver_solutions_reach_target {M P : Type} (combines : M → M → Bool)
    (getMove : Nat → M → Nat) (prune : Nat → Nat) (allMoves : List M)
    (seqFn : P → M → P) (fromPerm : P → Nat) (target : Nat) (start : P) (fuel : Nat)
    (hcompat : ∀ p m, fromPerm (seqFn p m) = getMove (fromPerm p) m) :
    (∀ sol ∈ solverRun combines getMove prune allMoves fuel
        (solverInit target (fromPerm start)),
      coordAfter getMove (fromPerm start) sol = target) ∧
    (∀ sol ∈ solverRun combines getMove prune allMoves fuel
        (solverInit target (fromPerm start)),
      fromPerm (applyMoves seqFn start sol) = target) ∧
    ∀ sol, solveCube combines getMove prune target allMoves (fromPerm start) fuel
        = some sol →
      fromPerm (applyMoves seqFn start sol) = target := by
  have hcoord : ∀ sol ∈ solverRun combines getMove prune allMoves fuel
      (solverInit target (fromPerm start)),
      coordAfter getMove (fromPerm start) sol = target := by
    intro sol hmem
    exact solverRun_sound combines getMove prune allMoves fuel
      (solverInit target (fromPerm start)) trivial sol hmem
  refine ⟨hcoord, ?_, ?_⟩
  · intro sol hmem
    rw [applyMoves_coordAfter seqFn fromPerm getMove hcompat]
    exact hcoord sol hmem
  · intro sol hsol
    rw [applyMoves_coordAfter seqFn fromPerm getMove hcompat]
    exact solveCubeFrom_sound combines getMove prune target allMoves (fromPerm start)
      fuel 1 sol hsol

/-- Witness for C1 at a concrete one-coordinate system already at the
target. -/
theorem solver_solutions_reach_target_witness :
    solveCube (fun (_ _ : Bool) => false) (fun c _ => c) (fun _ => 0) 7 [] 7 1
      = some ([] : List Bool) ∧
    id (applyMoves (fun (p : Nat) (_ : Bool) => p) 7 ([] : List Bool)) = 7 := by
  have hsc : solveCube (fun (_ _ : Bool) => false) (fun c _ => c) (fun _ => 0) 7 []
      7 (0 + 1) = some ([] : List Bool) := by
    rw [solveCube, solveCubeFrom,
      depthSearch_at_target (fun (_ _ : Bool) => false) (fun c _ => c) (fun _ => 0)
        7 [] 1 [] 7 rfl]
  exact ⟨hsc, (solver_solutions_reach_target (fun (_ _ : Bool) => false) (fun c _ => c)
    (fun _ => 0) [] (fun p _ => p) id 7 7 1 (fun _ _ => rfl)).2.2 [] hsc⟩

/-! ## The shipped Corner7Coord/UrfTurn instance of the solver -/

theorem cornerPos_inj_of_nodup {p : CornerPerm}
    (hnd : ((List.finRange 8).map (fun q => (p q).pos)).Nodup) :
    ∀ q r : Fin 8, (p q).pos = (p r).pos → q = r := fun q r hqr =>
  List.inj_on_of_nodup_map hnd (List.mem_finRange q) (List.mem_finRange r) hqr

theorem cornerSeq_pos_nodup {a b : CornerPerm}
    (ha : ((List.finRange 8).map (fun q => (a q).pos)).Nodup)
    (hb : ((List.finRange 8).map (fun q => (b q).pos)).Nodup) :
    ((List.finRange 8).map (fun q => ((cornerSeq a b) q).pos)).Nodup := by
  have hinj : Function.Injective (fun q : Fin 8 => ((cornerSeq a b) q).pos) := by
    intro q r h
    exact cornerPos_inj_of_nodup hb q r
      (cornerPos_inj_of_nodup ha ((b q).pos) ((b r).pos) h)
  exact (List.nodup_finRange 8).map hinj

theorem cornerPos7IntoPerm_pos_nodup (c : Nat) :
    ((List.finRange 8).map (fun q => ((cornerPos7IntoPerm c) q).pos)).Nodup := by
  have hperm : (applyCoord 7 c identCorners).Perm identCorners :=
    applyCoord_perm 7 c identCorners
  have hlen : (applyCoord 7 c identCorners).length = 8 := by
    rw [hperm.length_eq]
    simp [identCorners]
  have htake : (List.finRange 8).take 8 = List.finRange 8 := by
    apply List.take_of_length_le
    simp
  have hmap := map_finRange_take_getD_all 8 8 (applyCoord 7 c identCorners)
    (⟨2, 0⟩ : Corner) hlen (le_refl 8)
  rw [htake] at hmap
  show ((List.finRange 8).map
    (fun q : Fin 8 => ((applyCoord 7 c identCorners).getD q.val (⟨2, 0⟩ : Corner)).pos)).Nodup
  have h2 : (List.finRange 8).map
      (fun q : Fin 8 => ((applyCoord 7 c identCorners).getD q.val (⟨2, 0⟩ : Corner)).pos)
      = ((List.finRange 8).map
          (fun q : Fin 8 => (applyCoord 7 c identCorners).getD q.val (⟨2, 0⟩ : Corner))).map
        Corner.pos := by
    rw [List.map_map]
    exact rfl
  rw [h2, hmap]
  exact ((hperm.map Corner.pos).nodup_iff).mpr (by decide)

theorem corner7IntoPerm_pos_nodup (c : Nat) :
    ((List.finRange 8).map (fun q => ((corner7IntoPerm c) q).pos)).Nodup :=
  cornerPos7IntoPerm_pos_nodup (c % 5040)

theorem cornerPos7IntoPerm_dbl (c : Nat) : ((cornerPos7IntoPerm c) 7).pos = 7 := by
  have hsplit : identCorners = identCorners.take 7 ++ identCorners.drop 7 :=
    (List.take_append_drop 7 identCorners).symm
  have happ : applyCoord 7 c identCorners
      = applyCoord 7 c (identCorners.take 7) ++ identCorners.drop 7 := by
    conv_lhs => rw [hsplit]
    exact applyCoord_append 7 c _ _ (by simp [identCorners])
  have hlen7 : (applyCoord 7 c (identCorners.take 7)).length = 7 := by
    rw [(applyCoord_perm 7 c _).length_eq]
    simp [identCorners]
  show ((applyCoord 7 c identCorners).getD 7 (⟨2, 0⟩ : Corner)).pos = 7
  rw [happ, List.getD_eq_getElem?_getD,
    List.getElem?_append_right (le_of_eq hlen7), hlen7]
  rfl

theorem corner7IntoPerm_dbl (c : Nat) : ((corner7IntoPerm c) 7).pos = 7 :=
  cornerPos7IntoPerm_dbl (c % 5040)

theorem urf_move_valid : ∀ m : UrfTurn,
    ((List.finRange 8).map (fun q => ((UrfTurn.permutation m) q).pos)).Nodup ∧
    ((UrfTurn.permutation m) 7).pos = 7 := by
  intro m
  cases m <;> exact ⟨by decide, by decide⟩

/-- The mathematical content of the shipped `BasicMoveTable` for
`Corner7Coord` over `UrfTurn`: `from_perm(sequence(into_perm(c), perm(m)))`,
defaulted (it never actually misses, see the next theorem). -/
def corner7GetMoveDef (c : Nat) (m : UrfTurn) : Nat :=
  (corner7FromPerm (cornerSeq (corner7IntoPerm c) m.permutation)).getD 0

/-- The shipped table satisfies the move-table law of the claim: the
`from_perm` on the right always succeeds and equals the stored value. -/
theorem corner7GetMoveDef_spec (c : Nat) (m : UrfTurn) :
    corner7FromPerm (cornerSeq (corner7IntoPerm c) (UrfTurn.permutation m))
      = some (corner7GetMoveDef c m) := by
  have hnd : ((List.finRange 8).map
      (fun q => ((cornerSeq (corner7IntoPerm c) (UrfTurn.permutation m)) q).pos)).Nodup :=
    cornerSeq_pos_nodup (corner7IntoPerm_pos_nodup c) (urf_move_valid m).1
  have hdbl : ((cornerSeq (corner7IntoPerm c) (UrfTurn.permutation m)) 7).pos = 7 := by
    show ((corner7IntoPerm c) ((UrfTurn.permutation m 7).pos)).pos = 7
    rw [(urf_move_valid m).2]
    exact corner7IntoPerm_dbl c
  have hsome : (corner7FromPerm
      (cornerSeq (corner7IntoPerm c) (UrfTurn.permutation m))).isSome := by
    rw [corner7FromPerm, Option.isSome_map']
    exact cornerPos7FromPerm_isSome_of_valid _ hnd hdbl
  rw [corner7GetMoveDef]
  cases ho : corner7FromPerm (cornerSeq (corner7IntoPerm c) (UrfTurn.permutation m)) with
  | none => rw [ho] at hsome; simp at hsome
  | some v => rfl

/-- Evaluable twin of `cornerPos7IntoPerm` (structural recursion only). -/
def cornerPos7IntoPermRun (c : Nat) : CornerPerm :=
  cornerPermOfList (applyCoordRun 6 1 c identCorners)

theorem cornerPos7IntoPermRun_eq (c : Nat) :
    cornerPos7IntoPermRun c = cornerPos7IntoPerm c := by
  rw [cornerPos7IntoPermRun, cornerPos7IntoPerm, applyCoord_eq_run]

def corner7IntoPermRun (c : Nat) : CornerPerm := fun q =>
  ⟨(cornerPos7IntoPermRun (c % 5040) q).pos, (cornerOrient7IntoPerm (c / 5040) q).orient⟩

theorem corner7IntoPermRun_eq (c : Nat) : corner7IntoPermRun c = corner7IntoPerm c := by
  funext q
  simp only [corner7IntoPermRun, corner7IntoPerm, cornerPos7IntoPermRun_eq]

/-- Evaluable twin of `corner7GetMoveDef`. -/
def corner7GetMoveRun (c : Nat) (m : UrfTurn) : Nat :=
  (corner7FromPerm (cornerSeq (corner7IntoPermRun c) m.permutation)).getD 0

theorem corner7GetMoveRun_eq : corner7GetMoveRun = corner7GetMoveDef := by
  funext c m
  rw [corner7GetMoveRun, corner7GetMoveDef, corner7IntoPermRun_eq]

/-- `R'` with the orientation of the cubie in slot DRB twisted once more: a
genuine `CornerPermutation` value (bijective placement) whose orientation
digits 0..5 and position Lehmer code — hence its `Corner7Coord` — coincide
with those of `R'`. -/
def badStart : CornerPerm := fun q =>
  if q.val = 6 then
    ⟨(Cube2.rPrimePerm 6).pos, addOrient (Cube2.rPrimePerm 6).orient 1⟩
  else Cube2.rPrimePerm q

/-- C1 counterexample: with the shipped `Corner7Coord`/`UrfTurn` table
(which satisfies the claim's move-table law, first conjunct) and start
permutation `badStart`, the iterator's first solution is `[R]` (move index
3), yet applying `R` to `badStart` itself does not produce a permutation of
coordinate 0 (the target): the quoted law only constrains `get_move` on
permutations produced by `into_perm`, and `badStart` — whose orientation
sum is not divisible by 3 — shares its coordinate with `R'` without moving
in step with it. -/
theorem solver_target_miss :
    (∀ (c : Nat) (m : UrfTurn),
      corner7FromPerm (cornerSeq (corner7IntoPerm c) (UrfTurn.permutation m))
        = some (corner7GetMoveRun c m)) ∧
    (solverRun UrfTurn.combinesWith corner7GetMoveRun (fun _ => 0) UrfTurn.iterList 35
        (solverInit 0 ((corner7FromPerm badStart).getD 0))).map
          (fun sol => sol.map UrfTurn.index) = [[3]] ∧
    UrfTurn.index UrfTurn.R = 3 ∧
    corner7FromPerm (cornerSeq badStart (UrfTurn.permutation UrfTurn.R)) ≠ some 0 := by
  refine ⟨fun c m => by rw [corner7GetMoveRun_eq]; exact corner7GetMoveDef_spec c m,
    ?_, rfl, ?_⟩
  · decide
  · decide

set_option maxRecDepth 20000 in
/-- C8: `combines_with` coincides with plain equality on all three generator
sets — it is reflexive, but the same-axis arms are dead code (the pair is
reordered with the `Ord`-larger element first, while every listed pattern
puts the declaration-earlier element first), so distinct same-axis pairs
such as `(U, U2)` are not flagged; consequently the 2×2 solver started at
the permutation `U` yields `[U']` and then `[U, U2]`, a solution with two
consecutive moves on the same face axis. -/
theorem combines_with_only_reflexive :
    (∀ a b : UrfTurn, UrfTurn.combinesWith a b = decide (a = b)) ∧
    (∀ a b : CubeTurn, CubeTurn.combinesWith a b = decide (a = b)) ∧
    (∀ a b : G1CubeTurn, G1CubeTurn.combinesWith a b = decide (a = b)) ∧
    UrfTurn.combinesWith UrfTurn.U UrfTurn.U2 = false ∧
    CubeTurn.combinesWith CubeTurn.U CubeTurn.U2 = false ∧
    G1CubeTurn.combinesWith G1CubeTurn.U G1CubeTurn.U2 = false ∧
    (solverRun UrfTurn.combinesWith corner7GetMoveRun (fun _ => 0) UrfTurn.iterList 104
        (solverInit 0 ((corner7FromPerm Cube2.uPerm).getD 0))).map
          (fun sol => sol.map UrfTurn.index) = [[2], [0, 1]] := by
  refine ⟨fun a b => by cases a <;> cases b <;> rfl,
    fun a b => by cases a <;> cases b <;> rfl,
    fun a b => by cases a <;> cases b <;> rfl, rfl, rfl, rfl, by decide⟩

/-! ## cube/cube2/symmetry.rs: rotation symmetries and fix_dbl_corner -/

/-- `URF_ROT`: 120° clockwise rotation about the URF–DLB axis. -/
def urfRot : CornerPerm := cornerPermOfList
  [⟨4, 1⟩, ⟨3, 2⟩, ⟨2, 1⟩, ⟨5, 2⟩, ⟨6, 1⟩, ⟨1, 2⟩, ⟨0, 1⟩, ⟨7, 2⟩]

/-- `Y_ROT`: 90° clockwise rotation about the U–D axis. -/
def yRot : CornerPerm := cornerPermOfList
  [⟨3, 0⟩, ⟨0, 0⟩, ⟨1, 0⟩, ⟨2, 0⟩, ⟨5, 0⟩, ⟨6, 0⟩, ⟨7, 0⟩, ⟨4, 0⟩]

/-- `X2_ROT`: 180° rotation about the F–B axis. -/
def x2Rot : CornerPerm := cornerPermOfList
  [⟨6, 0⟩, ⟨7, 0⟩, ⟨4, 0⟩, ⟨5, 0⟩, ⟨2, 0⟩, ⟨3, 0⟩, ⟨0, 0⟩, ⟨1, 0⟩]

/-- `SYMMETRY_PERMS[idx]`:
`URF_ROT.ntimes(idx/8).sequence(Y_ROT.ntimes((idx/2)%4)).sequence(X2_ROT.ntimes(idx%2))`. -/
def symPerm (idx : Nat) : CornerPerm :=
  cornerSeq (cornerSeq (cornerNTimes urfRot (idx / 8)) (cornerNTimes yRot (idx / 2 % 4)))
    (cornerNTimes x2Rot (idx % 2))

/-- Rust `fix_dbl_corner`: scan the 24 symmetries in index order and return
the first whose application to the scramble solves the DBL cubie (`None`
models the `panic!` fallthrough). -/
def fixDblCorner (p : CornerPerm) : Option (Nat × CornerPerm) :=
  (List.range 24).findSome? (fun s =>
    if cornerSeq (symPerm s) p 7 = (⟨7, 0⟩ : Corner) then
      some (s, cornerSeq (symPerm s) p)
    else none)

theorem findSome?_isSome_of_mem {α β : Type} (f : α → Option β) :
    ∀ l : List α, (∃ x ∈ l, (f x).isSome) → (l.findSome? f).isSome := by
  intro l
  induction l with
  | nil =>
    rintro ⟨x, hx, _⟩
    simp at hx
  | cons a l ih =>
    rintro ⟨x, hx, hfx⟩
    cases hfa : f a with
    | some b => simp [List.findSome?_cons, hfa]
    | none =>
      rw [List.findSome?_cons, hfa]
      apply ih
      rcases List.mem_cons.mp hx with rfl | hx'
      · rw [hfa] at hfx
        simp at hfx
      · exact ⟨x, hx', hfx⟩

/-- The scan's test at slot DBL only looks at the cubie `p` keeps there, and
for each of the 24 possible cubie values some rotation solves it. -/
theorem symPerm_covers : ∀ (pp : Fin 8) (po : Fin 3), ∃ s ∈ List.range 24,
    cornerSeq (symPerm s) (fun _ => (⟨pp, po⟩ : Corner)) 7 = (⟨7, 0⟩ : Corner) := by
  decide

/-- C9: `fix_dbl_corner` never reaches its panic: for every corner
permutation some rotation symmetry (index below 24) conjugates the DBL cubie
into place, and the returned pair holds the first such symmetry index
together with `sym.permutation().sequence(p)`, whose DBL slot is
`(DBL, Oriented)`. -/
theorem fix_dbl_corner_total (p : CornerPerm) :
    ∃ (s : Nat) (t : CornerPerm), fixDblCorner p = some (s, t) ∧ s < 24 ∧
      t = cornerSeq (symPerm s) p ∧ t 7 = (⟨7, 0⟩ : Corner) := by
  obtain ⟨s0, hs0mem, hs0⟩ := symPerm_covers (p 7).pos (p 7).orient
  have hcond0 : cornerSeq (symPerm s0) p 7 = (⟨7, 0⟩ : Corner) := hs0
  have hsome : (fixDblCorner p).isSome := by
    apply findSome?_isSome_of_mem
    refine ⟨s0, hs0mem, ?_⟩
    show (if cornerSeq (symPerm s0) p 7 = (⟨7, 0⟩ : Corner) then
      some (s0, cornerSeq (symPerm s0) p) else none).isSome
    rw [if_pos hcond0]
    rfl
  obtain ⟨pr, hpr⟩ := Option.isSome_iff_exists.mp hsome
  obtain ⟨x, hxmem, hfx⟩ := List.exists_of_findSome?_eq_some hpr
  rcases pr with ⟨sx, tx⟩
  split at hfx
  · rename_i hc
    simp only [Option.some.injEq, Prod.mk.injEq] at hfx
    obtain ⟨h1, h2⟩ := hfx
    subst h1
    subst h2
    exact ⟨x, cornerSeq (symPerm x) p, hpr, List.mem_range.mp hxmem, rfl, hc⟩
  · simp at hfx

/-! ## notation/parser.rs over the shipped face alphabet -/

/-- Rust `char::is_ascii_alphabetic`. -/
def isAsciiAlpha (c : Char) : Bool :=
  decide ((65 ≤ c.toNat ∧ c.toNat ≤ 90) ∨ (97 ≤ c.toNat ∧ c.toNat ≤ 122))

/-- Rust `char::is_digit(10)`. -/
def isDigitChar (c : Char) : Bool := decide (48 ≤ c.toNat ∧ c.toNat ≤ 57)

/-- Whitespace as `split_whitespace` sees it (the ASCII range). -/
def isWsChar (c : Char) : Bool :=
  decide (c.toNat = 32 ∨ (9 ≤ c.toNat ∧ c.toNat ≤ 13))

/-- `str::split_whitespace`: maximal non-whitespace runs, in order. -/
def splitWsAux : List Char → List Char → List (List Char)
  | [], acc => if acc = [] then [] else [acc.reverse]
  | c :: rest, acc =>
    if isWsChar c then
      if acc = [] then splitWsAux rest []
      else acc.reverse :: splitWsAux rest []
    else splitWsAux rest (c :: acc)

def splitWs (s : List Char) : List (List Char) := splitWsAux s []

/-- The face alphabet shared by `Cube2Notation` and `Cube3Notation`. -/
inductive Cube3Notation
  | U | R | F | D | L | B
deriving DecidableEq, Repr

/-- The `FromStr` impls of `Cube2Notation`/`Cube3Notation`: exact match on
the six face names. -/
def cube3NotationFromStr (s : List Char) : Option Cube3Notation :=
  if s = ['U'] then some .U
  else if s = ['R'] then some .R
  else if s = ['F'] then some .F
  else if s = ['D'] then some .D
  else if s = ['L'] then some .L
  else if s = ['B'] then some .B
  else none

/-- `parse_prim`: split at the first non-alphabetic character and run
`from_str` on the prefix. -/
def parsePrim (s : List Char) : Option (Cube3Notation × List Char) :=
  (cube3NotationFromStr (s.takeWhile isAsciiAlpha)).map
    (fun m => (m, s.dropWhile isAsciiAlpha))

def digitVal (c : Char) : Nat := c.toNat - 48

/-- The `fold` of `parse_num`, accumulating in a wrapping `u32`. -/
def numVal (d : List Char) : Nat :=
  d.foldl (fun n c => (n * 10 + digitVal c) % 4294967296) 0

/-- `parse_num`: no digits means no count; a nonzero accumulated value is
cast `as u8`; an accumulated zero is an error. -/
def parseNum (s : List Char) : Option (Option Nat × List Char) :=
  if (s.takeWhile isDigitChar).length = 0 then some (none, s)
  else if 0 < numVal (s.takeWhile isDigitChar) then
    some (some (numVal (s.takeWhile isDigitChar) % 256),
      s.drop (s.takeWhile isDigitChar).length)
  else none

/-- `parse_prime`: consume one optional apostrophe (`Char.ofNat 39`). -/
def parsePrime (s : List Char) : Option (Bool × List Char) :=
  match s with
  | c :: rest => if c = Char.ofNat 39 then some (true, rest) else some (false, c :: rest)
  | [] => some (false, [])

/-- Rust `u8 as i8`. -/
def u8ToI8 (n : Nat) : Int := if n < 128 then (n : Int) else (n : Int) - 256

/-- Wrapping to the `i8` range (release-profile arithmetic). -/
def i8Wrap (x : Int) : Int := (x + 128) % 256 - 128

/-- `parse_count`: the count (default 1) as `i8`, negated by a prime. -/
def parseCount (s : List Char) : Option (Int × List Char) :=
  (parseNum s).bind (fun pn =>
    (parsePrime pn.2).map (fun pp =>
      (if pp.1 then i8Wrap (-(u8ToI8 (pn.1.getD 1))) else u8ToI8 (pn.1.getD 1), pp.2)))

/-- `parse_move`: a primitive followed by a count. -/
def parseMove (s : List Char) : Option ((Cube3Notation × Int) × List Char) :=
  (parsePrim s).bind (fun pm =>
    (parseCount pm.2).map (fun pc => ((pm.1, pc.1), pc.2)))

/-- `parse_move_full`: the whole token must be consumed. -/
def parseMoveFull (s : List Char) : Option (Cube3Notation × Int) :=
  (parseMove s).bind (fun pr => if pr.2 = [] then some pr.1 else none)

/-- `parse_notation`: `try_fold` of `parse_move_full` over the
whitespace-separated tokens. -/
def parseNotation (s : List Char) : Option (List (Cube3Notation × Int)) :=
  (splitWs s).foldl
    (fun acc t => acc.bind (fun ms => (parseMoveFull t).map (fun m => ms ++ [m])))
    (some [])

/-- The exact decimal value of a digit string (spec-side, no wrapping). -/
def digitsToNat (d : List Char) : Nat := d.foldl (fun n c => n * 10 + digitVal c) 0

/-- The spec's token grammar, verbatim: a face name, an optional positive
decimal count, an optional trailing apostrophe, and nothing else. -/
def SpecMove (t : List Char) : Prop :=
  ∃ f d pr : List Char, t = f ++ d ++ pr ∧
    (f = ['U'] ∨ f = ['R'] ∨ f = ['F'] ∨ f = ['D'] ∨ f = ['L'] ∨ f = ['B']) ∧
    (∀ c ∈ d, isDigitChar c = true) ∧
    (d ≠ [] → 0 < digitsToNat d) ∧
    (pr = [] ∨ pr = [Char.ofNat 39])

/-- The grammar the code actually accepts: as `SpecMove`, but the count is
read modulo 2^32 (the wrapping `u32` fold), so it must be nonzero mod 2^32. -/
def SpecMoveMod (t : List Char) : Prop :=
  ∃ f d pr : List Char, t = f ++ d ++ pr ∧
    (f = ['U'] ∨ f = ['R'] ∨ f = ['F'] ∨ f = ['D'] ∨ f = ['L'] ∨ f = ['B']) ∧
    (∀ c ∈ d, isDigitChar c = true) ∧
    (d ≠ [] → 0 < digitsToNat d % 4294967296) ∧
    (pr = [] ∨ pr = [Char.ofNat 39])

theorem foldWrap_eq : ∀ (d : List Char) (n : Nat),
    d.foldl (fun n c => (n * 10 + digitVal c) % 4294967296) (n % 4294967296)
      = (d.foldl (fun n c => n * 10 + digitVal c) n) % 4294967296 := by
  intro d
  induction d with
  | nil => intro n; rfl
  | cons c d ih =>
    intro n
    simp only [List.foldl_cons]
    have hstep : (n % 4294967296 * 10 + digitVal c) % 4294967296
        = (n * 10 + digitVal c) % 4294967296 := by omega
    rw [hstep]
    exact ih (n * 10 + digitVal c)

theorem numVal_eq_mod (d : List Char) : numVal d = digitsToNat d % 4294967296 := by
  have h := foldWrap_eq d 0
  simpa [numVal, digitsToNat] using h

theorem takeWhile_append_stop {p : Char → Bool} :
    ∀ (A B : List Char), (∀ c ∈ A, p c = true) →
      (B = [] ∨ ∃ b bs, B = b :: bs ∧ p b = false) →
      (A ++ B).takeWhile p = A ∧ (A ++ B).dropWhile p = B := by
  intro A
  induction A with
  | nil =>
    intro B _ hB
    rcases hB with rfl | ⟨b, bs, rfl, hb⟩
    · exact ⟨rfl, rfl⟩
    · constructor
      · show (b :: bs).takeWhile p = []
        rw [List.takeWhile_cons_of_neg (by simp [hb])]
      · show (b :: bs).dropWhile p = b :: bs
        rw [List.dropWhile_cons_of_neg (by simp [hb])]
  | cons a A ih =>
    intro B hA hB
    have hpa : p a = true := hA a (List.mem_cons_self a A)
    obtain ⟨iht, ihd⟩ := ih B (fun c hc => hA c (List.mem_cons_of_mem a hc)) hB
    constructor
    · show ((a :: A) ++ B).takeWhile p = a :: A
      rw [List.cons_append, List.takeWhile_cons_of_pos (by simp [hpa]), iht]
    · show ((a :: A) ++ B).dropWhile p = B
      rw [List.cons_append, List.dropWhile_cons_of_pos (by simp [hpa]), ihd]

theorem drop_takeWhile_length (p : Char → Bool) :
    ∀ l : List Char, l.drop (l.takeWhile p).length = l.dropWhile p := by
  intro l
  induction l with
  | nil => rfl
  | cons a l ih =>
    cases hpa : p a
    · rw [List.takeWhile_cons_of_neg (by simp [hpa]),
        List.dropWhile_cons_of_neg (by simp [hpa])]
      rfl
    · rw [List.takeWhile_cons_of_pos (by simp [hpa]),
        List.dropWhile_cons_of_pos (by simp [hpa])]
      exact ih

theorem mem_takeWhile_pred {p : Char → Bool} :
    ∀ l : List Char, ∀ c ∈ l.takeWhile p, p c = true := by
  intro l
  induction l with
  | nil => intro c hc; simp at hc
  | cons a l ih =>
    intro c hc
    cases hpa : p a
    · rw [List.takeWhile_cons_of_neg (by simp [hpa])] at hc
      simp at hc
    · rw [List.takeWhile_cons_of_pos (by simp [hpa])] at hc
      rcases List.mem_cons.mp hc with rfl | hc'
      · exact hpa
      · exact ih c hc'

theorem digit_not_alpha {c : Char} (h : isDigitChar c = true) : isAsciiAlpha c = false := by
  simp only [isDigitChar, decide_eq_true_eq] at h
  simp only [isAsciiAlpha, decide_eq_false_iff_not]
  omega

theorem apos_not_alpha : isAsciiAlpha (Char.ofNat 39) = false := by decide

theorem apos_not_digit : isDigitChar (Char.ofNat 39) = false := by decide

theorem cube3NotationFromStr_some {s : List Char}
    (h : (cube3NotationFromStr s).isSome) :
    s = ['U'] ∨ s = ['R'] ∨ s = ['F'] ∨ s = ['D'] ∨ s = ['L'] ∨ s = ['B'] := by
  rw [cube3NotationFromStr] at h
  split_ifs at h with h1 h2 h3 h4 h5 h6
  · exact Or.inl h1
  · exact Or.inr (Or.inl h2)
  · exact Or.inr (Or.inr (Or.inl h3))
  · exact Or.inr (Or.inr (Or.inr (Or.inl h4)))
  · exact Or.inr (Or.inr (Or.inr (Or.inr (Or.inl h5))))
  · exact Or.inr (Or.inr (Or.inr (Or.inr (Or.inr h6))))
  · simp at h

/-- `parse_count` consumes its whole input exactly when that input is an
optional digit run with value nonzero mod 2^32 followed by an optional
apostrophe. -/
theorem parseCount_consumes_iff (r : List Char) :
    (∃ n, parseCount r = some (n, [])) ↔
      ∃ d pr : List Char, r = d ++ pr ∧ (∀ c ∈ d, isDigitChar c = true) ∧
        (d ≠ [] → 0 < digitsToNat d % 4294967296) ∧
        (pr = [] ∨ pr = [Char.ofNat 39]) := by
  constructor
  · rintro ⟨n, hn⟩
    by_cases hd0 : (r.takeWhile isDigitChar).length = 0
    · have hpn : parseNum r = some (none, r) := by rw [parseNum, if_pos hd0]
      rw [parseCount, hpn, Option.some_bind] at hn
      cases r with
      | nil => exact ⟨[], [], rfl, by simp, by simp, Or.inl rfl⟩
      | cons c r2 =>
        rw [parsePrime] at hn
        by_cases hc : c = Char.ofNat 39
        · rw [if_pos hc] at hn
          simp only [Option.map_some', Option.some.injEq, Prod.mk.injEq] at hn
          obtain ⟨-, h2⟩ := hn
          subst h2
          exact ⟨[], [c], by simp, by simp, by simp, Or.inr (by rw [hc])⟩
        · rw [if_neg hc] at hn
          simp only [Option.map_some', Option.some.injEq, Prod.mk.injEq] at hn
          exact absurd hn.2 (by simp)
    · by_cases hpos : 0 < numVal (r.takeWhile isDigitChar)
      · have hpn : parseNum r = some (some (numVal (r.takeWhile isDigitChar) % 256),
            r.drop (r.takeWhile isDigitChar).length) := by
          rw [parseNum, if_neg hd0, if_pos hpos]
        rw [parseCount, hpn, Option.some_bind, drop_takeWhile_length] at hn
        rcases hrest : r.dropWhile isDigitChar with _ | ⟨c, r2⟩
        · rw [hrest] at hn
          refine ⟨r.takeWhile isDigitChar, [], ?_, mem_takeWhile_pred r, ?_, Or.inl rfl⟩
          · have hsplit : r = r.takeWhile isDigitChar ++ r.dropWhile isDigitChar :=
              (List.takeWhile_append_dropWhile _ _).symm
            rw [hrest] at hsplit
            exact hsplit
          · intro _
            have := numVal_eq_mod (r.takeWhile isDigitChar)
            omega
        · rw [hrest, parsePrime] at hn
          by_cases hc : c = Char.ofNat 39
          · rw [if_pos hc] at hn
            simp only [Option.map_some', Option.some.injEq, Prod.mk.injEq] at hn
            obtain ⟨-, h2⟩ := hn
            subst h2
            refine ⟨r.takeWhile isDigitChar, [c], ?_, mem_takeWhile_pred r, ?_,
              Or.inr (by rw [hc])⟩
            · have hsplit : r = r.takeWhile isDigitChar ++ r.dropWhile isDigitChar :=
                (List.takeWhile_append_dropWhile _ _).symm
              rw [hrest] at hsplit
              exact hsplit
            · intro _
              have := numVal_eq_mod (r.takeWhile isDigitChar)
              omega
          · rw [if_neg hc] at hn
            simp only [Option.map_some', Option.some.injEq, Prod.mk.injEq] at hn
            exact absurd hn.2 (by simp)
      · have hpn : parseNum r = none := by rw [parseNum, if_neg hd0, if_neg hpos]
        rw [parseCount, hpn] at hn
        simp at hn
  · rintro ⟨d, pr, rfl, hdig, hval, hpr⟩
    have hstop : pr = [] ∨ ∃ b bs, pr = b :: bs ∧ isDigitChar b = false := by
      rcases hpr with rfl | rfl
      · exact Or.inl rfl
      · exact Or.inr ⟨Char.ofNat 39, [], rfl, apos_not_digit⟩
    obtain ⟨htake, hdrop⟩ := takeWhile_append_stop d pr hdig hstop
    by_cases hdnil : d = []
    · subst hdnil
      have hpn : parseNum ([] ++ pr) = some (none, [] ++ pr) := by
        rw [parseNum, if_pos (by rw [htake]; rfl)]
      rcases hpr with rfl | rfl
      · exact ⟨u8ToI8 1, rfl⟩
      · exact ⟨i8Wrap (-(u8ToI8 1)), rfl⟩
    · have hlen0 : ¬((d ++ pr).takeWhile isDigitChar).length = 0 := by
        rw [htake]
        cases d with
        | nil => exact absurd rfl hdnil
        | cons x xs => simp
      have hposval : 0 < numVal ((d ++ pr).takeWhile isDigitChar) := by
        rw [htake, numVal_eq_mod]
        exact hval hdnil
      have hpn : parseNum (d ++ pr)
          = some (some (numVal ((d ++ pr).takeWhile isDigitChar) % 256), pr) := by
        rw [parseNum, if_neg hlen0, if_pos hposval, drop_takeWhile_length, hdrop]
      rcases hpr with rfl | rfl
      · exact ⟨_, by rw [parseCount, hpn, Option.some_bind]; rfl⟩
      · exact ⟨_, by rw [parseCount, hpn, Option.some_bind]; rfl⟩

/-- A token parses completely exactly when it fits the (wrap-corrected)
grammar. -/
theorem parseMoveFull_isSome_iff (t : List Char) :
    (parseMoveFull t).isSome ↔ SpecMoveMod t := by
  constructor
  · intro h
    cases hface : cube3NotationFromStr (t.takeWhile isAsciiAlpha) with
    | none =>
      rw [parseMoveFull, parseMove, parsePrim, hface] at h
      simp at h
    | some face =>
      have hfaces := cube3NotationFromStr_some (s := t.takeWhile isAsciiAlpha)
        (by rw [hface]; rfl)
      rw [parseMoveFull, parseMove, parsePrim, hface] at h
      simp only [Option.map_some', Option.some_bind] at h
      have hex : ∃ n, parseCount (t.dropWhile isAsciiAlpha) = some (n, []) := by
        rcases hpc : parseCount (t.dropWhile isAsciiAlpha) with _ | ⟨n, rest⟩
        · rw [hpc] at h
          simp at h
        · rw [hpc] at h
          simp only [Option.map_some', Option.some_bind] at h
          split at h
          · rename_i hcond
            have hrest : rest = [] := hcond
            subst hrest
            exact ⟨n, rfl⟩
          · simp at h
      obtain ⟨d, pr, hsplit, hdig, hval, hpr⟩ := (parseCount_consumes_iff _).mp hex
      refine ⟨t.takeWhile isAsciiAlpha, d, pr, ?_, hfaces, hdig, hval, hpr⟩
      have h2 : t.takeWhile isAsciiAlpha ++ (d ++ pr) = t := by
        rw [← hsplit]
        exact List.takeWhile_append_dropWhile _ _
      rw [← List.append_assoc] at h2
      exact h2.symm
  · rintro ⟨f, d, pr, rfl, hfaces, hdig, hval, hpr⟩
    have hfall : ∀ c ∈ f, isAsciiAlpha c = true := by
      rcases hfaces with rfl | rfl | rfl | rfl | rfl | rfl <;> decide
    have hstopA : d ++ pr = [] ∨ ∃ b bs, d ++ pr = b :: bs ∧ isAsciiAlpha b = false := by
      cases d with
      | cons x xs =>
        exact Or.inr ⟨x, xs ++ pr, by simp, digit_not_alpha (hdig x (by simp))⟩
      | nil =>
        rcases hpr with rfl | rfl
        · exact Or.inl rfl
        · exact Or.inr ⟨Char.ofNat 39, [], rfl, apos_not_alpha⟩
    have hassoc : f ++ d ++ pr = f ++ (d ++ pr) := List.append_assoc f d pr
    obtain ⟨htakeA, hdropA⟩ := takeWhile_append_stop f (d ++ pr) hfall hstopA
    have hfsome : (cube3NotationFromStr f).isSome := by
      rcases hfaces with rfl | rfl | rfl | rfl | rfl | rfl <;> decide
    obtain ⟨face, hface⟩ := Option.isSome_iff_exists.mp hfsome
    obtain ⟨n, hn⟩ := (parseCount_consumes_iff (d ++ pr)).mpr ⟨d, pr, rfl, hdig, hval, hpr⟩
    rw [parseMoveFull, parseMove, parsePrim, hassoc, htakeA, hdropA, hface,
      Option.map_some', Option.some_bind, hn]
    rfl

theorem foldl_none (ts : List (List Char)) :
    ts.foldl (fun acc t => acc.bind (fun ms => (parseMoveFull t).map (fun m => ms ++ [m])))
      none = none := by
  induction ts with
  | nil => rfl
  | cons t ts ih => exact ih

theorem tryFold_isSome (ts : List (List Char)) :
    ∀ acc : List (Cube3Notation × Int),
      ((ts.foldl
        (fun acc t => acc.bind (fun ms => (parseMoveFull t).map (fun m => ms ++ [m])))
        (some acc)).isSome ↔ ∀ t ∈ ts, (parseMoveFull t).isSome) := by
  induction ts with
  | nil => intro acc; simp
  | cons t ts ih =>
    intro acc
    constructor
    · intro h
      intro u hu
      rcases List.mem_cons.mp hu with rfl | hu'
      · by_contra hns
        have hnone : parseMoveFull u = none := Option.not_isSome_iff_eq_none.mp hns
        rw [List.foldl_cons] at h
        simp only [Option.some_bind, hnone, Option.map_none'] at h
        rw [foldl_none] at h
        simp at h
      · cases hpt : parseMoveFull t with
        | none =>
          rw [List.foldl_cons] at h
          simp only [Option.some_bind, hpt, Option.map_none'] at h
          rw [foldl_none] at h
          simp at h
        | some m =>
          rw [List.foldl_cons] at h
          simp only [Option.some_bind, hpt, Option.map_some'] at h
          exact (ih (acc ++ [m])).mp h u hu'
    · intro hall
      obtain ⟨m, hm⟩ := Option.isSome_iff_exists.mp (hall t (by simp))
      rw [List.foldl_cons]
      simp only [Option.some_bind, hm, Option.map_some']
      exact (ih (acc ++ [m])).mpr (fun u hu => hall u (by simp [hu]))

theorem splitWs_cons_ws (c : Char) (s : List Char) (hc : isWsChar c = true) :
    splitWs (c :: s) = splitWs s := by
  simp [splitWs, splitWsAux, hc]

theorem splitWsAux_append_ws (c : Char) (hc : isWsChar c = true) :
    ∀ (s acc : List Char), splitWsAux (s ++ [c]) acc = splitWsAux s acc := by
  intro s
  induction s with
  | nil =>
    intro acc
    by_cases hacc : acc = [] <;> simp [splitWsAux, hc, hacc]
  | cons a s ih =>
    intro acc
    by_cases ha : isWsChar a = true <;> by_cases hacc : acc = [] <;>
      simp [splitWsAux, ha, hacc, ih]

/-- C10 (amended): the parse succeeds exactly when every
whitespace-separated token parses as a move, a token parses exactly when it
is a known face name, an optional decimal count that is nonzero modulo 2^32
(the count is accumulated in a wrapping 32-bit unsigned, so in particular
every positive count below 2^32 is accepted and a zero count is rejected)
and an optional trailing apostrophe with nothing else, and leading or
trailing whitespace never changes the result. -/
theorem parse_notation_wellformed :
    (∀ s : List Char, (parseNotation s).isSome ↔
      ∀ t ∈ splitWs s, (parseMoveFull t).isSome) ∧
    (∀ t : List Char, (parseMoveFull t).isSome ↔ SpecMoveMod t) ∧
    (∀ (c : Char) (s : List Char), isWsChar c = true →
      parseNotation (c :: s) = parseNotation s ∧
        parseNotation (s ++ [c]) = parseNotation s) := by
  refine ⟨?_, parseMoveFull_isSome_iff, ?_⟩
  · intro s
    rw [parseNotation]
    exact tryFold_isSome (splitWs s) []
  · intro c s hc
    constructor
    · rw [parseNotation, parseNotation, splitWs_cons_ws c s hc]
    · rw [parseNotation, parseNotation, splitWs, splitWs, splitWsAux_append_ws c hc s []]

/-- Witness for C10: a space is whitespace, and padding `"U"` with it on
either side leaves the parse unchanged. -/
theorem parse_notation_wellformed_witness :
    isWsChar (Char.ofNat 32) = true ∧
    parseNotation (Char.ofNat 32 :: ['U']) = parseNotation ['U'] ∧
    parseNotation (['U'] ++ [Char.ofNat 32]) = parseNotation ['U'] :=
  ⟨by decide,
   (parse_notation_wellformed.2.2 (Char.ofNat 32) ['U'] (by decide)).1,
   (parse_notation_wellformed.2.2 (Char.ofNat 32) ['U'] (by decide)).2⟩

/-- C10 counterexample: the token `U4294967296` fits the claim's grammar —
face `U`, the positive decimal count 4294967296 = 2^32, no trailing garbage —
yet the whole parse returns `Err`: `parse_num` accumulates the count in a
wrapping `u32`, 2^32 wraps to 0, and a zero accumulator is rejected. -/
theorem parse_num_wraps :
    SpecMove ['U', '4', '2', '9', '4', '9', '6', '7', '2', '9', '6'] ∧
    parseNotation ['U', '4', '2', '9', '4', '9', '6', '7', '2', '9', '6'] = none := by
  constructor
  · refine ⟨['U'], ['4', '2', '9', '4', '9', '6', '7', '2', '9', '6'], [], rfl,
      Or.inl rfl, ?_, ?_, Or.inl rfl⟩
    · decide
    · intro _
      decide
  · decide

/-! ## prune_table.rs: FullPruneTable::create

The table is a list of `u8` values (255 = `u8::MAX` marks unfilled), built
by a forward search phase and then a reverse search phase. -/

/-- `c` reaches `t` in exactly `k` generator applications. -/
def reachB {M : Type} (getMove : Nat → M → Nat) (moves : List M) :
    Nat → Nat → Nat → Bool
  | 0, c, t => decide (c = t)
  | k + 1, c, t => moves.any (fun m => reachB getMove moves k (getMove c m) t)

/-- The body of the forward search's scan for one coordinate `c0`: apply
each move to it if its entry equals `n`, filling unfilled results with
`n + 1` (as `u8`). -/
def fwdCell {M : Type} (moves : List M) (getMove : Nat → M → Nat) (n : Nat)
    (st : List Nat × Nat) (c0 : Nat) : List Nat × Nat :=
  if st.1.getD c0 255 = n then
    moves.foldl
      (fun st2 m =>
        if st2.1.getD (getMove c0 m) 255 = 255 then
          (st2.1.set (getMove c0 m) ((n + 1) % 256), st2.2 + 1)
        else st2)
      st
  else st

/-- One forward-search pass over all coordinates; returns the table and the
number of entries filled. -/
def fwdPass {M : Type} (count : Nat) (moves : List M) (getMove : Nat → M → Nat)
    (n : Nat) (tbl : List Nat) : List Nat × Nat :=
  (List.range count).foldl (fwdCell moves getMove n) (tbl, 0)

/-- The body of the reverse search's scan for one coordinate: an unfilled
entry is set to `n + 1` as soon as one move leads to an entry equal to `n`. -/
def revCell {M : Type} (moves : List M) (getMove : Nat → M → Nat) (n : Nat)
    (st : List Nat × Nat) (c : Nat) : List Nat × Nat :=
  if st.1.getD c 255 = 255 then
    match moves.find? (fun m => st.1.getD (getMove c m) 255 = n) with
    | some _ => (st.1.set c ((n + 1) % 256), st.2 + 1)
    | none => st
  else st

def revPass {M : Type} (count : Nat) (moves : List M) (getMove : Nat → M → Nat)
    (n : Nat) (tbl : List Nat) : List Nat × Nat :=
  (List.range count).foldl (revCell moves getMove n) (tbl, 0)

/-- The forward-search loop: after each pass `n` and `remaining` are
updated, and the loop exits once `remaining <= filled`. -/
def fwdLoop {M : Type} (count : Nat) (moves : List M) (getMove : Nat → M → Nat) :
    Nat → Nat → Nat → List Nat → List Nat × Nat × Nat
  | 0, n, remaining, tbl => (tbl, n, remaining)
  | fuel + 1, n, remaining, tbl =>
    match fwdPass count moves getMove n tbl with
    | (tbl', filled) =>
      if remaining - filled ≤ filled then (tbl', n + 1, remaining - filled)
      else fwdLoop count moves getMove fuel (n + 1) (remaining - filled) tbl'

/-- The reverse-search loop: `while remaining > 0`. -/
def revLoop {M : Type} (count : Nat) (moves : List M) (getMove : Nat → M → Nat) :
    Nat → Nat → Nat → List Nat → List Nat × Nat × Nat
  | 0, n, remaining, tbl => (tbl, n, remaining)
  | fuel + 1, n, remaining, tbl =>
    if remaining = 0 then (tbl, n, remaining)
    else
      match revPass count moves getMove n tbl with
      | (tbl', filled) => revLoop count moves getMove fuel (n + 1) (remaining - filled) tbl'

/-- `FullPruneTable::create`, fuelled: the final table together with the
final `remaining` count (0 exactly when the Rust loops terminate with the
whole table filled). -/
def fullPruneCreate {M : Type} (count : Nat) (moves : List M)
    (getMove : Nat → M → Nat) (target : Nat) (fuel : Nat) : List Nat × Nat :=
  match fwdLoop count moves getMove fuel 0 (count - 1)
      ((List.replicate count 255).set target 0) with
  | (tbl1, n1, rem1) =>
    match revLoop count moves getMove fuel n1 rem1 tbl1 with
    | (tbl2, _, rem2) => (tbl2, rem2)

/-- `FullPruneTable::get_min_moves`. -/
def getMinMoves (tbl : List Nat) (c : Nat) : Nat := tbl.getD c 255

/-- The number of unfilled entries. -/
def unfilledCount (count : Nat) (tbl : List Nat) : Nat :=
  (List.range count).countP (fun c => decide (tbl.getD c 255 = 255))

theorem getD_set_self : ∀ (l : List Nat) (i v d : Nat), i < l.length →
    (l.set i v).getD i d = v := by
  intro l
  induction l with
  | nil => intro i v d h; simp at h
  | cons x xs ih =>
    intro i v d h
    cases i with
    | zero => rfl
    | succ j =>
      show (xs.set j v).getD j d = v
      exact ih j v d (by simp at h; omega)

theorem getD_set_other : ∀ (l : List Nat) (i v d j : Nat), j ≠ i →
    (l.set i v).getD j d = l.getD j d := by
  intro l
  induction l with
  | nil => intro i v d j _; rfl
  | cons x xs ih =>
    intro i v d j hji
    cases i with
    | zero =>
      cases j with
      | zero => exact absurd rfl hji
      | succ j' => rfl
    | succ i' =>
      cases j with
      | zero => rfl
      | succ j' =>
        show (xs.set i' v).getD j' d = xs.getD j' d
        exact ih i' v d j' (fun h => hji (by rw [h]))

theorem countP_update {α : Type} (p p' : α → Bool) (x : α) :
    ∀ l : List α, l.Nodup → x ∈ l → p x = false → p' x = true →
      (∀ y ∈ l, y ≠ x → p y = p' y) → l.countP p' = l.countP p + 1 := by
  intro l
  induction l with
  | nil => intro _ hx _ _ _; simp at hx
  | cons a l ih =>
    intro hnd hx hpx hp'x hsame
    rcases List.mem_cons.mp hx with rfl | hx'
    · rw [List.countP_cons, List.countP_cons, hpx, hp'x]
      have hnotin : x ∉ l := (List.nodup_cons.mp hnd).1
      have hpq : l.countP p' = l.countP p :=
        List.countP_congr (fun y hy => by
          rw [hsame y (List.mem_cons_of_mem x hy) (fun hyx => hnotin (hyx ▸ hy))])
      simp [hpq]
    · rw [List.countP_cons, List.countP_cons]
      have hax : a ≠ x := fun h => (List.nodup_cons.mp hnd).1 (h ▸ hx')
      have hpa : p a = p' a := hsame a (List.mem_cons_self a l) hax
      rw [hpa]
      have hrec := ih (List.nodup_cons.mp hnd).2 hx' hpx hp'x
        (fun y hy hyx => hsame y (List.mem_cons_of_mem a hy) hyx)
      omega

theorem countP_diff {α : Type} (p q : α → Bool) :
    ∀ l : List α, (∀ y ∈ l, q y = true → p y = true) →
      l.countP (fun y => p y && !(q y)) + l.countP q = l.countP p := by
  intro l
  induction l with
  | nil => intro _; rfl
  | cons a l ih =>
    intro himp
    rw [List.countP_cons, List.countP_cons, List.countP_cons]
    have hrec := ih (fun y hy => himp y (List.mem_cons_of_mem a hy))
    cases hqa : q a
    · cases hpa : p a <;> simp [hqa, hpa] <;> omega
    · have hpa : p a = true := himp a (List.mem_cons_self a l) hqa
      simp [hqa, hpa]
      omega

/-- The state of a forward/reverse pass before some cells `q` (all fresh and
in range) have been filled with `n + 1` over the base table `tbl`. -/
def PassMid (count n : Nat) (tbl : List Nat) (q : Nat → Bool)
    (st : List Nat × Nat) : Prop :=
  (∀ c, q c = true → tbl.getD c 255 = 255 ∧ c < count) ∧
  st.1.length = count ∧
  (∀ c, st.1.getD c 255 = if q c then n + 1 else tbl.getD c 255) ∧
  st.2 = (List.range count).countP q

theorem PassMid_congr {count n : Nat} {tbl : List Nat} {q q' : Nat → Bool}
    {st : List Nat × Nat} (h : ∀ c, q c = q' c) (hm : PassMid count n tbl q st) :
    PassMid count n tbl q' st := by
  obtain ⟨h1, h2, h3, h4⟩ := hm
  refine ⟨fun c hc => h1 c (by rw [h c]; exact hc), h2,
    fun c => by rw [← h c]; exact h3 c, ?_⟩
  rw [h4]
  exact List.countP_congr (fun a _ => by rw [h a])

/-- The inner `for m in moves` fold of a forward-search cell: it adds to the
filled set exactly the unfilled images of `c0`. -/
theorem fwdInner_spec {M : Type} (count : Nat) (moves : List M)
    (getMove : Nat → M → Nat) (n : Nat) (tbl : List Nat) (c0 : Nat)
    (hn : n < 254) (hcl : ∀ m ∈ moves, getMove c0 m < count) :
    ∀ ms : List M, (∀ m ∈ ms, m ∈ moves) →
      ∀ (st : List Nat × Nat) (q : Nat → Bool), PassMid count n tbl q st →
      PassMid count n tbl
        (fun c => q c || (ms.any (fun m => decide (getMove c0 m = c)) &&
          decide (tbl.getD c 255 = 255)))
        (ms.foldl (fun st2 m =>
          if st2.1.getD (getMove c0 m) 255 = 255 then
            (st2.1.set (getMove c0 m) ((n + 1) % 256), st2.2 + 1)
          else st2) st) := by
  intro ms
  induction ms with
  | nil =>
    intro _ st q hmid
    exact PassMid_congr (fun c => by simp) hmid
  | cons m ms ih =>
    intro hms st q hmid
    obtain ⟨hq, hlen', hval, hcnt⟩ := hmid
    have hm : m ∈ moves := hms m (List.mem_cons_self m ms)
    have hni : getMove c0 m < count := hcl m hm
    have hmod : (n + 1) % 256 = n + 1 := Nat.mod_eq_of_lt (by omega)
    rw [List.foldl_cons]
    by_cases hfill : st.1.getD (getMove c0 m) 255 = 255
    · rw [if_pos hfill]
      have hqni : q (getMove c0 m) = false := by
        cases hqv : q (getMove c0 m)
        · rfl
        · have hv := hval (getMove c0 m)
          rw [hqv] at hv
          simp only [if_true] at hv
          omega
      have htblni : tbl.getD (getMove c0 m) 255 = 255 := by
        have hv := hval (getMove c0 m)
        rw [hqni] at hv
        simp only [Bool.false_eq_true, if_false] at hv
        rw [← hv]
        exact hfill
      have hmid' : PassMid count n tbl
          (fun c => q c || (decide (getMove c0 m = c) && decide (tbl.getD c 255 = 255)))
          (st.1.set (getMove c0 m) ((n + 1) % 256), st.2 + 1) := by
        refine ⟨?_, ?_, ?_, ?_⟩
        · intro c hc
          simp only [Bool.or_eq_true, Bool.and_eq_true, decide_eq_true_eq] at hc
          rcases hc with hc | ⟨hceq, hc255⟩
          · exact hq c hc
          · exact ⟨hc255, hceq ▸ hni⟩
        · show (st.1.set (getMove c0 m) ((n + 1) % 256)).length = count
          rw [List.length_set]
          exact hlen'
        · intro c
          by_cases hceq : c = getMove c0 m
          · subst hceq
            show (st.1.set (getMove c0 m) ((n + 1) % 256)).getD (getMove c0 m) 255
              = if (q (getMove c0 m) ||
                  (decide (getMove c0 m = getMove c0 m) &&
                    decide (tbl.getD (getMove c0 m) 255 = 255))) = true
                then n + 1 else tbl.getD (getMove c0 m) 255
            rw [getD_set_self _ _ _ _ (by rw [hlen']; exact hni), hmod]
            have hcond : (q (getMove c0 m) ||
                (decide (getMove c0 m = getMove c0 m) &&
                  decide (tbl.getD (getMove c0 m) 255 = 255))) = true := by
              rw [htblni]
              simp
            rw [hcond]
            rfl
          · show (st.1.set (getMove c0 m) ((n + 1) % 256)).getD c 255
              = if (q c || (decide (getMove c0 m = c) && decide (tbl.getD c 255 = 255))) = true
                then n + 1 else tbl.getD c 255
            rw [getD_set_other _ _ _ _ _ hceq, hval c]
            have hdec : decide (getMove c0 m = c) = false := by
              simp only [decide_eq_false_iff_not]
              exact fun h => hceq h.symm
            rw [hdec]
            simp only [Bool.false_and, Bool.or_false]
        · show st.2 + 1 = _
          rw [hcnt]
          exact (countP_update q _ (getMove c0 m) (List.range count) (List.nodup_range count)
            (List.mem_range.mpr hni) hqni
            (by
              simp only [Bool.or_eq_true, Bool.and_eq_true, decide_eq_true_eq]
              exact Or.inr ⟨trivial, htblni⟩)
            (fun y _ hyne => by
              have : decide (getMove c0 m = y) = false := by
                simp only [decide_eq_false_iff_not]
                exact fun h => hyne h.symm
              simp [this])).symm
      have hres := ih (fun m' hm' => hms m' (List.mem_cons_of_mem m hm')) _ _ hmid'
      refine PassMid_congr ?_ hres
      intro c
      simp only [List.any_cons]
      cases q c <;> cases hd : decide (getMove c0 m = c) <;>
        cases ha : ms.any (fun m' => decide (getMove c0 m' = c)) <;>
        cases hb : decide (tbl.getD c 255 = 255) <;> simp [hd, ha, hb]
    · rw [if_neg hfill]
      have hq' : ∀ c,
          (q c || (decide (getMove c0 m = c) && decide (tbl.getD c 255 = 255))) = q c := by
        intro c
        by_cases hceq : getMove c0 m = c
        · subst hceq
          cases hqv : q (getMove c0 m)
          · have hv := hval (getMove c0 m)
            rw [hqv] at hv
            simp only [Bool.false_eq_true, if_false] at hv
            have hne : decide (tbl.getD (getMove c0 m) 255 = 255) = false := by
              simp only [decide_eq_false_iff_not]
              rw [← hv]
              exact hfill
            rw [hne]
            simp
          · simp [hqv]
        · have : decide (getMove c0 m = c) = false := by
            simp only [decide_eq_false_iff_not]
            exact hceq
          simp [this]
      have hres := ih (fun m' hm' => hms m' (List.mem_cons_of_mem m hm')) st q
        ⟨hq, hlen', hval, hcnt⟩
      refine PassMid_congr ?_ hres
      intro c
      simp only [List.any_cons]
      have hbase := hq' c
      cases hqc : q c <;> rw [hqc] at hbase <;>
        cases hd : decide (getMove c0 m = c) <;> rw [hd] at hbase <;>
        cases ha : ms.any (fun m' => decide (getMove c0 m' = c)) <;>
        cases hb : decide (tbl.getD c 255 = 255) <;>
        simp_all

/-- Which cells one forward pass at level `n` fills: the unfilled images of
the level-`n` cells. -/
def fwdFillCond {M : Type} (count : Nat) (moves : List M) (getMove : Nat → M → Nat)
    (n : Nat) (tbl : List Nat) (c : Nat) : Bool :=
  decide (tbl.getD c 255 = 255) &&
    (List.range count).any (fun c0 => decide (tbl.getD c0 255 = n) &&
      moves.any (fun m => decide (getMove c0 m = c)))

theorem fwdPassAux_spec {M : Type} (count : Nat) (moves : List M)
    (getMove : Nat → M → Nat) (n : Nat) (tbl : List Nat) (hn : n < 254)
    (hclosed : ∀ c0 < count, ∀ m ∈ moves, getMove c0 m < count) :
    ∀ L : List Nat, (∀ c0 ∈ L, c0 < count) →
      ∀ (st : List Nat × Nat) (q : Nat → Bool), PassMid count n tbl q st →
      PassMid count n tbl
        (fun c => q c || (decide (tbl.getD c 255 = 255) &&
          L.any (fun c0 => decide (tbl.getD c0 255 = n) &&
            moves.any (fun m => decide (getMove c0 m = c)))))
        (L.foldl (fwdCell moves getMove n) st) := by
  intro L
  induction L with
  | nil =>
    intro _ st q hmid
    exact PassMid_congr (fun c => by simp) hmid
  | cons c0 L ih =>
    intro hL st q hmid
    have hc0 : c0 < count := hL c0 (List.mem_cons_self c0 L)
    rw [List.foldl_cons]
    obtain ⟨hq, hlen', hval, hcnt⟩ := hmid
    rw [fwdCell]
    by_cases hscan : st.1.getD c0 255 = n
    · rw [if_pos hscan]
      have hq0 : q c0 = false := by
        cases hqv : q c0
        · rfl
        · have hv := hval c0
          rw [hqv] at hv
          simp only [if_true] at hv
          omega
      have htb0 : tbl.getD c0 255 = n := by
        have hv := hval c0
        rw [hq0] at hv
        simp only [Bool.false_eq_true, if_false] at hv
        rw [← hv]
        exact hscan
      have hinner := fwdInner_spec count moves getMove n tbl c0 hn
        (fun m hm => hclosed c0 hc0 m hm) moves (fun _ h => h) st q ⟨hq, hlen', hval, hcnt⟩
      have hres := ih (fun c hc => hL c (List.mem_cons_of_mem c0 hc)) _ _ hinner
      refine PassMid_congr ?_ hres
      intro c
      have hd0 : decide (tbl.getD c0 255 = n) = true := by
        rw [htb0]
        simp
      have htb0' : tbl[c0]?.getD 255 = n := by
        rw [← List.getD_eq_getElem?_getD]
        exact htb0
      simp only [List.any_cons, hd0, Bool.true_and]
      cases q c <;> cases hA : moves.any (fun m => decide (getMove c0 m = c)) <;>
        cases hB : decide (tbl.getD c 255 = 255) <;>
        cases hC : L.any (fun c1 => decide (tbl.getD c1 255 = n) &&
          moves.any (fun m => decide (getMove c1 m = c))) <;>
        simp [hA, hB, hC, htb0, htb0']
    · rw [if_neg hscan]
      have hd0' : decide (tbl.getD c0 255 = n) = false := by
        cases hqv : q c0
        · have hv := hval c0
          rw [hqv] at hv
          simp only [Bool.false_eq_true, if_false] at hv
          simp only [decide_eq_false_iff_not]
          rw [← hv]
          exact hscan
        · have h255 := (hq c0 hqv).1
          simp only [decide_eq_false_iff_not]
          rw [h255]
          omega
      have hres := ih (fun c hc => hL c (List.mem_cons_of_mem c0 hc)) st q
        ⟨hq, hlen', hval, hcnt⟩
      refine PassMid_congr ?_ hres
      intro c
      simp only [List.any_cons, hd0', Bool.false_and, Bool.false_or]

theorem fwdPass_spec {M : Type} (count : Nat) (moves : List M)
    (getMove : Nat → M → Nat) (n : Nat) (tbl : List Nat) (hn : n < 254)
    (hlen : tbl.length = count)
    (hclosed : ∀ c0 < count, ∀ m ∈ moves, getMove c0 m < count) :
    (fwdPass count moves getMove n tbl).1.length = count ∧
    (∀ c, (fwdPass count moves getMove n tbl).1.getD c 255
        = if fwdFillCond count moves getMove n tbl c then n + 1 else tbl.getD c 255) ∧
    (fwdPass count moves getMove n tbl).2
        = (List.range count).countP (fwdFillCond count moves getMove n tbl) := by
  have h0 : PassMid count n tbl (fun _ => false) (tbl, 0) := by
    exact ⟨by simp, hlen, fun c => by simp, by simp⟩
  have hres := fwdPassAux_spec count moves getMove n tbl hn hclosed (List.range count)
    (fun c hc => List.mem_range.mp hc) (tbl, 0) (fun _ => false) h0
  have hfin := @PassMid_congr _ _ _ _ (fwdFillCond count moves getMove n tbl) _
    (fun c => by simp [fwdFillCond]) hres
  obtain ⟨_, h2, h3, h4⟩ := hfin
  exact ⟨h2, h3, h4⟩

/-- Which cells one reverse pass at level `n` fills: the unfilled cells with
a level-`n` image. -/
def revFillCond {M : Type} (moves : List M) (getMove : Nat → M → Nat)
    (n : Nat) (tbl : List Nat) (c : Nat) : Bool :=
  decide (tbl.getD c 255 = 255) &&
    moves.any (fun m => decide (tbl.getD (getMove c m) 255 = n))

theorem find?_some_pred {α : Type} (p : α → Bool) :
    ∀ l : List α, ∀ a, l.find? p = some a → p a = true ∧ a ∈ l := by
  intro l
  induction l with
  | nil => intro a h; simp at h
  | cons x l ih =>
    intro a h
    rw [List.find?_cons] at h
    cases hpx : p x
    · rw [hpx] at h
      obtain ⟨h1, h2⟩ := ih a h
      exact ⟨h1, List.mem_cons_of_mem x h2⟩
    · rw [hpx] at h
      simp only [Option.some.injEq] at h
      subst h
      exact ⟨hpx, List.mem_cons_self x l⟩

theorem find?_congr_pred {α : Type} (p p' : α → Bool) :
    ∀ l : List α, (∀ x ∈ l, p x = p' x) → l.find? p = l.find? p' := by
  intro l
  induction l with
  | nil => intro _; rfl
  | cons a l ih =>
    intro h
    rw [List.find?_cons, List.find?_cons, h a (List.mem_cons_self a l)]
    cases p' a
    · exact ih (fun x hx => h x (List.mem_cons_of_mem a hx))
    · rfl

theorem revPassAux_spec {M : Type} (count : Nat) (moves : List M)
    (getMove : Nat → M → Nat) (n : Nat) (tbl : List Nat) (hn : n < 254) :
    ∀ L : List Nat, (∀ c0 ∈ L, c0 < count) →
      ∀ (st : List Nat × Nat) (q : Nat → Bool), PassMid count n tbl q st →
      PassMid count n tbl
        (fun c => q c || (L.any (fun c0 => decide (c0 = c)) &&
          revFillCond moves getMove n tbl c))
        (L.foldl (revCell moves getMove n) st) := by
  intro L
  induction L with
  | nil =>
    intro _ st q hmid
    exact PassMid_congr (fun c => by simp) hmid
  | cons c0 L ih =>
    intro hL st q hmid
    have hc0 : c0 < count := hL c0 (List.mem_cons_self c0 L)
    rw [List.foldl_cons]
    obtain ⟨hq, hlen', hval, hcnt⟩ := hmid
    rw [revCell]
    have hpred : ∀ y : Nat, decide (st.1.getD y 255 = n) = decide (tbl.getD y 255 = n) := by
      intro y
      cases hqy : q y
      · have hv := hval y
        rw [hqy] at hv
        simp only [Bool.false_eq_true, if_false] at hv
        rw [hv]
      · have hv := hval y
        rw [hqy] at hv
        simp only [if_true] at hv
        have h255 := (hq y hqy).1
        rw [hv, h255]
        have h1 : decide ((n + 1 : Nat) = n) = false := by
          simp only [decide_eq_false_iff_not]
          omega
        have h2 : decide ((255 : Nat) = n) = false := by
          simp only [decide_eq_false_iff_not]
          omega
        rw [h1, h2]
    have hmod : (n + 1) % 256 = n + 1 := Nat.mod_eq_of_lt (by omega)
    by_cases hscan : st.1.getD c0 255 = 255
    · rw [if_pos hscan]
      have hq0 : q c0 = false := by
        cases hqv : q c0
        · rfl
        · have hv := hval c0
          rw [hqv] at hv
          simp only [if_true] at hv
          omega
      have htb0 : tbl.getD c0 255 = 255 := by
        have hv := hval c0
        rw [hq0] at hv
        simp only [Bool.false_eq_true, if_false] at hv
        rw [← hv]
        exact hscan
      have hfc : moves.find? (fun m => decide (st.1.getD (getMove c0 m) 255 = n))
          = moves.find? (fun m => decide (tbl.getD (getMove c0 m) 255 = n)) :=
        find?_congr_pred _ _ moves (fun m _ => hpred (getMove c0 m))
      rw [hfc]
      rcases hfo : moves.find? (fun m => decide (tbl.getD (getMove c0 m) 255 = n))
        with _ | m2
      · -- no move leads to level n: skip, and the fill condition is false
        have hany : moves.any (fun m => decide (tbl.getD (getMove c0 m) 255 = n)) = false := by
          rw [List.any_eq_false]
          intro m hm
          have := List.find?_eq_none.mp hfo m hm
          simpa using this
        have hres := ih (fun c hc => hL c (List.mem_cons_of_mem c0 hc)) st q
          ⟨hq, hlen', hval, hcnt⟩
        refine PassMid_congr ?_ hres
        intro c
        simp only [List.any_cons]
        by_cases hceq : c0 = c
        · subst hceq
          have hX : revFillCond moves getMove n tbl c0 = false := by
            rw [revFillCond, hany]
            simp
          rw [hX]
          simp
        · have hd : decide (c0 = c) = false := by
            simp only [decide_eq_false_iff_not]
            exact hceq
          simp [hd]
      · -- fill c0 with n + 1
        obtain ⟨hpm2, hm2⟩ := find?_some_pred _ moves m2 hfo
        have hfc0 : revFillCond moves getMove n tbl c0 = true := by
          rw [revFillCond]
          have hany : moves.any (fun m => decide (tbl.getD (getMove c0 m) 255 = n)) = true := by
            rw [List.any_eq_true]
            exact ⟨m2, hm2, hpm2⟩
          rw [hany, htb0]
          simp
        have hmid' : PassMid count n tbl
            (fun c => q c || (decide (c0 = c) && revFillCond moves getMove n tbl c))
            (st.1.set c0 ((n + 1) % 256), st.2 + 1) := by
          refine ⟨?_, ?_, ?_, ?_⟩
          · intro c hc
            simp only [Bool.or_eq_true, Bool.and_eq_true, decide_eq_true_eq] at hc
            rcases hc with hc | ⟨hceq, hfill⟩
            · exact hq c hc
            · subst hceq
              exact ⟨htb0, hc0⟩
          · show (st.1.set c0 ((n + 1) % 256)).length = count
            rw [List.length_set]
            exact hlen'
          · intro c
            by_cases hceq : c = c0
            · subst hceq
              show (st.1.set c ((n + 1) % 256)).getD c 255
                = if (q c || (decide (c = c) && revFillCond moves getMove n tbl c)) = true
                  then n + 1 else tbl.getD c 255
              rw [getD_set_self _ _ _ _ (by rw [hlen']; exact hc0), hmod]
              have hcond : (q c || (decide (c = c) && revFillCond moves getMove n tbl c))
                  = true := by
                rw [hfc0]
                simp
              rw [hcond]
              rfl
            · show (st.1.set c0 ((n + 1) % 256)).getD c 255
                = if (q c || (decide (c0 = c) && revFillCond moves getMove n tbl c)) = true
                  then n + 1 else tbl.getD c 255
              rw [getD_set_other _ _ _ _ _ hceq, hval c]
              have hd : decide (c0 = c) = false := by
                simp only [decide_eq_false_iff_not]
                exact fun h => hceq h.symm
              rw [hd]
              simp only [Bool.false_and, Bool.or_false]
          · show st.2 + 1 = _
            rw [hcnt]
            exact (countP_update q _ c0 (List.range count) (List.nodup_range count)
              (List.mem_range.mpr hc0) hq0
              (by
                simp only [Bool.or_eq_true, Bool.and_eq_true, decide_eq_true_eq]
                exact Or.inr ⟨trivial, hfc0⟩)
              (fun y _ hyne => by
                have hd : decide (c0 = y) = false := by
                  simp only [decide_eq_false_iff_not]
                  exact fun h => hyne h.symm
                simp [hd])).symm
        have hres := ih (fun c hc => hL c (List.mem_cons_of_mem c0 hc)) _ _ hmid'
        refine PassMid_congr ?_ hres
        intro c
        simp only [List.any_cons]
        cases q c <;> cases hA : decide (c0 = c) <;>
          cases hB : L.any (fun c1 => decide (c1 = c)) <;>
          cases hC : revFillCond moves getMove n tbl c <;>
          simp [hA, hB, hC]
    · rw [if_neg hscan]
      -- the cell is already filled (by q or in tbl): no change, condition false
      have hres := ih (fun c hc => hL c (List.mem_cons_of_mem c0 hc)) st q
        ⟨hq, hlen', hval, hcnt⟩
      refine PassMid_congr ?_ hres
      intro c
      simp only [List.any_cons]
      by_cases hceq : c0 = c
      · subst hceq
        cases hqv : q c0
        · have hv := hval c0
          rw [hqv] at hv
          simp only [Bool.false_eq_true, if_false] at hv
          have hne : decide (tbl.getD c0 255 = 255) = false := by
            simp only [decide_eq_false_iff_not]
            rw [← hv]
            exact hscan
          have hX : revFillCond moves getMove n tbl c0 = false := by
            rw [revFillCond, hne]
            simp
          rw [hX]
          simp
        · simp
      · have hd : decide (c0 = c) = false := by
          simp only [decide_eq_false_iff_not]
          exact hceq
        simp [hd]

theorem revPass_spec {M : Type} (count : Nat) (moves : List M)
    (getMove : Nat → M → Nat) (n : Nat) (tbl : List Nat) (hn : n < 254)
    (hlen : tbl.length = count) :
    (revPass count moves getMove n tbl).1.length = count ∧
    (∀ c, (revPass count moves getMove n tbl).1.getD c 255
        = if (decide (c < count) && revFillCond moves getMove n tbl c) = true
          then n + 1 else tbl.getD c 255) ∧
    (revPass count moves getMove n tbl).2
        = (List.range count).countP
            (fun c => decide (c < count) && revFillCond moves getMove n tbl c) := by
  have h0 : PassMid count n tbl (fun _ => false) (tbl, 0) := by
    exact ⟨by simp, hlen, fun c => by simp, by simp⟩
  have hres := revPassAux_spec count moves getMove n tbl hn (List.range count)
    (fun c hc => List.mem_range.mp hc) (tbl, 0) (fun _ => false) h0
  have hfin := @PassMid_congr _ _ _ _
    (fun c => decide (c < count) && revFillCond moves getMove n tbl c) _
    (fun c => by
      have hmem : (List.range count).any (fun c0 => decide (c0 = c)) = decide (c < count) := by
        cases hlt : decide (c < count)
        · rw [List.any_eq_false]
          intro c0 hc0
          simp only [decide_eq_false_iff_not] at hlt ⊢
          intro heq
          simp only [decide_eq_true_eq] at heq
          subst heq
          exact hlt (List.mem_range.mp hc0)
        · rw [List.any_eq_true]
          simp only [decide_eq_true_eq] at hlt
          exact ⟨c, List.mem_range.mpr hlt, by simp⟩
      rw [Bool.false_or, hmem]) hres
  obtain ⟨_, h2, h3, h4⟩ := hfin
  exact ⟨h2, h3, h4⟩

/-- The search invariant after handling all distances up to `n`: every
filled entry holds the exact minimal distance to `target`, and every
unfilled entry's distance exceeds `n`. -/
def TblInv {M : Type} (count : Nat) (moves : List M) (getMove : Nat → M → Nat)
    (target n : Nat) (tbl : List Nat) : Prop :=
  tbl.length = count ∧
  ∀ c, c < count →
    (tbl.getD c 255 = 255 ∧ ∀ j ≤ n, reachB getMove moves j c target = false) ∨
    (tbl.getD c 255 ≠ 255 ∧ reachB getMove moves (tbl.getD c 255) c target = true ∧
      ∀ j < tbl.getD c 255, reachB getMove moves j c target = false)

theorem getD_oob (tbl : List Nat) (c : Nat) (h : tbl.length ≤ c) :
    tbl.getD c 255 = 255 := by
  rw [List.getD_eq_getElem?_getD, List.getElem?_eq_none (by omega)]
  rfl

/-- A forward pass at level `n` preserves the invariant, advancing it to
`n + 1`, and fills exactly its `filled` count of previously unfilled
entries. -/
theorem fwdPass_inv {M : Type} (count : Nat) (moves : List M)
    (getMove : Nat → M → Nat) (target n : Nat) (tbl : List Nat)
    (hn : n < 254)
    (hclosed : ∀ c < count, ∀ m ∈ moves, getMove c m < count)
    (hback : ∀ c < count, ∀ m ∈ moves, ∃ m2 ∈ moves, getMove (getMove c m) m2 = c)
    (hI : TblInv count moves getMove target n tbl) :
    TblInv count moves getMove target (n + 1) (fwdPass count moves getMove n tbl).1 ∧
    unfilledCount count (fwdPass count moves getMove n tbl).1
      + (fwdPass count moves getMove n tbl).2 = unfilledCount count tbl := by
  obtain ⟨hlen, hcells⟩ := hI
  obtain ⟨hlen', hval, hcnt⟩ := fwdPass_spec count moves getMove n tbl hn hlen hclosed
  constructor
  · refine ⟨hlen', ?_⟩
    intro c hc
    rw [hval c]
    cases hfc : fwdFillCond count moves getMove n tbl c
    · simp only [Bool.false_eq_true, if_false]
      rcases hcells c hc with ⟨h255, hnone⟩ | hfilled
      · left
        refine ⟨h255, ?_⟩
        intro j hj
        rcases Nat.lt_or_ge j (n + 1) with hjn | hjn
        · exact hnone j (by omega)
        · have hj1 : j = n + 1 := by omega
          subst hj1
          by_contra hr
          have hr' : reachB getMove moves (n + 1) c target = true := by
            cases h : reachB getMove moves (n + 1) c target
            · exact absurd h hr
            · rfl
          rw [reachB, List.any_eq_true] at hr'
          obtain ⟨m, hm, hry⟩ := hr'
          have hy : getMove c m < count := hclosed c hc m hm
          have htby : tbl.getD (getMove c m) 255 = n := by
            rcases hcells (getMove c m) hy with ⟨_, hynone⟩ | ⟨_, hyr, hymin⟩
            · exact absurd hry (by rw [hynone n (le_refl n)]; simp)
            · have hvle : tbl.getD (getMove c m) 255 ≤ n := by
                by_contra hgt
                push_neg at hgt
                rw [hymin n hgt] at hry
                simp at hry
              rcases Nat.lt_or_ge (tbl.getD (getMove c m) 255) n with hvlt | hvge
              · exfalso
                have hrc : reachB getMove moves (tbl.getD (getMove c m) 255 + 1) c target
                    = true := by
                  rw [reachB, List.any_eq_true]
                  exact ⟨m, hm, hyr⟩
                have := hnone (tbl.getD (getMove c m) 255 + 1) (by omega)
                rw [this] at hrc
                simp at hrc
              · omega
          obtain ⟨m2, hm2, hm2eq⟩ := hback c hc m hm
          have : fwdFillCond count moves getMove n tbl c = true := by
            rw [fwdFillCond]
            have h1 : decide (tbl.getD c 255 = 255) = true := by rw [h255]; simp
            have h2 : (List.range count).any (fun c0 => decide (tbl.getD c0 255 = n) &&
                moves.any (fun m3 => decide (getMove c0 m3 = c))) = true := by
              rw [List.any_eq_true]
              refine ⟨getMove c m, List.mem_range.mpr hy, ?_⟩
              rw [htby]
              simp only [decide_eq_true_eq, Bool.and_eq_true]
              refine ⟨trivial, ?_⟩
              rw [List.any_eq_true]
              exact ⟨m2, hm2, by simp [hm2eq]⟩
            rw [h1, h2]
            rfl
          rw [this] at hfc
          simp at hfc
      · right
        exact hfilled
    · simp only [if_true]
      right
      refine ⟨by omega, ?_, ?_⟩
      · rw [fwdFillCond, Bool.and_eq_true, List.any_eq_true] at hfc
        obtain ⟨h255, c0, hc0mem, hc0⟩ := hfc
        rw [Bool.and_eq_true, List.any_eq_true] at hc0
        obtain ⟨htbc0, m, hm, hmc⟩ := hc0
        simp only [decide_eq_true_eq] at htbc0 hmc
        have hc0lt : c0 < count := List.mem_range.mp hc0mem
        rcases hcells c0 hc0lt with ⟨habs, _⟩ | ⟨_, hc0r, _⟩
        · rw [habs] at htbc0
          omega
        · obtain ⟨m2, hm2, hm2eq⟩ := hback c0 hc0lt m hm
          rw [htbc0] at hc0r
          rw [reachB, List.any_eq_true]
          refine ⟨m2, hm2, ?_⟩
          rw [hmc] at hm2eq
          rw [hm2eq]
          exact hc0r
      · intro j hj
        rw [fwdFillCond, Bool.and_eq_true] at hfc
        have h255 : tbl.getD c 255 = 255 := by
          have := hfc.1
          simpa using this
        rcases hcells c hc with ⟨_, hnone⟩ | ⟨habs, _⟩
        · exact hnone j (by omega)
        · exact absurd h255 habs
  · have hchar : ∀ c ∈ List.range count,
        (decide ((fwdPass count moves getMove n tbl).1.getD c 255 = 255))
          = (decide (tbl.getD c 255 = 255) && !(fwdFillCond count moves getMove n tbl c)) := by
      intro c _
      rw [hval c]
      cases hfc : fwdFillCond count moves getMove n tbl c
      · simp
      · simp only [if_true, Bool.not_true, Bool.and_false]
        simp only [decide_eq_false_iff_not]
        omega
    have hcongr : unfilledCount count (fwdPass count moves getMove n tbl).1
        = (List.range count).countP
            (fun c => decide (tbl.getD c 255 = 255) &&
              !(fwdFillCond count moves getMove n tbl c)) := by
      rw [unfilledCount]
      exact List.countP_congr (fun c hcm => by rw [hchar c hcm])
    rw [hcongr, hcnt, unfilledCount]
    exact countP_diff _ _ (List.range count)
      (fun c _ hq => by
        rw [fwdFillCond, Bool.and_eq_true] at hq
        exact hq.1)

/-- A reverse pass at level `n` preserves the invariant identically. -/
theorem revPass_inv {M : Type} (count : Nat) (moves : List M)
    (getMove : Nat → M → Nat) (target n : Nat) (tbl : List Nat)
    (hn : n < 254)
    (hclosed : ∀ c < count, ∀ m ∈ moves, getMove c m < count)
    (hI : TblInv count moves getMove target n tbl) :
    TblInv count moves getMove target (n + 1) (revPass count moves getMove n tbl).1 ∧
    unfilledCount count (revPass count moves getMove n tbl).1
      + (revPass count moves getMove n tbl).2 = unfilledCount count tbl := by
  obtain ⟨hlen, hcells⟩ := hI
  obtain ⟨hlen', hval, hcnt⟩ := revPass_spec count moves getMove n tbl hn hlen
  constructor
  · refine ⟨hlen', ?_⟩
    intro c hc
    rw [hval c]
    cases hfc : (decide (c < count) && revFillCond moves getMove n tbl c)
    · simp only [Bool.false_eq_true, if_false]
      rcases hcells c hc with ⟨h255, hnone⟩ | hfilled
      · left
        refine ⟨h255, ?_⟩
        intro j hj
        rcases Nat.lt_or_ge j (n + 1) with hjn | hjn
        · exact hnone j (by omega)
        · have hj1 : j = n + 1 := by omega
          subst hj1
          by_contra hr
          have hr' : reachB getMove moves (n + 1) c target = true := by
            cases h : reachB getMove moves (n + 1) c target
            · exact absurd h hr
            · rfl
          rw [reachB, List.any_eq_true] at hr'
          obtain ⟨m, hm, hry⟩ := hr'
          have hy : getMove c m < count := hclosed c hc m hm
          have htby : tbl.getD (getMove c m) 255 = n := by
            rcases hcells (getMove c m) hy with ⟨_, hynone⟩ | ⟨_, hyr, hymin⟩
            · exact absurd hry (by rw [hynone n (le_refl n)]; simp)
            · have hvle : tbl.getD (getMove c m) 255 ≤ n := by
                by_contra hgt
                push_neg at hgt
                rw [hymin n hgt] at hry
                simp at hry
              rcases Nat.lt_or_ge (tbl.getD (getMove c m) 255) n with hvlt | hvge
              · exfalso
                have hrc : reachB getMove moves (tbl.getD (getMove c m) 255 + 1) c target
                    = true := by
                  rw [reachB, List.any_eq_true]
                  exact ⟨m, hm, hyr⟩
                have := hnone (tbl.getD (getMove c m) 255 + 1) (by omega)
                rw [this] at hrc
                simp at hrc
              · omega
          have : (decide (c < count) && revFillCond moves getMove n tbl c) = true := by
            have h1 : decide (c < count) = true := by simp [hc]
            have h2 : revFillCond moves getMove n tbl c = true := by
              rw [revFillCond]
              have h3 : decide (tbl.getD c 255 = 255) = true := by rw [h255]; simp
              have h4 : moves.any (fun m3 => decide (tbl.getD (getMove c m3) 255 = n))
                  = true := by
                rw [List.any_eq_true]
                exact ⟨m, hm, by rw [htby]; simp⟩
              rw [h3, h4]
              rfl
            rw [h1, h2]
            rfl
          rw [this] at hfc
          simp at hfc
      · right
        exact hfilled
    · simp only [if_true]
      right
      rw [Bool.and_eq_true] at hfc
      have hrfc := hfc.2
      rw [revFillCond, Bool.and_eq_true, List.any_eq_true] at hrfc
      obtain ⟨h255d, m, hm, hmy⟩ := hrfc
      have h255 : tbl.getD c 255 = 255 := by simpa using h255d
      simp only [decide_eq_true_eq] at hmy
      have hy : getMove c m < count := by
        by_contra hge
        push_neg at hge
        rw [getD_oob tbl (getMove c m) (by omega)] at hmy
        omega
      refine ⟨by omega, ?_, ?_⟩
      · rcases hcells (getMove c m) hy with ⟨habs, _⟩ | ⟨_, hyr, _⟩
        · rw [habs] at hmy
          omega
        · rw [hmy] at hyr
          rw [reachB, List.any_eq_true]
          exact ⟨m, hm, hyr⟩
      · intro j hj
        rcases hcells c hc with ⟨_, hnone⟩ | ⟨habs, _⟩
        · exact hnone j (by omega)
        · exact absurd h255 habs
  · have hchar : ∀ c ∈ List.range count,
        (decide ((revPass count moves getMove n tbl).1.getD c 255 = 255))
          = (decide (tbl.getD c 255 = 255) &&
            !(decide (c < count) && revFillCond moves getMove n tbl c)) := by
      intro c _
      rw [hval c]
      cases hfc : (decide (c < count) && revFillCond moves getMove n tbl c)
      · simp
      · simp only [if_true, Bool.not_true, Bool.and_false]
        simp only [decide_eq_false_iff_not]
        omega
    have hcongr : unfilledCount count (revPass count moves getMove n tbl).1
        = (List.range count).countP
            (fun c => decide (tbl.getD c 255 = 255) &&
              !(decide (c < count) && revFillCond moves getMove n tbl c)) := by
      rw [unfilledCount]
      exact List.countP_congr (fun c hcm => by rw [hchar c hcm])
    rw [hcongr, hcnt, unfilledCount]
    exact countP_diff _ _ (List.range count)
      (fun c _ hq => by
        rw [Bool.and_eq_true, revFillCond, Bool.and_eq_true] at hq
        exact hq.2.1)

theorem fwdLoop_inv {M : Type} (count : Nat) (moves : List M)
    (getMove : Nat → M → Nat) (target : Nat)
    (hclosed : ∀ c < count, ∀ m ∈ moves, getMove c m < count)
    (hback : ∀ c < count, ∀ m ∈ moves, ∃ m2 ∈ moves, getMove (getMove c m) m2 = c) :
    ∀ (fuel n rem : Nat) (tbl : List Nat) (tbl' : List Nat) (n' rem' : Nat),
      n + fuel ≤ 254 →
      TblInv count moves getMove target n tbl →
      rem = unfilledCount count tbl →
      fwdLoop count moves getMove fuel n rem tbl = (tbl', n', rem') →
      TblInv count moves getMove target n' tbl' ∧ rem' = unfilledCount count tbl' ∧
        n ≤ n' ∧ n' ≤ n + fuel := by
  intro fuel
  induction fuel with
  | zero =>
    intro n rem tbl tbl' n' rem' _ hI hrem heq
    rw [fwdLoop] at heq
    simp only [Prod.mk.injEq] at heq
    obtain ⟨h1, h2, h3⟩ := heq
    subst h1
    subst h2
    subst h3
    exact ⟨hI, hrem, le_refl n, by omega⟩
  | succ fuel ih =>
    intro n rem tbl tbl' n' rem' hb hI hrem heq
    rw [fwdLoop] at heq
    rcases hp : fwdPass count moves getMove n tbl with ⟨tblp, filled⟩
    rw [hp] at heq
    obtain ⟨hti, hcnteq⟩ := fwdPass_inv count moves getMove target n tbl
      (by omega) hclosed hback hI
    rw [hp] at hti hcnteq
    have heq2 : (if rem - filled ≤ filled then (tblp, n + 1, rem - filled)
        else fwdLoop count moves getMove fuel (n + 1) (rem - filled) tblp)
        = (tbl', n', rem') := heq
    split at heq2
    · simp only [Prod.mk.injEq] at heq2
      obtain ⟨h1, h2, h3⟩ := heq2
      subst h1
      subst h2
      subst h3
      refine ⟨hti, ?_, by omega, by omega⟩
      have : unfilledCount count tblp + filled = unfilledCount count tbl := hcnteq
      omega
    · have hrem' : rem - filled = unfilledCount count tblp := by
        have : unfilledCount count tblp + filled = unfilledCount count tbl := hcnteq
        omega
      have := ih (n + 1) (rem - filled) tblp tbl' n' rem' (by omega) hti hrem' heq2
      exact ⟨this.1, this.2.1, by omega, by omega⟩

theorem revLoop_inv {M : Type} (count : Nat) (moves : List M)
    (getMove : Nat → M → Nat) (target : Nat)
    (hclosed : ∀ c < count, ∀ m ∈ moves, getMove c m < count) :
    ∀ (fuel n rem : Nat) (tbl : List Nat) (tbl' : List Nat) (n' rem' : Nat),
      n + fuel ≤ 254 →
      TblInv count moves getMove target n tbl →
      rem = unfilledCount count tbl →
      revLoop count moves getMove fuel n rem tbl = (tbl', n', rem') →
      TblInv count moves getMove target n' tbl' ∧ rem' = unfilledCount count tbl' := by
  intro fuel
  induction fuel with
  | zero =>
    intro n rem tbl tbl' n' rem' _ hI hrem heq
    rw [revLoop] at heq
    simp only [Prod.mk.injEq] at heq
    obtain ⟨h1, h2, h3⟩ := heq
    subst h1
    subst h2
    subst h3
    exact ⟨hI, hrem⟩
  | succ fuel ih =>
    intro n rem tbl tbl' n' rem' hb hI hrem heq
    rw [revLoop] at heq
    split at heq
    · simp only [Prod.mk.injEq] at heq
      obtain ⟨h1, h2, h3⟩ := heq
      subst h1
      subst h2
      subst h3
      exact ⟨hI, hrem⟩
    · rcases hp : revPass count moves getMove n tbl with ⟨tblp, filled⟩
      rw [hp] at heq
      obtain ⟨hti, hcnteq⟩ := revPass_inv count moves getMove target n tbl
        (by omega) hclosed hI
      rw [hp] at hti hcnteq
      have hrem' : rem - filled = unfilledCount count tblp := by
        have : unfilledCount count tblp + filled = unfilledCount count tbl := hcnteq
        omega
      exact ih (n + 1) (rem - filled) tblp tbl' n' rem' (by omega) hti hrem' heq

theorem getD_replicate : ∀ (k c : Nat), (List.replicate k (255 : Nat)).getD c 255 = 255 := by
  intro k
  induction k with
  | zero => intro c; rfl
  | succ k ih =>
    intro c
    cases c with
    | zero => rfl
    | succ c => exact ih c

theorem countP_range_single (count target : Nat) (htarget : target < count) :
    (List.range count).countP (fun c => decide (c = target)) = 1 := by
  have := countP_update (fun _ => false) (fun c => decide (c = target)) target
    (List.range count) (List.nodup_range count) (List.mem_range.mpr htarget)
    rfl (by simp)
    (fun y _ hyne => by
      have : decide (y = target) = false := by
        simp only [decide_eq_false_iff_not]
        exact hyne
      simp [this])
  simpa using this

/-- The two-phase search of `FullPruneTable::create` is exact: when the
final `remaining` is 0, every entry of the table is the exact minimal
number of generator applications from its coordinate to the target (the
generator set being closed under inverses), and the target's entry is 0. -/
theorem fullPruneCreate_exact {M : Type} (count : Nat) (moves : List M)
    (getMove : Nat → M → Nat) (target fuel : Nat)
    (htarget : target < count)
    (hfuel : 2 * fuel ≤ 254)
    (hclosed : ∀ c < count, ∀ m ∈ moves, getMove c m < count)
    (hback : ∀ c < count, ∀ m ∈ moves, ∃ m2 ∈ moves, getMove (getMove c m) m2 = c)
    (hterm : (fullPruneCreate count moves getMove target fuel).2 = 0) :
    (∀ c, c < count →
      reachB getMove moves
        (getMinMoves (fullPruneCreate count moves getMove target fuel).1 c) c target
          = true ∧
      ∀ j < getMinMoves (fullPruneCreate count moves getMove target fuel).1 c,
        reachB getMove moves j c target = false) ∧
    getMinMoves (fullPruneCreate count moves getMove target fuel).1 target = 0 := by
  have hlen0 : ((List.replicate count 255).set target 0).length = count := by
    rw [List.length_set, List.length_replicate]
  have hI0 : TblInv count moves getMove target 0
      ((List.replicate count (255 : Nat)).set target 0) := by
    refine ⟨hlen0, ?_⟩
    intro c hc
    by_cases hct : c = target
    · subst hct
      right
      have hv : ((List.replicate count (255 : Nat)).set c 0).getD c 255 = 0 :=
        getD_set_self _ _ _ _ (by rw [List.length_replicate]; exact hc)
      rw [hv]
      refine ⟨by omega, ?_, by omega⟩
      rw [reachB]
      simp
    · left
      have hv : ((List.replicate count (255 : Nat)).set target 0).getD c 255 = 255 := by
        rw [getD_set_other _ _ _ _ _ hct, getD_replicate]
      rw [hv]
      refine ⟨rfl, ?_⟩
      intro j hj
      have hj0 : j = 0 := by omega
      subst hj0
      rw [reachB]
      simp only [decide_eq_false_iff_not]
      exact hct
  have hrem0 : count - 1
      = unfilledCount count ((List.replicate count (255 : Nat)).set target 0) := by
    rw [unfilledCount]
    have hchar : ∀ c ∈ List.range count,
        (decide (((List.replicate count (255 : Nat)).set target 0).getD c 255 = 255))
          = !(decide (c = target)) := by
      intro c hcm
      by_cases hct : c = target
      · subst hct
        have hv : ((List.replicate count (255 : Nat)).set c 0).getD c 255 = 0 :=
          getD_set_self _ _ _ _
            (by rw [List.length_replicate]; exact List.mem_range.mp hcm)
        rw [hv]
        simp
      · have hv : ((List.replicate count (255 : Nat)).set target 0).getD c 255 = 255 := by
          rw [getD_set_other _ _ _ _ _ hct, getD_replicate]
        rw [hv]
        have h1 : decide (c = target) = false := by
          simp only [decide_eq_false_iff_not]
          exact hct
        rw [h1]
        simp
    rw [List.countP_congr (fun c hcm => by rw [hchar c hcm])]
    have hdiff := countP_diff (fun _ => true) (fun c => decide (c = target))
      (List.range count) (fun y _ _ => rfl)
    simp only [Bool.true_and] at hdiff
    have htrue : (List.range count).countP (fun _ => true) = count := by
      rw [List.countP_true, List.length_range]
    rw [htrue, countP_range_single count target htarget] at hdiff
    omega
  rcases hf : fwdLoop count moves getMove fuel 0 (count - 1)
      ((List.replicate count (255 : Nat)).set target 0) with ⟨tbl1, n1, rem1⟩
  have h1 := fwdLoop_inv count moves getMove target hclosed hback fuel 0 (count - 1)
    _ tbl1 n1 rem1 (by omega) hI0 hrem0 hf
  rcases hr : revLoop count moves getMove fuel n1 rem1 tbl1 with ⟨tbl2, n2, rem2⟩
  have h2 := revLoop_inv count moves getMove target hclosed fuel n1 rem1 tbl1
    tbl2 n2 rem2 (by omega) h1.1 h1.2.1 hr
  have hfpc : fullPruneCreate count moves getMove target fuel = (tbl2, rem2) := by
    simp only [fullPruneCreate, hf, hr]
  rw [hfpc] at hterm ⊢
  have hrem2 : rem2 = 0 := hterm
  have hallf : ∀ c, c < count → tbl2.getD c 255 ≠ 255 := by
    intro c hc
    have h0 : unfilledCount count tbl2 = 0 := by
      have := h2.2
      omega
    rw [unfilledCount] at h0
    have hcp := List.countP_eq_zero.mp h0 c (List.mem_range.mpr hc)
    simpa using hcp
  obtain ⟨hlen2, hcells2⟩ := h2.1
  constructor
  · intro c hc
    rcases hcells2 c hc with ⟨habs, _⟩ | ⟨_, hre, hmin⟩
    · exact absurd habs (hallf c hc)
    · exact ⟨hre, hmin⟩
  · rcases hcells2 target htarget with ⟨habs, _⟩ | ⟨_, hre, hmin⟩
    · exact absurd habs (hallf target htarget)
    · have h0 : reachB getMove moves 0 target target = true := by
        rw [reachB]
        simp
      by_contra hne
      have hpos : 0 < tbl2.getD target 255 := Nat.pos_of_ne_zero hne
      have := hmin 0 hpos
      rw [h0] at this
      simp at this

/-! ### A shipped instance: the `ESliceEdgePosCoord`/`G1CubeTurn` prune table

The smallest coordinate/generator pair fed to `FullPruneTable::create` by the
3x3x3 driver has 24 states, so its two-phase fill can be evaluated outright
and `fullPruneCreate_exact` instantiated on it. -/

/-- Fuelled evaluator for `ESliceEdgePosCoord::into_perm` (the structural
variant of `applyCoord 4`). -/
def eSliceEdgePosIntoPermRun (c : Nat) : EdgePerm :=
  edgePermOfList (identEdges.take 8 ++ applyCoordRun 3 1 c (identEdges.drop 8))

theorem eSliceEdgePosIntoPermRun_eq (c : Nat) :
    eSliceEdgePosIntoPermRun c = eSliceEdgePosIntoPerm c := by
  rw [eSliceEdgePosIntoPermRun, eSliceEdgePosIntoPerm, applyCoord,
    applyCoordAux_eq_run 4 3 1 c _ rfl]

/-- The move-table law's value for `ESliceEdgePosCoord` under a phase-2
generator: `from_perm(sequence(into_perm(c), perm(m)))`. By
`move_tables_agree` this is exactly the shipped `BasicMoveTable` lookup. -/
def esliceGetMove (c : Nat) (m : G1CubeTurn) : Nat :=
  (eSliceEdgePosFromPerm (edgeSeq (eSliceEdgePosIntoPerm c)
    (G1CubeTurn.permutation m).edges)).getD 0

def esliceGetMoveRun (c : Nat) (m : G1CubeTurn) : Nat :=
  (eSliceEdgePosFromPerm (edgeSeq (eSliceEdgePosIntoPermRun c)
    (G1CubeTurn.permutation m).edges)).getD 0

theorem esliceGetMoveRun_eq : esliceGetMoveRun = esliceGetMove := by
  funext c m
  rw [esliceGetMoveRun, esliceGetMove, eSliceEdgePosIntoPermRun_eq]

set_option maxRecDepth 40000 in
set_option maxHeartbeats 4000000 in
/-- The 24-entry table `FullPruneTable::create` computes for
`ESliceEdgePosCoord` over `G1CubeTurn`, with the loop fully run
(`remaining` ends at 0). -/
theorem esliceRunTable_eq :
    fullPruneCreate 24 G1CubeTurn.iterList esliceGetMoveRun 0 12
      = ([0, 1, 2, 3, 2, 1, 3, 2, 3, 2, 1, 2, 4, 3, 2, 3, 2, 3, 3, 2, 1, 2, 3, 2], 0) := by
  decide

set_option maxRecDepth 40000 in
set_option maxHeartbeats 4000000 in
theorem esliceRun_closed :
    ∀ c < 24, ∀ m ∈ G1CubeTurn.iterList, esliceGetMoveRun c m < 24 := by
  have h : ∀ c ∈ List.range 24, ∀ m ∈ G1CubeTurn.iterList, esliceGetMoveRun c m < 24 := by
    decide
  intro c hc
  exact h c (List.mem_range.mpr hc)

set_option maxRecDepth 40000 in
set_option maxHeartbeats 16000000 in
/-- The phase-2 generator set is closed under inverses on this coordinate. -/
theorem esliceRun_back :
    ∀ c < 24, ∀ m ∈ G1CubeTurn.iterList,
      ∃ m2 ∈ G1CubeTurn.iterList, esliceGetMoveRun (esliceGetMoveRun c m) m2 = c := by
  have h : ∀ c ∈ List.range 24, ∀ m ∈ G1CubeTurn.iterList,
      ∃ m2 ∈ G1CubeTurn.iterList, esliceGetMoveRun (esliceGetMoveRun c m) m2 = c := by
    decide
  intro c hc
  exact h c (List.mem_range.mpr hc)

/-- The shipped 24-state `ESliceEdgePosCoord`/`G1CubeTurn` prune table is
exact: every entry is the minimal number of phase-2 generator applications to
the target, and the target's entry is 0. -/
theorem esliceFullPrune_exact :
    (∀ c, c < 24 →
      reachB esliceGetMove G1CubeTurn.iterList
        (getMinMoves (fullPruneCreate 24 G1CubeTurn.iterList esliceGetMove 0 12).1 c) c 0
          = true ∧
      ∀ j < getMinMoves (fullPruneCreate 24 G1CubeTurn.iterList esliceGetMove 0 12).1 c,
        reachB esliceGetMove G1CubeTurn.iterList j c 0 = false) ∧
    getMinMoves (fullPruneCreate 24 G1CubeTurn.iterList esliceGetMove 0 12).1 0 = 0 := by
  rw [← esliceGetMoveRun_eq]
  exact fullPruneCreate_exact 24 G1CubeTurn.iterList esliceGetMoveRun 0 12
    (by omega) (by omega) esliceRun_closed esliceRun_back
    (by rw [esliceRunTable_eq])

end Twisted
